import Mathlib

/-!
# GnuCash register sheet: pixel hit-testing, border merging and viewport drawing

A shallow embedding of `src/register/register-gnome/gnucash-sheet-private.c`.

Conventions of the embedding:

* `gint` values are `Int`; pixel coordinates are assumed to stay inside the
  range of `gint`, so that no addition wraps.
* A C pointer that may be `NULL` is an `Option`.
* A function that may dereference a `NULL` pointer returns an `Outcome`:
  `Outcome.null_deref` stands for the undefined behaviour of the C code.
* Loops are structural recursions over a fuel counter; `Outcome.out_of_fuel`
  is returned when the counter is exhausted.  Where the C loop is bounded by
  the sheet or style size the fuel is computed from that bound.
* Out-parameters (`VirtualCellLocation *`, `VirtualLocation *`) are passed in
  and returned.
* Drawing is recorded as a list of `Event`s; what one call of `draw_cell`
  draws is recorded in a `CellDrawing`.
* `guint8` and `guint32` values are `Nat` with an explicit `% 256` and
  `% 2 ^ 32` at every conversion; `double` coordinates are rationals.
-/

namespace Gnucash

/-! ## Data model -/

/-- Address of a block in the virtual grid. -/
structure VirtualCellLocation where
  virt_row : Int
  virt_col : Int
deriving DecidableEq, Repr

/-- Full address of a cell: block address plus physical offsets. -/
structure VirtualLocation where
  vcell_loc : VirtualCellLocation
  phys_row_offset : Int
  phys_col_offset : Int
deriving DecidableEq, Repr

/-- Pixel geometry of one physical cell, local to its block. -/
structure CellDimensions where
  origin_x : Int
  origin_y : Int
  pixel_width : Int
  pixel_height : Int
deriving DecidableEq, Repr

/-- The record behind `style->dimensions`: block height and width, and the
table of cell dimensions.  `cell_dimensions row col` is the lookup done by
`gnucash_style_get_cell_dimensions`, declared in `gnucash-style.h`; the
lookup is taken as a parameter and yields `none` for a `NULL` result. -/
structure BlockDimensions where
  height : Int
  width : Int
  cell_dimensions : Int → Int → Option CellDimensions

/-- Shared layout descriptor of a block. -/
structure SheetBlockStyle where
  nrows : Int
  ncols : Int
  dimensions : BlockDimensions

/-- One block of the sheet; `style` may be `NULL`. -/
structure SheetBlock where
  style : Option SheetBlockStyle
  origin_x : Int
  origin_y : Int
  visible : Bool

/-- The part of `GnucashSheet` read by the drawing code.  `get_block r c` is
`gnucash_sheet_get_block (sheet, {r, c})`, declared in `gnucash-sheet.h`; the
lookup is taken as a parameter and yields `none` for a `NULL` result. -/
structure GnucashSheet where
  num_virt_rows : Int
  num_virt_cols : Int
  get_block : Int → Int → Option SheetBlock

/-- Result of running a piece of the C code. -/
inductive Outcome (α : Type) where
  | ret (a : α)
  | null_deref
  | out_of_fuel
deriving DecidableEq, Repr

/-! ## Locator: `find_block_by_pixel`, `find_cell_by_pixel` -/

/-- How a `do ... while` scan ended: by `return NULL` from inside the loop,
or by leaving the loop with the given index (`hit` tells whether the loop was
left through `break`, in which case the out-parameter was written). -/
inductive ScanExit where
  | returned_null
  | left (index : Int) (hit : Bool)
deriving DecidableEq, Repr

/-- The test `block->visible && y >= block->origin_y &&
y < block->origin_y + block->style->dimensions->height` with the
short-circuit evaluation of C. -/
def row_test (block : SheetBlock) (y : Int) : Outcome Bool :=
  if block.visible = true ∧ y ≥ block.origin_y then
    match block.style with
    | none => .null_deref
    | some style => .ret (decide (y < block.origin_y + style.dimensions.height))
  else .ret false

/-- The test `block->visible && x >= block->origin_x &&
x < block->origin_x + block->style->dimensions->width`. -/
def col_test (block : SheetBlock) (x : Int) : Outcome Bool :=
  if block.visible = true ∧ x ≥ block.origin_x then
    match block.style with
    | none => .null_deref
    | some style => .ret (decide (x < block.origin_x + style.dimensions.width))
  else .ret false

/-- First loop of `find_block_by_pixel` (lines 65-81), entered with
`vc_loc = {virt_row, virt_col}`. -/
def find_block_rows (sheet : GnucashSheet) (y : Int) (virt_col : Int) :
    Nat → Int → Outcome ScanExit
  | 0, _ => .out_of_fuel
  | fuel + 1, virt_row =>
    match sheet.get_block virt_row virt_col with
    | none => .ret .returned_null
    | some block =>
      match row_test block y with
      | .null_deref => .null_deref
      | .out_of_fuel => .out_of_fuel
      | .ret true => .ret (.left virt_row true)
      | .ret false =>
        if virt_row + 1 < sheet.num_virt_rows then
          find_block_rows sheet y virt_col fuel (virt_row + 1)
        else .ret (.left (virt_row + 1) false)

/-- Second loop of `find_block_by_pixel` (lines 86-102); it yields the block
it stopped at together with the exit. -/
def find_block_cols (sheet : GnucashSheet) (x : Int) (virt_row : Int) :
    Nat → Int → Outcome (ScanExit × Option SheetBlock)
  | 0, _ => .out_of_fuel
  | fuel + 1, virt_col =>
    match sheet.get_block virt_row virt_col with
    | none => .ret (.returned_null, none)
    | some block =>
      match col_test block x with
      | .null_deref => .null_deref
      | .out_of_fuel => .out_of_fuel
      | .ret true => .ret (.left virt_col true, some block)
      | .ret false =>
        if virt_col + 1 < sheet.num_virt_cols then
          find_block_cols sheet x virt_row fuel (virt_col + 1)
        else .ret (.left (virt_col + 1) false, some block)

/-- The function `find_block_by_pixel` (lines 54-108).  `vcell_loc` is the
value behind the out-pointer on entry; the result is the returned block
pointer and the value behind the out-pointer on exit. -/
def find_block_by_pixel (sheet : GnucashSheet) (x y : Int)
    (vcell_loc : VirtualCellLocation) :
    Outcome (Option SheetBlock × VirtualCellLocation) :=
  if ¬ (y ≥ 0) then .ret (none, vcell_loc)
  else if ¬ (x ≥ 0) then .ret (none, vcell_loc)
  else
    match find_block_rows sheet y 0 ((sheet.num_virt_rows - 1).toNat + 1) 1 with
    | .null_deref => .null_deref
    | .out_of_fuel => .out_of_fuel
    | .ret .returned_null => .ret (none, vcell_loc)
    | .ret (.left virt_row hit) =>
      let vcell_loc1 : VirtualCellLocation :=
        if hit then { vcell_loc with virt_row := virt_row } else vcell_loc
      if virt_row = sheet.num_virt_rows then .ret (none, vcell_loc1)
      else
        match find_block_cols sheet x virt_row (sheet.num_virt_cols.toNat + 1) 0 with
        | .null_deref => .null_deref
        | .out_of_fuel => .out_of_fuel
        | .ret (.returned_null, _) => .ret (none, vcell_loc1)
        | .ret (.left virt_col hit2, block) =>
          let vcell_loc2 : VirtualCellLocation :=
            if hit2 then { vcell_loc1 with virt_col := virt_col } else vcell_loc1
          if virt_col = sheet.num_virt_cols then .ret (none, vcell_loc2)
          else .ret (block, vcell_loc2)

/-- First loop of `find_cell_by_pixel` (lines 134-143): scan of the physical
rows against the dimensions of the column-0 cells; `y` is block-local. -/
def find_cell_rows (style : SheetBlockStyle) (y : Int) : Nat → Int → Outcome Int
  | 0, _ => .out_of_fuel
  | fuel + 1, row =>
    match style.dimensions.cell_dimensions row 0 with
    | none => .null_deref
    | some cd =>
      if y ≥ cd.origin_y ∧ y < cd.origin_y + cd.pixel_height then .ret row
      else if row + 1 < style.nrows then find_cell_rows style y fuel (row + 1)
      else .ret (row + 1)

/-- Second loop of `find_cell_by_pixel` (lines 148-157): scan of the physical
columns of the row found; `x` is block-local. -/
def find_cell_cols (style : SheetBlockStyle) (x : Int) (row : Int) :
    Nat → Int → Outcome Int
  | 0, _ => .out_of_fuel
  | fuel + 1, col =>
    match style.dimensions.cell_dimensions row col with
    | none => .null_deref
    | some cd =>
      if x ≥ cd.origin_x ∧ x < cd.origin_x + cd.pixel_width then .ret col
      else if col + 1 < style.ncols then find_cell_cols style x row fuel (col + 1)
      else .ret (col + 1)

/-- The function `find_cell_by_pixel` (lines 110-168).  `virt_loc` is the
out-pointer (`none` for `NULL`); the result is the returned `gboolean` and
the value behind the pointer on exit. -/
def find_cell_by_pixel (sheet : GnucashSheet) (x y : Int)
    (virt_loc : Option VirtualLocation) : Outcome (Bool × Option VirtualLocation) :=
  match virt_loc with
  | none => .ret (false, none)
  | some loc =>
    match sheet.get_block loc.vcell_loc.virt_row loc.vcell_loc.virt_col with
    | none => .ret (false, some loc)
    | some block =>
      let x1 := x - block.origin_x
      let y1 := y - block.origin_y
      match block.style with
      | none => .ret (false, some loc)
      | some style =>
        match find_cell_rows style y1 (style.nrows.toNat + 1) 0 with
        | .null_deref => .null_deref
        | .out_of_fuel => .out_of_fuel
        | .ret row =>
          if row = style.nrows then .ret (false, some loc)
          else
            match find_cell_cols style x1 row (style.ncols.toNat + 1) 0 with
            | .null_deref => .null_deref
            | .out_of_fuel => .out_of_fuel
            | .ret col =>
              if col = style.ncols then .ret (false, some loc)
              else .ret (true, some { loc with phys_row_offset := row,
                                               phys_col_offset := col })

/-- The function `gnucash_sheet_find_loc_by_pixel` (lines 170-185). -/
def gnucash_sheet_find_loc_by_pixel (sheet : GnucashSheet) (x y : Int)
    (virt_loc : Option VirtualLocation) : Outcome (Bool × Option VirtualLocation) :=
  match virt_loc with
  | none => .ret (false, none)
  | some loc =>
    match find_block_by_pixel sheet x y loc.vcell_loc with
    | .null_deref => .null_deref
    | .out_of_fuel => .out_of_fuel
    | .ret (none, vc) => .ret (false, some { loc with vcell_loc := vc })
    | .ret (some _, vc) => find_cell_by_pixel sheet x y (some { loc with vcell_loc := vc })

/-! ## BorderResolver: `get_cell_borders` -/

/-- Modelled from the spec: the enumeration `PhysicalCellBorderLineStyle` is
declared in a header outside the file; the spec gives its five values, in
the order of their numeric rank. -/
inductive PhysicalCellBorderLineStyle where
  | CELL_BORDER_LINE_NONE
  | CELL_BORDER_LINE_LIGHT
  | CELL_BORDER_LINE_NORMAL
  | CELL_BORDER_LINE_HEAVY
  | CELL_BORDER_LINE_HIGHLIGHT
deriving DecidableEq, Repr

open PhysicalCellBorderLineStyle

/-- Modelled from the spec: the numeric value of an enumerator, which the C
comparisons `>=`, `>` and the macro `MAX` act on
(NONE < LIGHT < NORMAL < HEAVY < HIGHLIGHT). -/
def PhysicalCellBorderLineStyle.rank : PhysicalCellBorderLineStyle → Int
  | CELL_BORDER_LINE_NONE => 0
  | CELL_BORDER_LINE_LIGHT => 1
  | CELL_BORDER_LINE_NORMAL => 2
  | CELL_BORDER_LINE_HEAVY => 3
  | CELL_BORDER_LINE_HIGHLIGHT => 4

/-- The four border styles of a cell. -/
structure PhysicalCellBorders where
  top : PhysicalCellBorderLineStyle
  bottom : PhysicalCellBorderLineStyle
  left : PhysicalCellBorderLineStyle
  right : PhysicalCellBorderLineStyle
deriving DecidableEq, Repr

/-- The glib macro `MAX(a, b)`, which is `((a) > (b)) ? (a) : (b)`, on border
styles. -/
def MAX (a b : PhysicalCellBorderLineStyle) : PhysicalCellBorderLineStyle :=
  if a.rank > b.rank then a else b

/-- The queries of the Table Model used by `get_cell_borders`, taken as
parameters: `get_borders` is `gnucash_sheet_get_borders`,
`move_vertical_position loc n` is `gnc_table_move_vertical_position`
(returned `gboolean` and the location behind the pointer on exit), and
`virtual_loc_valid loc exact` is `gnc_table_virtual_loc_valid`. -/
structure TableModel where
  get_borders : VirtualLocation → PhysicalCellBorders
  move_vertical_position : VirtualLocation → Int → Bool × VirtualLocation
  virtual_loc_valid : VirtualLocation → Bool → Bool

/-- The function `get_cell_borders` (lines 187-229). -/
def get_cell_borders (table : TableModel) (virt_loc : VirtualLocation) :
    PhysicalCellBorders :=
  let borders := table.get_borders virt_loc
  -- top
  let up := table.move_vertical_position virt_loc (-1)
  let borders :=
    if up.1 = true then
      { borders with top := MAX borders.top (table.get_borders up.2).bottom }
    else borders
  -- bottom
  let down := table.move_vertical_position virt_loc 1
  let borders :=
    if down.1 = true then
      { borders with bottom := MAX borders.bottom (table.get_borders down.2).top }
    else borders
  -- left
  let v_loc := { virt_loc with phys_col_offset := virt_loc.phys_col_offset - 1 }
  let borders :=
    if table.virtual_loc_valid v_loc true = true then
      { borders with left := MAX borders.left (table.get_borders v_loc).right }
    else borders
  -- right
  let v_loc := { virt_loc with phys_col_offset := virt_loc.phys_col_offset + 1 }
  let borders :=
    if table.virtual_loc_valid v_loc true = true then
      { borders with right := MAX borders.right (table.get_borders v_loc).left }
    else borders
  borders

/-! ## CellRenderer: the border lines of `draw_cell` -/

/-- One call of `draw_cell_line`: end points and line style.  The `double`
coordinates are rationals. -/
structure CellLine where
  x1 : ℚ
  y1 : ℚ
  x2 : ℚ
  y2 : ℚ
  style : PhysicalCellBorderLineStyle
deriving DecidableEq

/-- The call of `draw_cell_line` for the top border (lines 424-430). -/
def top_line (borders : PhysicalCellBorders) (x y width : Int) : CellLine where
  x1 := if borders.top.rank ≥ borders.left.rank then (x : ℚ) else (x : ℚ) + 1
  y1 := (y : ℚ) + 1 / 2
  x2 := if borders.top.rank ≥ borders.right.rank then (x : ℚ) + width
        else (x : ℚ) + width - 1
  y2 := (y : ℚ) + 1 / 2
  style := borders.top

/-- The call of `draw_cell_line` for the bottom border (lines 433-439). -/
def bottom_line (borders : PhysicalCellBorders) (x y width height : Int) : CellLine where
  x1 := if borders.bottom.rank ≥ borders.left.rank then (x : ℚ) else (x : ℚ) + 1
  y1 := (y : ℚ) + height + 1 / 2
  x2 := if borders.bottom.rank ≥ borders.right.rank then (x : ℚ) + width
        else (x : ℚ) + width - 1
  y2 := (y : ℚ) + height + 1 / 2
  style := borders.bottom

/-- The call of `draw_cell_line` for the left border (lines 442-448). -/
def left_line (borders : PhysicalCellBorders) (x y height : Int) : CellLine where
  x1 := (x : ℚ) + 1 / 2
  y1 := if borders.left.rank > borders.top.rank then (y : ℚ) else (y : ℚ) + 1
  x2 := (x : ℚ) + 1 / 2
  y2 := if borders.left.rank > borders.bottom.rank then (y : ℚ) + height
        else (y : ℚ) + height - 1
  style := borders.left

/-- The call of `draw_cell_line` for the right border (lines 451-457). -/
def right_line (borders : PhysicalCellBorders) (x y width height : Int) : CellLine where
  x1 := (x : ℚ) + width + 1 / 2
  y1 := if borders.right.rank > borders.top.rank then (y : ℚ) else (y : ℚ) + 1
  x2 := (x : ℚ) + width + 1 / 2
  y2 := if borders.right.rank > borders.bottom.rank then (y : ℚ) + height
        else (y : ℚ) + height - 1
  style := borders.right

/-- The four calls of `draw_cell_line` made by `draw_cell` (lines 423-457),
in the order top, bottom, left, right, for the merged `borders` and the
paint rectangle `x y width height`. -/
def draw_cell_border_lines (borders : PhysicalCellBorders)
    (x y width height : Int) : List CellLine :=
  [top_line borders x y width, bottom_line borders x y width height,
   left_line borders x y height, right_line borders x y width height]

/-- The border lines `draw_cell` draws for the cell at `virt_loc`: the
borders are those merged by `get_cell_borders` (line 421). -/
def draw_cell_borders (table : TableModel) (virt_loc : VirtualLocation)
    (x y width height : Int) : List CellLine :=
  draw_cell_border_lines (get_cell_borders table virt_loc) x y width height

/-! ## BlockRenderer and ViewportRenderer -/

/-- What the drawing code does, in order: a call of `draw_block` on a block,
or a call of `draw_cell` with its location and paint rectangle. -/
inductive Event where
  | block (vcell_loc : VirtualCellLocation) (block : SheetBlock)
  | cell (virt_loc : VirtualLocation) (x y width height : Int)

/-- What the body of the inner loop of `draw_block` does for one cell. -/
inductive CellStep where
  | fault
  | brk
  | rtn
  | skip
  | paint (x_paint y_paint w h : Int)
deriving DecidableEq, Repr

/-- Body of the inner loop of `draw_block` (lines 602-628) for the cell
`(row, col)`. -/
def draw_block_cell (block : SheetBlock) (style : SheetBlockStyle)
    (x y width height : Int) (row col : Int) : CellStep :=
  match style.dimensions.cell_dimensions row col with
  | none => .fault
  | some cd =>
    let x_paint := block.origin_x + cd.origin_x - x
    if x_paint > width then .brk
    else
      let y_paint := block.origin_y + cd.origin_y - y
      if y_paint > height then .rtn
      else
        let h := cd.pixel_height
        let w := cd.pixel_width
        if w = 0 then .skip
        else if x_paint + w < 0 then .skip
        else if y_paint + h < 0 then .skip
        else .paint x_paint y_paint w h

/-- Inner loop of `draw_block` (lines 598-629) for the physical row `row`,
from column `col` on.  The result `true` stands for the `return` that
abandons the block, `false` for going on with the next row. -/
def draw_block_cols (block : SheetBlock) (style : SheetBlockStyle)
    (vcell_loc : VirtualCellLocation) (x y width height : Int) (row : Int) :
    Nat → Int → List Event × Outcome Bool
  | 0, _ => ([], .out_of_fuel)
  | fuel + 1, col =>
    if col < style.ncols then
      match draw_block_cell block style x y width height row col with
      | .fault => ([], .null_deref)
      | .brk => ([], .ret false)
      | .rtn => ([], .ret true)
      | .skip => draw_block_cols block style vcell_loc x y width height row fuel (col + 1)
      | .paint x_paint y_paint w h =>
        let rest := draw_block_cols block style vcell_loc x y width height row fuel (col + 1)
        (Event.cell ⟨vcell_loc, row, col⟩ x_paint y_paint w h :: rest.1, rest.2)
    else ([], .ret false)

/-- Outer loop of `draw_block` (lines 594-630), from physical row `row` on. -/
def draw_block_rows (block : SheetBlock) (style : SheetBlockStyle)
    (vcell_loc : VirtualCellLocation) (x y width height : Int) :
    Nat → Int → List Event × Outcome Unit
  | 0, _ => ([], .out_of_fuel)
  | fuel + 1, row =>
    if row < style.nrows then
      match draw_block_cols block style vcell_loc x y width height row
          (style.ncols.toNat + 1) 0 with
      | (evs, .null_deref) => (evs, .null_deref)
      | (evs, .out_of_fuel) => (evs, .out_of_fuel)
      | (evs, .ret true) => (evs, .ret ())
      | (evs, .ret false) =>
        let rest := draw_block_rows block style vcell_loc x y width height fuel (row + 1)
        (evs ++ rest.1, rest.2)
    else ([], .ret ())

/-- The function `draw_block` (lines 582-631): the `draw_cell` calls it
makes, in order. -/
def draw_block (block : SheetBlock) (virt_loc : VirtualLocation)
    (x y width height : Int) : List Event × Outcome Unit :=
  match block.style with
  | none => ([], .null_deref)
  | some style =>
    draw_block_rows block style virt_loc.vcell_loc x y width height
      (style.nrows.toNat + 1) 0

/-- The `while (TRUE)` loop of `gnucash_sheet_draw_internal` (lines 662-674):
`none` stands for its `return TRUE`, `some (r, b)` for leaving it through
`break` at virtual row `r` with the visible block `b`. -/
def skip_invisible (sheet : GnucashSheet) (virt_col : Int) :
    Nat → Int → Outcome (Option (Int × SheetBlock))
  | 0, _ => .out_of_fuel
  | fuel + 1, virt_row =>
    match sheet.get_block virt_row virt_col with
    | none => .ret none
    | some sheet_block =>
      match sheet_block.style with
      | none => .ret none
      | some _ =>
        if sheet_block.visible = true then .ret (some (virt_row, sheet_block))
        else skip_invisible sheet virt_col fuel (virt_row + 1)

/-- The `for` loop of `gnucash_sheet_draw_internal` (lines 659-681), entered
with `virt_loc.vcell_loc = {virt_row, virt_col}`; `inner` is the fuel given to
each run of the `while (TRUE)` loop. -/
def draw_internal_rows (sheet : GnucashSheet) (virt_loc : VirtualLocation)
    (x y width height : Int) (inner : Nat) :
    Nat → Int → List Event × Outcome Bool
  | 0, _ => ([], .out_of_fuel)
  | fuel + 1, virt_row =>
    if virt_row < sheet.num_virt_rows then
      match skip_invisible sheet virt_loc.vcell_loc.virt_col inner virt_row with
      | .null_deref => ([], .null_deref)
      | .out_of_fuel => ([], .out_of_fuel)
      | .ret none => ([], .ret true)
      | .ret (some (virt_row1, sheet_block)) =>
        if y + height < sheet_block.origin_y then ([], .ret true)
        else
          let vc : VirtualCellLocation := ⟨virt_row1, virt_loc.vcell_loc.virt_col⟩
          match draw_block sheet_block { virt_loc with vcell_loc := vc } x y width height with
          | (evs, .null_deref) => (Event.block vc sheet_block :: evs, .null_deref)
          | (evs, .out_of_fuel) => (Event.block vc sheet_block :: evs, .out_of_fuel)
          | (evs, .ret _) =>
            let rest := draw_internal_rows sheet virt_loc x y width height inner fuel
              (virt_row1 + 1)
            (Event.block vc sheet_block :: (evs ++ rest.1), rest.2)
    else ([], .ret true)

/-- The function `gnucash_sheet_draw_internal` (lines 633-684).  `x y` is the
viewport origin (the values of the two scroll adjustments), `width height`
the allocation, `virt_loc` the indeterminate initial content of the local
variable of that name, and `fuel` bounds the number of loop iterations. -/
def gnucash_sheet_draw_internal (sheet : GnucashSheet) (fuel : Nat)
    (virt_loc : VirtualLocation) (x y width height : Int) :
    List Event × Outcome Bool :=
  if x < 0 ∨ y < 0 then ([], .ret false)
  else
    match find_block_by_pixel sheet x y virt_loc.vcell_loc with
    | .null_deref => ([], .null_deref)
    | .out_of_fuel => ([], .out_of_fuel)
    | .ret (none, _) => ([], .ret false)
    | .ret (some sheet_block, vc) =>
      match sheet_block.style with
      | none => ([], .ret false)
      | some _ =>
        draw_internal_rows sheet { virt_loc with vcell_loc := vc } x y width height
          fuel fuel vc.virt_row

/-- The blocks `draw_block` was called on, in order. -/
def blocks_drawn : List Event → List (VirtualCellLocation × SheetBlock)
  | [] => []
  | Event.block vc b :: evs => (vc, b) :: blocks_drawn evs
  | Event.cell _ _ _ _ _ :: evs => blocks_drawn evs

/-- The cells `draw_cell` was called on, with their paint rectangles, in
order. -/
def cells_drawn : List Event → List (VirtualLocation × Int × Int × Int × Int)
  | [] => []
  | Event.block _ _ :: evs => cells_drawn evs
  | Event.cell loc x y w h :: evs => (loc, x, y, w, h) :: cells_drawn evs

/-! ## CellRenderer: colours, divider lines and text of `draw_cell` -/

/-- The function `dec_intensity_byte` (lines 263-268).  `input` is the
`guint8` argument; product and quotient are computed in `int` (the C division
truncates towards zero) and the result is converted to `guint8`. -/
def dec_intensity_byte (input : Nat) (numerator denominator : Int) : Nat :=
  (Int.tdiv ((input : Int) * numerator) denominator % 256).toNat

/-- The function `dec_intensity_10percent` (lines 272-281) on a `guint32`:
each masked and shifted channel is converted to `guint8` when passed
(`% 256`), the sum is converted to `guint32` (`% 2 ^ 32`). -/
def dec_intensity_10percent (argb : Nat) : Nat :=
  ((dec_intensity_byte (((argb &&& 0x00FF0000) >>> 16) % 256) 9 10 <<< 16)
    + (dec_intensity_byte (((argb &&& 0x0000FF00) >>> 8) % 256) 9 10 <<< 8)
    + dec_intensity_byte ((argb &&& 0x000000FF) % 256) 9 10) % 2 ^ 32

/-- A colour (`GdkRGBA *`): the colour made from an ARGB value by
`gnucash_color_argb_to_gdk`, or one of the global colours. -/
inductive Color where
  | of_argb (argb : Nat)
  | gn_light_gray
  | gn_black
  | gn_red
  | gn_blue
deriving DecidableEq, Repr

/-- Modelled from the spec: the enumeration `CellAlignment` is declared in a
header outside the file; the spec names its three values. -/
inductive CellAlignment where
  | CELL_ALIGN_RIGHT
  | CELL_ALIGN_CENTER
  | CELL_ALIGN_LEFT
deriving DecidableEq, Repr

/-- The Table behind `sheet->table` as read by `draw_cell`, taken as
parameters: the border queries of `TableModel`, the colour, text, label and
alignment queries (`gnc_table_get_gtkrc_bg_color` and `gnc_table_get_bg_color`
also yield the hatching flag), the divider rows of `table->model` and
`table->current_cursor_loc`.  A `const char *` is an `Option String`. -/
structure Table extends TableModel where
  get_gtkrc_bg_color : VirtualLocation → Nat × Bool
  get_bg_color : VirtualLocation → Nat × Bool
  get_gtkrc_fg_color : VirtualLocation → Nat
  get_fg_color : VirtualLocation → Nat
  get_entry : VirtualLocation → Option String
  get_label : VirtualLocation → Option String
  get_align : VirtualLocation → CellAlignment
  dividing_row_upper : Int
  dividing_row : Int
  dividing_row_lower : Int
  current_cursor_loc : VirtualLocation

/-- What `draw_cell` reads besides its arguments, taken as parameters: the
table, the flag `sheet->use_theme_colors`, the theme lookup `get_gtkrc_color`,
the padding constants `CELL_HPADDING` and `CELL_VPADDING` (defined in a header
outside the file) and the width of the logical rectangle that
`pango_layout_get_pixel_extents` measures for a text in normal or italic
style. -/
structure CellContext where
  table : Table
  use_theme_colors : Bool
  get_gtkrc_color : Nat → Color
  CELL_HPADDING : Int
  CELL_VPADDING : Int
  text_width : String → Bool → Int

/-- The colour with which `draw_cell_line` strokes a line of the given style
(lines 297-318). -/
def draw_cell_line_color (bg_color : Color) : PhysicalCellBorderLineStyle → Color
  | CELL_BORDER_LINE_NONE => bg_color
  | CELL_BORDER_LINE_LIGHT => Color.gn_light_gray
  | CELL_BORDER_LINE_NORMAL => Color.gn_black
  | CELL_BORDER_LINE_HEAVY => Color.gn_black
  | CELL_BORDER_LINE_HIGHLIGHT => Color.gn_red

/-- A divider line: a horizontal stroke of line width 3 from `(x, y)` over
`width` pixels. -/
structure DividerLine where
  color : Color
  x : ℚ
  y : ℚ
  width : ℚ
deriving DecidableEq

/-- The function `draw_divider_line` (lines 350-376): the line it strokes, if
any. -/
def draw_divider_line (virt_loc : VirtualLocation) (div_row n_phys_rows : Int)
    (fg_color : Color) (x y width height : ℚ) : Option DividerLine :=
  if div_row < 0 then none
  else if virt_loc.phys_row_offset = 0 ∧ virt_loc.vcell_loc.virt_row = div_row then
    some ⟨fg_color, x, y + 1 / 2 + 0, width⟩
  else if virt_loc.phys_row_offset = n_phys_rows - 1 ∧
      virt_loc.vcell_loc.virt_row = div_row - 1 then
    some ⟨fg_color, x, y + 1 / 2 + height, width⟩
  else none

/-- A text shown by `draw_cell`: the text of the layout, whether the font is
italic, the source colour, the clip rectangle and the position given to
`cairo_move_to`. -/
structure TextDraw where
  text : String
  italic : Bool
  color : Color
  clip_x : Int
  clip_y : Int
  clip_width : Int
  clip_height : Int
  x : Int
  y : Int
deriving DecidableEq, Repr

/-- The test `(text == NULL) || (*text == 0)` on a C string. -/
def text_empty : Option String → Bool
  | none => true
  | some s => decide (s = "")

/-- The `switch` on the alignment in `draw_cell` (lines 542-560): the value of
`x_offset` for a cell of width `width` and a text of measured width
`logical_width`. -/
def text_x_offset (hpadding : Int) (align : CellAlignment) (width logical_width : Int) :
    Int :=
  match align with
  | .CELL_ALIGN_LEFT => 0
  | .CELL_ALIGN_RIGHT => width - 2 * hpadding - logical_width
  | .CELL_ALIGN_CENTER =>
    if logical_width > width - 2 * hpadding then 0
    else Int.tdiv (width - 2 * hpadding - logical_width) 2

/-- Lines 529-565 of `draw_cell`: the text `text`, not empty, is measured,
clipped to the cell interior and shown at its aligned position. -/
def show_text (ctx : CellContext) (virt_loc : VirtualLocation) (text : String)
    (italic : Bool) (fg_color : Color) (x y width height : Int) : TextDraw :=
  let logical_width := ctx.text_width text italic
  let rect_x := x + ctx.CELL_HPADDING
  let rect_y := y + ctx.CELL_VPADDING
  let rect_width := if (0 : Int) > width - 2 * ctx.CELL_HPADDING then 0
    else width - 2 * ctx.CELL_HPADDING
  let rect_height := height - 2
  let x_offset := text_x_offset ctx.CELL_HPADDING (ctx.table.get_align virt_loc) width
    logical_width
  { text := text, italic := italic, color := fg_color,
    clip_x := rect_x, clip_y := rect_y, clip_width := rect_width,
    clip_height := rect_height, x := rect_x + x_offset, y := rect_y + 1 }

/-- Lines 480-567 of `draw_cell`: the text shown in the cell, if any.  The
macro `READONLY_LINES_WITH_CHANGED_FG_COLOR` is not defined. -/
def draw_cell_text (ctx : CellContext) (virt_loc : VirtualLocation)
    (x y width height : Int) : Option TextDraw :=
  let text := ctx.table.get_entry virt_loc
  let fg_color :=
    if ctx.use_theme_colors = true then
      ctx.get_gtkrc_color (ctx.table.get_gtkrc_fg_color virt_loc)
    else Color.of_argb (ctx.table.get_fg_color virt_loc)
  if ctx.table.current_cursor_loc.vcell_loc.virt_row = virt_loc.vcell_loc.virt_row ∧
      text_empty text = true then
    match ctx.table.get_label virt_loc with
    | none => none
    | some label =>
      if label = "" then none
      else some (show_text ctx virt_loc label true Color.gn_light_gray x y width height)
  else
    match text with
    | none => none
    | some t =>
      if t = "" then none
      else some (show_text ctx virt_loc t false fg_color x y width height)

/-- Lines 398-415 of `draw_cell`: the background colour and the hatching
flag, for a block whose style has `nrows` physical rows. -/
def draw_cell_bg (ctx : CellContext) (nrows : Int) (virt_loc : VirtualLocation) :
    Color × Bool :=
  if ctx.use_theme_colors = true then
    let r := ctx.table.get_gtkrc_bg_color virt_loc
    (ctx.get_gtkrc_color r.1, r.2)
  else
    let r := ctx.table.get_bg_color virt_loc
    let argb :=
      if virt_loc.phys_row_offset = nrows - 1 ∧ ctx.table.dividing_row_upper ≥ 0 ∧
          virt_loc.vcell_loc.virt_row < ctx.table.dividing_row_upper then
        dec_intensity_10percent r.1
      else r.1
    (Color.of_argb argb, r.2)

/-- Everything one call of `draw_cell` draws, in the order of the code: the
background fill, the four border lines with their colours, the hatching, the
three divider lines and the text. -/
structure CellDrawing where
  bg_color : Color
  fill_x : Int
  fill_y : Int
  fill_width : Int
  fill_height : Int
  border_lines : List (Color × CellLine)
  hatching : Bool
  divider_upper : Option DividerLine
  divider : Option DividerLine
  divider_lower : Option DividerLine
  text : Option TextDraw

/-- The function `draw_cell` (lines 378-580).  `block->style` is dereferenced
for its `nrows`. -/
def draw_cell (ctx : CellContext) (block : SheetBlock) (virt_loc : VirtualLocation)
    (x y width height : Int) : Outcome CellDrawing :=
  match block.style with
  | none => .null_deref
  | some style =>
    let bg := draw_cell_bg ctx style.nrows virt_loc
    .ret
      { bg_color := bg.1
        fill_x := x, fill_y := y, fill_width := width, fill_height := height
        border_lines :=
          (draw_cell_borders ctx.table.toTableModel virt_loc x y width height).map
            (fun l => (draw_cell_line_color bg.1 l.style, l))
        hatching := bg.2
        divider_upper := draw_divider_line virt_loc ctx.table.dividing_row_upper
          style.nrows Color.gn_red x y width height
        divider := draw_divider_line virt_loc ctx.table.dividing_row
          style.nrows Color.gn_blue x y width height
        divider_lower := draw_divider_line virt_loc ctx.table.dividing_row_lower
          style.nrows Color.gn_blue x y width height
        text := draw_cell_text ctx virt_loc x y width height }

/-! ## Locator with the record of its lookups -/

/-- A table lookup made by the Locator: a call of `gnucash_sheet_get_block`
at a virtual address, or a call of `gnucash_style_get_cell_dimensions` on a
style at a physical address. -/
inductive Lookup where
  | block (virt_row virt_col : Int)
  | cell (style : SheetBlockStyle) (row col : Int)

/-- First loop of `find_block_by_pixel` (lines 65-81) with the lookups it
makes, in order. -/
def find_block_rows_traced (sheet : GnucashSheet) (y : Int) (virt_col : Int) :
    Nat → Int → List Lookup × Outcome ScanExit
  | 0, _ => ([], .out_of_fuel)
  | fuel + 1, virt_row =>
    match sheet.get_block virt_row virt_col with
    | none => ([Lookup.block virt_row virt_col], .ret .returned_null)
    | some block =>
      match row_test block y with
      | .null_deref => ([Lookup.block virt_row virt_col], .null_deref)
      | .out_of_fuel => ([Lookup.block virt_row virt_col], .out_of_fuel)
      | .ret true => ([Lookup.block virt_row virt_col], .ret (.left virt_row true))
      | .ret false =>
        if virt_row + 1 < sheet.num_virt_rows then
          let rest := find_block_rows_traced sheet y virt_col fuel (virt_row + 1)
          (Lookup.block virt_row virt_col :: rest.1, rest.2)
        else ([Lookup.block virt_row virt_col], .ret (.left (virt_row + 1) false))

/-- Second loop of `find_block_by_pixel` (lines 86-102) with the lookups it
makes, in order. -/
def find_block_cols_traced (sheet : GnucashSheet) (x : Int) (virt_row : Int) :
    Nat → Int → List Lookup × Outcome (ScanExit × Option SheetBlock)
  | 0, _ => ([], .out_of_fuel)
  | fuel + 1, virt_col =>
    match sheet.get_block virt_row virt_col with
    | none => ([Lookup.block virt_row virt_col], .ret (.returned_null, none))
    | some block =>
      match col_test block x with
      | .null_deref => ([Lookup.block virt_row virt_col], .null_deref)
      | .out_of_fuel => ([Lookup.block virt_row virt_col], .out_of_fuel)
      | .ret true =>
        ([Lookup.block virt_row virt_col], .ret (.left virt_col true, some block))
      | .ret false =>
        if virt_col + 1 < sheet.num_virt_cols then
          let rest := find_block_cols_traced sheet x virt_row fuel (virt_col + 1)
          (Lookup.block virt_row virt_col :: rest.1, rest.2)
        else
          ([Lookup.block virt_row virt_col], .ret (.left (virt_col + 1) false, some block))

/-- The function `find_block_by_pixel` (lines 54-108) with the lookups it
makes, in order. -/
def find_block_by_pixel_traced (sheet : GnucashSheet) (x y : Int)
    (vcell_loc : VirtualCellLocation) :
    List Lookup × Outcome (Option SheetBlock × VirtualCellLocation) :=
  if ¬ (y ≥ 0) then ([], .ret (none, vcell_loc))
  else if ¬ (x ≥ 0) then ([], .ret (none, vcell_loc))
  else
    match find_block_rows_traced sheet y 0 ((sheet.num_virt_rows - 1).toNat + 1) 1 with
    | (ls, .null_deref) => (ls, .null_deref)
    | (ls, .out_of_fuel) => (ls, .out_of_fuel)
    | (ls, .ret .returned_null) => (ls, .ret (none, vcell_loc))
    | (ls, .ret (.left virt_row hit)) =>
      let vcell_loc1 : VirtualCellLocation :=
        if hit then { vcell_loc with virt_row := virt_row } else vcell_loc
      if virt_row = sheet.num_virt_rows then (ls, .ret (none, vcell_loc1))
      else
        match find_block_cols_traced sheet x virt_row (sheet.num_virt_cols.toNat + 1) 0 with
        | (ls2, .null_deref) => (ls ++ ls2, .null_deref)
        | (ls2, .out_of_fuel) => (ls ++ ls2, .out_of_fuel)
        | (ls2, .ret (.returned_null, _)) => (ls ++ ls2, .ret (none, vcell_loc1))
        | (ls2, .ret (.left virt_col hit2, block)) =>
          let vcell_loc2 : VirtualCellLocation :=
            if hit2 then { vcell_loc1 with virt_col := virt_col } else vcell_loc1
          if virt_col = sheet.num_virt_cols then (ls ++ ls2, .ret (none, vcell_loc2))
          else (ls ++ ls2, .ret (block, vcell_loc2))

/-- First loop of `find_cell_by_pixel` (lines 134-143) with the lookups it
makes, in order. -/
def find_cell_rows_traced (style : SheetBlockStyle) (y : Int) :
    Nat → Int → List Lookup × Outcome Int
  | 0, _ => ([], .out_of_fuel)
  | fuel + 1, row =>
    match style.dimensions.cell_dimensions row 0 with
    | none => ([Lookup.cell style row 0], .null_deref)
    | some cd =>
      if y ≥ cd.origin_y ∧ y < cd.origin_y + cd.pixel_height then
        ([Lookup.cell style row 0], .ret row)
      else if row + 1 < style.nrows then
        let rest := find_cell_rows_traced style y fuel (row + 1)
        (Lookup.cell style row 0 :: rest.1, rest.2)
      else ([Lookup.cell style row 0], .ret (row + 1))

/-- Second loop of `find_cell_by_pixel` (lines 148-157) with the lookups it
makes, in order. -/
def find_cell_cols_traced (style : SheetBlockStyle) (x : Int) (row : Int) :
    Nat → Int → List Lookup × Outcome Int
  | 0, _ => ([], .out_of_fuel)
  | fuel + 1, col =>
    match style.dimensions.cell_dimensions row col with
    | none => ([Lookup.cell style row col], .null_deref)
    | some cd =>
      if x ≥ cd.origin_x ∧ x < cd.origin_x + cd.pixel_width then
        ([Lookup.cell style row col], .ret col)
      else if col + 1 < style.ncols then
        let rest := find_cell_cols_traced style x row fuel (col + 1)
        (Lookup.cell style row col :: rest.1, rest.2)
      else ([Lookup.cell style row col], .ret (col + 1))

/-- The function `find_cell_by_pixel` (lines 110-168) with the lookups it
makes, in order. -/
def find_cell_by_pixel_traced (sheet : GnucashSheet) (x y : Int)
    (virt_loc : Option VirtualLocation) :
    List Lookup × Outcome (Bool × Option VirtualLocation) :=
  match virt_loc with
  | none => ([], .ret (false, none))
  | some loc =>
    let l0 := Lookup.block loc.vcell_loc.virt_row loc.vcell_loc.virt_col
    match sheet.get_block loc.vcell_loc.virt_row loc.vcell_loc.virt_col with
    | none => ([l0], .ret (false, some loc))
    | some block =>
      let x1 := x - block.origin_x
      let y1 := y - block.origin_y
      match block.style with
      | none => ([l0], .ret (false, some loc))
      | some style =>
        match find_cell_rows_traced style y1 (style.nrows.toNat + 1) 0 with
        | (ls, .null_deref) => (l0 :: ls, .null_deref)
        | (ls, .out_of_fuel) => (l0 :: ls, .out_of_fuel)
        | (ls, .ret row) =>
          if row = style.nrows then (l0 :: ls, .ret (false, some loc))
          else
            match find_cell_cols_traced style x1 row (style.ncols.toNat + 1) 0 with
            | (ls2, .null_deref) => (l0 :: (ls ++ ls2), .null_deref)
            | (ls2, .out_of_fuel) => (l0 :: (ls ++ ls2), .out_of_fuel)
            | (ls2, .ret col) =>
              if col = style.ncols then (l0 :: (ls ++ ls2), .ret (false, some loc))
              else (l0 :: (ls ++ ls2),
                .ret (true, some { loc with phys_row_offset := row,
                                            phys_col_offset := col }))

/-- The function `gnucash_sheet_find_loc_by_pixel` (lines 170-185) with the
lookups it makes, in order. -/
def gnucash_sheet_find_loc_by_pixel_traced (sheet : GnucashSheet) (x y : Int)
    (virt_loc : Option VirtualLocation) :
    List Lookup × Outcome (Bool × Option VirtualLocation) :=
  match virt_loc with
  | none => ([], .ret (false, none))
  | some loc =>
    match find_block_by_pixel_traced sheet x y loc.vcell_loc with
    | (ls, .null_deref) => (ls, .null_deref)
    | (ls, .out_of_fuel) => (ls, .out_of_fuel)
    | (ls, .ret (none, vc)) => (ls, .ret (false, some { loc with vcell_loc := vc }))
    | (ls, .ret (some _, vc)) =>
      let rest := find_cell_by_pixel_traced sheet x y (some { loc with vcell_loc := vc })
      (ls ++ rest.1, rest.2)

/-- The lookup is within the bounds of the table it is made on: the block
grid of the sheet, or the cell table of the style. -/
def lookup_in_bounds (sheet : GnucashSheet) : Lookup → Prop
  | .block virt_row virt_col =>
    0 ≤ virt_row ∧ virt_row < sheet.num_virt_rows ∧
    0 ≤ virt_col ∧ virt_col < sheet.num_virt_cols
  | .cell style row col =>
    0 ≤ row ∧ row < style.nrows ∧ 0 ≤ col ∧ col < style.ncols

/-- The precondition of the Locator: at least two virtual rows, at least one
virtual column, every block in range has a style and that style has at least
one physical row and one physical column. -/
def LocatorPrecondition (sheet : GnucashSheet) : Prop :=
  2 ≤ sheet.num_virt_rows ∧ 1 ≤ sheet.num_virt_cols ∧
  ∀ r c, 0 ≤ r → r < sheet.num_virt_rows → 0 ≤ c → c < sheet.num_virt_cols →
    ∃ b st, sheet.get_block r c = some b ∧ b.style = some st ∧
      1 ≤ st.nrows ∧ 1 ≤ st.ncols

/-! ## Predicates used in the statements -/

/-- The call `draw_cell (loc, x_paint, y_paint, w, h)` is a legitimate paint
of a cell of `block`: `loc` addresses a cell of the block at `vcell_loc`, the
rectangle is that cell's rectangle relative to the viewport origin `(x, y)`,
the cell is not of zero width and the rectangle is not fully outside the
viewport of size `width × height`. -/
def paint_ok (block : SheetBlock) (style : SheetBlockStyle)
    (vcell_loc : VirtualCellLocation) (x y width height : Int)
    (c : VirtualLocation × Int × Int × Int × Int) : Prop :=
  ∃ cd, c.1.vcell_loc = vcell_loc ∧
    style.dimensions.cell_dimensions c.1.phys_row_offset c.1.phys_col_offset = some cd ∧
    c.2.1 = block.origin_x + cd.origin_x - x ∧
    c.2.2.1 = block.origin_y + cd.origin_y - y ∧
    c.2.2.2.1 = cd.pixel_width ∧ c.2.2.2.2 = cd.pixel_height ∧
    cd.pixel_width ≠ 0 ∧
    c.2.1 + c.2.2.2.1 ≥ 0 ∧ c.2.2.1 + c.2.2.2.2 ≥ 0 ∧
    c.2.1 ≤ width ∧ c.2.2.1 ≤ height

/-- A corner where a horizontal border line of rank `hrank` meets a vertical
border line of rank `vrank` is resolved when exactly one line reaches the
corner and the other is inset: the horizontal line has its end coordinate
`hcoord` at `hreach` iff `hrank ≥ vrank` and at `hinset` otherwise, the
vertical line has its end coordinate `vcoord` at `vreach` iff
`vrank > hrank` and at `vinset` otherwise. -/
def corner_resolved (hrank vrank : Int) (hcoord hreach hinset : ℚ)
    (vcoord vreach vinset : ℚ) : Prop :=
  (hcoord = hreach ↔ hrank ≥ vrank) ∧ (hcoord = hinset ↔ ¬ hrank ≥ vrank) ∧
  (vcoord = vreach ↔ vrank > hrank) ∧ (vcoord = vinset ↔ ¬ vrank > hrank) ∧
  ((hcoord = hreach ∧ vcoord = vinset) ∨ (hcoord = hinset ∧ vcoord = vreach))

/-- Every cell inside the bounds of a style in use has dimensions. -/
def CellsPresent (sheet : GnucashSheet) : Prop :=
  ∀ r c b st, sheet.get_block r c = some b → b.style = some st →
    ∀ pr pc, 0 ≤ pr → pr < st.nrows → 0 ≤ pc → pc < st.ncols →
      ∃ cd, st.dimensions.cell_dimensions pr pc = some cd

/-- The column-0 cell of physical row `r` of the style contains the
block-local `y` in its range `[origin_y, origin_y + pixel_height)`. -/
def phys_row_hit (style : SheetBlockStyle) (y r : Int) : Prop :=
  0 ≤ r ∧ r < style.nrows ∧
  ∃ cd, style.dimensions.cell_dimensions r 0 = some cd ∧
    cd.origin_y ≤ y ∧ y < cd.origin_y + cd.pixel_height

/-- The cell `(r, c)` of the style contains the block-local `x` in its range
`[origin_x, origin_x + pixel_width)`. -/
def phys_col_hit (style : SheetBlockStyle) (x r c : Int) : Prop :=
  0 ≤ c ∧ c < style.ncols ∧
  ∃ cd, style.dimensions.cell_dimensions r c = some cd ∧
    cd.origin_x ≤ x ∧ x < cd.origin_x + cd.pixel_width

/-- The row `r` is the least physical row with `phys_row_hit`. -/
def least_phys_row (style : SheetBlockStyle) (y r : Int) : Prop :=
  phys_row_hit style y r ∧ ∀ r1, r1 < r → ¬ phys_row_hit style y r1

/-- The column `c` is the least physical column of row `r` with
`phys_col_hit`. -/
def least_phys_col (style : SheetBlockStyle) (x r c : Int) : Prop :=
  phys_col_hit style x r c ∧ ∀ c1, c1 < c → ¬ phys_col_hit style x r c1

/-- The style is monotonic: every cell inside the bounds has dimensions,
within a physical row `origin_x` is non-decreasing in the column index and
all cells share the same `origin_y`, and `origin_y` is non-decreasing in the
row index. -/
structure StyleMonotonic (style : SheetBlockStyle) : Prop where
  cell_exists : ∀ r c, 0 ≤ r → r < style.nrows → 0 ≤ c → c < style.ncols →
    ∃ cd, style.dimensions.cell_dimensions r c = some cd
  cols_monotone : ∀ r c1 c2 cd1 cd2, 0 ≤ r → r < style.nrows →
    0 ≤ c1 → c1 ≤ c2 → c2 < style.ncols →
    style.dimensions.cell_dimensions r c1 = some cd1 →
    style.dimensions.cell_dimensions r c2 = some cd2 → cd1.origin_x ≤ cd2.origin_x
  row_shared_y : ∀ r c1 c2 cd1 cd2, 0 ≤ r → r < style.nrows →
    0 ≤ c1 → c1 < style.ncols → 0 ≤ c2 → c2 < style.ncols →
    style.dimensions.cell_dimensions r c1 = some cd1 →
    style.dimensions.cell_dimensions r c2 = some cd2 → cd1.origin_y = cd2.origin_y
  rows_monotone : ∀ r1 r2 cd1 cd2, 0 ≤ r1 → r1 ≤ r2 → r2 < style.nrows →
    style.dimensions.cell_dimensions r1 0 = some cd1 →
    style.dimensions.cell_dimensions r2 0 = some cd2 → cd1.origin_y ≤ cd2.origin_y

/-- The naive filter of the block renderer for one cell, without early exit:
the cell `(row, col)` is selected, with its paint rectangle, when
`pixel_width ≠ 0`, `x_paint ≤ width`, `y_paint ≤ height`, `x_paint + w ≥ 0`
and `y_paint + h ≥ 0`. -/
def naive_cell (block : SheetBlock) (style : SheetBlockStyle)
    (vcell_loc : VirtualCellLocation) (x y width height : Int) (row col : Int) :
    Option (VirtualLocation × Int × Int × Int × Int) :=
  match style.dimensions.cell_dimensions row col with
  | none => none
  | some cd =>
    let x_paint := block.origin_x + cd.origin_x - x
    let y_paint := block.origin_y + cd.origin_y - y
    if cd.pixel_width ≠ 0 ∧ x_paint ≤ width ∧ y_paint ≤ height ∧
        x_paint + cd.pixel_width ≥ 0 ∧ y_paint + cd.pixel_height ≥ 0 then
      some (⟨vcell_loc, row, col⟩, x_paint, y_paint, cd.pixel_width, cd.pixel_height)
    else none

/-- The cells of physical row `row` selected by the naive filter, in column
order. -/
def naive_row (block : SheetBlock) (style : SheetBlockStyle)
    (vcell_loc : VirtualCellLocation) (x y width height : Int) (row : Nat) :
    List (VirtualLocation × Int × Int × Int × Int) :=
  (List.range style.ncols.toNat).filterMap
    (fun (col : Nat) => naive_cell block style vcell_loc x y width height (row : Int)
      (col : Int))

/-- The cells of the block selected by the naive filter over all
`(row, col)`, in row-major order. -/
def draw_block_naive (block : SheetBlock) (style : SheetBlockStyle)
    (vcell_loc : VirtualCellLocation) (x y width height : Int) :
    List (VirtualLocation × Int × Int × Int × Int) :=
  (List.range style.nrows.toNat).flatMap
    (fun (row : Nat) => naive_row block style vcell_loc x y width height row)

/-- Every cell of physical row `r` starts below the viewport. -/
def row_below (block : SheetBlock) (style : SheetBlockStyle) (y height r : Int) : Prop :=
  ∀ c cd, 0 ≤ c → c < style.ncols → style.dimensions.cell_dimensions r c = some cd →
    block.origin_y + cd.origin_y - y > height

/-! ## Layout invariants -/

/-- Block lookups outside the grid yield `NULL`. -/
def LookupBounded (sheet : GnucashSheet) : Prop :=
  ∀ r c b, sheet.get_block r c = some b →
    0 ≤ r ∧ r < sheet.num_virt_rows ∧ 0 ≤ c ∧ c < sheet.num_virt_cols

/-- Cell-dimension lookups outside the style yield `NULL`. -/
def CellLookupBounded (style : SheetBlockStyle) : Prop :=
  ∀ r c cd, style.dimensions.cell_dimensions r c = some cd →
    0 ≤ r ∧ r < style.nrows ∧ 0 ≤ c ∧ c < style.ncols

/-- Cell-dimension lookups of every style in use are bounded. -/
def StylesBounded (sheet : GnucashSheet) : Prop :=
  ∀ r c b st, sheet.get_block r c = some b → b.style = some st → CellLookupBounded st

/-- The layout invariants of a style: every cell of the style has dimensions,
lies inside the block extents, the cells of a physical row share their
vertical extent, and rows and columns are ascending and non-overlapping. -/
structure StyleLayout (style : SheetBlockStyle) : Prop where
  cell_exists : ∀ r c, 0 ≤ r → r < style.nrows → 0 ≤ c → c < style.ncols →
    ∃ cd, style.dimensions.cell_dimensions r c = some cd
  inside : ∀ r c cd, 0 ≤ r → r < style.nrows → 0 ≤ c → c < style.ncols →
    style.dimensions.cell_dimensions r c = some cd →
    0 ≤ cd.origin_x ∧ cd.origin_x + cd.pixel_width ≤ style.dimensions.width ∧
    0 ≤ cd.origin_y ∧ cd.origin_y + cd.pixel_height ≤ style.dimensions.height
  row_shared : ∀ r c cd cd0, 0 ≤ r → r < style.nrows → 0 ≤ c → c < style.ncols →
    style.dimensions.cell_dimensions r c = some cd →
    style.dimensions.cell_dimensions r 0 = some cd0 →
    cd.origin_y = cd0.origin_y ∧ cd.pixel_height = cd0.pixel_height
  rows_ascending : ∀ r1 r2 cd1 cd2, 0 ≤ r1 → r1 < r2 → r2 < style.nrows →
    style.dimensions.cell_dimensions r1 0 = some cd1 →
    style.dimensions.cell_dimensions r2 0 = some cd2 →
    cd1.origin_y + cd1.pixel_height ≤ cd2.origin_y
  cols_ascending : ∀ r c1 c2 cd1 cd2, 0 ≤ r → r < style.nrows →
    0 ≤ c1 → c1 < c2 → c2 < style.ncols →
    style.dimensions.cell_dimensions r c1 = some cd1 →
    style.dimensions.cell_dimensions r c2 = some cd2 →
    cd1.origin_x + cd1.pixel_width ≤ cd2.origin_x

/-- The rectilinear layout invariants of a grid: every block of the grid
exists and has a style that satisfies `StyleLayout`; the blocks of a virtual
row share `origin_y` and height, the blocks of a virtual column share
`origin_x` and width; within a virtual column `origin_y` is non-decreasing
and a visible block ends where or before the blocks of later rows begin;
within a virtual row a visible block ends where or before the blocks of
later columns begin. -/
structure SheetLayout (sheet : GnucashSheet) : Prop where
  block_exists : ∀ r c, 0 ≤ r → r < sheet.num_virt_rows → 0 ≤ c →
    c < sheet.num_virt_cols →
    ∃ b st, sheet.get_block r c = some b ∧ b.style = some st ∧ StyleLayout st
  row_shared : ∀ r c1 c2 b1 b2 st1 st2, 0 ≤ r → r < sheet.num_virt_rows →
    0 ≤ c1 → c1 < sheet.num_virt_cols → 0 ≤ c2 → c2 < sheet.num_virt_cols →
    sheet.get_block r c1 = some b1 → sheet.get_block r c2 = some b2 →
    b1.style = some st1 → b2.style = some st2 →
    b1.origin_y = b2.origin_y ∧ st1.dimensions.height = st2.dimensions.height
  col_shared : ∀ r1 r2 c b1 b2 st1 st2, 0 ≤ r1 → r1 < sheet.num_virt_rows →
    0 ≤ r2 → r2 < sheet.num_virt_rows → 0 ≤ c → c < sheet.num_virt_cols →
    sheet.get_block r1 c = some b1 → sheet.get_block r2 c = some b2 →
    b1.style = some st1 → b2.style = some st2 →
    b1.origin_x = b2.origin_x ∧ st1.dimensions.width = st2.dimensions.width
  rows_ascending : ∀ r1 r2 c b1 b2 st1, 0 ≤ r1 → r1 < r2 → r2 < sheet.num_virt_rows →
    0 ≤ c → c < sheet.num_virt_cols →
    sheet.get_block r1 c = some b1 → sheet.get_block r2 c = some b2 →
    b1.style = some st1 →
    b1.origin_y ≤ b2.origin_y ∧
    (b1.visible = true → b1.origin_y + st1.dimensions.height ≤ b2.origin_y)
  cols_ascending : ∀ r c1 c2 b1 b2 st1, 0 ≤ r → r < sheet.num_virt_rows →
    0 ≤ c1 → c1 < c2 → c2 < sheet.num_virt_cols →
    sheet.get_block r c1 = some b1 → sheet.get_block r c2 = some b2 →
    b1.style = some st1 → b1.visible = true →
    b1.origin_x + st1.dimensions.width ≤ b2.origin_x

/-- No visible block of virtual column 0, in a virtual row from 1 on, has a
vertical pixel range `[origin_y, origin_y + height)` that contains `y`. -/
def no_row_contains (sheet : GnucashSheet) (y : Int) : Prop :=
  ∀ r b, 1 ≤ r → sheet.get_block r 0 = some b → b.visible = true →
    b.origin_y ≤ y → ∃ st, b.style = some st ∧ b.origin_y + st.dimensions.height ≤ y

/-- Block lookups outside `0 ≤ virt_row < num_virt_rows` yield `NULL`. -/
def RowLookupBounded (sheet : GnucashSheet) : Prop :=
  ∀ r c b, sheet.get_block r c = some b → 0 ≤ r ∧ r < sheet.num_virt_rows

/-! ## Example data -/

/-- A style of two physical rows and one physical column; each cell is 20
pixels high and `w` pixels wide. -/
def style_2x1 (w : Int) : SheetBlockStyle where
  nrows := 2
  ncols := 1
  dimensions :=
    { height := 40
      width := w
      cell_dimensions := fun r c =>
        if c = 0 ∧ 0 ≤ r ∧ r < 2 then some ⟨0, 20 * r, w, 20⟩ else none }

/-- The grid of the scenario: three virtual rows and one virtual column, every
block visible with the style `style_2x1 w`, block origins at y = 0, 40, 80. -/
def scenario_sheet (w : Int) : GnucashSheet where
  num_virt_rows := 3
  num_virt_cols := 1
  get_block := fun r c =>
    if c = 0 ∧ 0 ≤ r ∧ r < 3 then
      some { style := some (style_2x1 w), origin_x := 0, origin_y := 40 * r,
             visible := true }
    else none

/-- A style of one physical row and two physical columns in which the cell
of column 1 is only 5 pixels high while the cell of column 0 is 20 pixels
high. -/
def style_uneven : SheetBlockStyle where
  nrows := 1
  ncols := 2
  dimensions :=
    { height := 20
      width := 100
      cell_dimensions := fun r c =>
        if r = 0 ∧ c = 0 then some ⟨0, 0, 50, 20⟩
        else if r = 0 ∧ c = 1 then some ⟨50, 0, 50, 5⟩
        else none }

/-- A grid of two virtual rows and one virtual column with the style
`style_uneven`; block origins at y = 0 and y = 20. -/
def sheet_uneven : GnucashSheet where
  num_virt_rows := 2
  num_virt_cols := 1
  get_block := fun r c =>
    if c = 0 ∧ 0 ≤ r ∧ r < 2 then
      some { style := some style_uneven, origin_x := 0, origin_y := 20 * r,
             visible := true }
    else none

/-- A grid of two virtual rows and two virtual columns laid out rectilinearly
(blocks 50 wide and 40 high); the block at virtual row 1, virtual column 0
has the visible flag `v`, every other block is visible. -/
def sheet_2x2 (v : Bool) : GnucashSheet where
  num_virt_rows := 2
  num_virt_cols := 2
  get_block := fun r c =>
    if 0 ≤ r ∧ r < 2 ∧ 0 ≤ c ∧ c < 2 then
      some { style := some (style_2x1 50), origin_x := 50 * c, origin_y := 40 * r,
             visible := v || !(decide (r = 1 ∧ c = 0)) }
    else none

/-- An arbitrary initial value for a location out-parameter. -/
def loc0 : VirtualLocation := ⟨⟨0, 0⟩, 0, 0⟩


/-- A Table Model with a two-cell row: the cell at physical column 0 accepts
the pointer, the cell at physical column 1 does not (an output-only cell) and
asks for a heavy left border; no vertical move succeeds. -/
def table_output_only : TableModel where
  get_borders := fun loc =>
    if loc.phys_col_offset = 1 then
      ⟨CELL_BORDER_LINE_NONE, CELL_BORDER_LINE_NONE, CELL_BORDER_LINE_HEAVY,
        CELL_BORDER_LINE_NONE⟩
    else
      ⟨CELL_BORDER_LINE_NONE, CELL_BORDER_LINE_NONE, CELL_BORDER_LINE_NONE,
        CELL_BORDER_LINE_NONE⟩
  move_vertical_position := fun loc _ => (false, loc)
  virtual_loc_valid := fun loc _ => decide (loc.phys_col_offset = 0)

/-- A Table Model in which every location is valid and where the border
styles depend on the physical column. -/
def table_all_valid : TableModel where
  get_borders := fun loc =>
    if loc.phys_col_offset = 1 then
      ⟨CELL_BORDER_LINE_NONE, CELL_BORDER_LINE_NONE, CELL_BORDER_LINE_HEAVY,
        CELL_BORDER_LINE_NONE⟩
    else
      ⟨CELL_BORDER_LINE_NONE, CELL_BORDER_LINE_NONE, CELL_BORDER_LINE_NONE,
        CELL_BORDER_LINE_LIGHT⟩
  move_vertical_position := fun loc _ => (false, loc)
  virtual_loc_valid := fun _ _ => true

/-- A Table for one cell: every location is valid, the raw background is
white (0xFFFFFF) without hatching, the raw foreground black, the upper
dividing row is 5 and the other dividers are disabled; the alignment, the
active virtual row, the entry text and the label are given. -/
def table_cell (align : CellAlignment) (active_row : Int)
    (entry label : Option String) : Table where
  toTableModel := table_all_valid
  get_gtkrc_bg_color := fun _ => (0, false)
  get_bg_color := fun _ => (0xFFFFFF, false)
  get_gtkrc_fg_color := fun _ => 1
  get_fg_color := fun _ => 0
  get_entry := fun _ => entry
  get_label := fun _ => label
  get_align := fun _ => align
  dividing_row_upper := 5
  dividing_row := -1
  dividing_row_lower := -1
  current_cursor_loc := ⟨⟨active_row, 0⟩, 0, 0⟩

/-- A drawing context over `table_cell`: horizontal padding 5, vertical
padding 2, every theme colour is white (0xFFFFFF) and every text measures 60
pixels. -/
def ctx_cell (theme : Bool) (align : CellAlignment) (active_row : Int)
    (entry label : Option String) : CellContext where
  table := table_cell align active_row entry label
  use_theme_colors := theme
  get_gtkrc_color := fun _ => Color.of_argb 0xFFFFFF
  CELL_HPADDING := 5
  CELL_VPADDING := 2
  text_width := fun _ _ => 60

/-- A visible block at the origin with the style `style_2x1 50`. -/
def block_cell : SheetBlock := ⟨some (style_2x1 50), 0, 0, true⟩

theorem rank_injective (a b : PhysicalCellBorderLineStyle) (h : a.rank = b.rank) :
    a = b := by
  cases a <;> cases b <;> first | rfl | (exfalso; revert h; decide)

theorem MAX_rank (a b : PhysicalCellBorderLineStyle) :
    (MAX a b).rank = max a.rank b.rank := by
  unfold MAX
  split_ifs with h
  · exact (max_eq_left (le_of_lt h)).symm
  · exact (max_eq_right (not_lt.mp h)).symm

theorem MAX_comm (a b : PhysicalCellBorderLineStyle) : MAX a b = MAX b a := by
  apply rank_injective
  rw [MAX_rank, MAX_rank, max_comm]

/-- C4 (as stated, refuted): in `table_output_only` the cell B at physical
column 1 is the right neighbour of the cell A at physical column 0 of the
same block, yet the merged right border of A is NONE while the merged left
border of B is HEAVY, the maximum of the two raw borders: the location B is
not valid for the Table Model, so A's right border is not merged. -/
theorem border_symmetry_counterexample :
    (⟨⟨1, 0⟩, 0, 1⟩ : VirtualLocation) =
      { (⟨⟨1, 0⟩, 0, 0⟩ : VirtualLocation) with phys_col_offset := 0 + 1 } ∧
    (get_cell_borders table_output_only ⟨⟨1, 0⟩, 0, 0⟩).right = CELL_BORDER_LINE_NONE ∧
    (get_cell_borders table_output_only ⟨⟨1, 0⟩, 0, 1⟩).left = CELL_BORDER_LINE_HEAVY ∧
    MAX (table_output_only.get_borders ⟨⟨1, 0⟩, 0, 0⟩).right
      (table_output_only.get_borders ⟨⟨1, 0⟩, 0, 1⟩).left = CELL_BORDER_LINE_HEAVY ∧
    (get_cell_borders table_output_only ⟨⟨1, 0⟩, 0, 0⟩).right ≠
      (get_cell_borders table_output_only ⟨⟨1, 0⟩, 0, 1⟩).left := by
  decide

/-- C4 (amended): for two cells A and B of the same block with B at the next
physical column, both valid locations for the Table Model
(`gnc_table_virtual_loc_valid` with exact pointer), the merged right border
of A equals the merged left border of B, and its rank is the maximum of the
ranks of A's raw right border and B's raw left border. -/
theorem border_symmetry_of_valid (table : TableModel) (A B : VirtualLocation)
    (hAB : B = { A with phys_col_offset := A.phys_col_offset + 1 })
    (hA : table.virtual_loc_valid A true = true)
    (hB : table.virtual_loc_valid B true = true) :
    (get_cell_borders table A).right = (get_cell_borders table B).left ∧
    (get_cell_borders table A).right =
      MAX (table.get_borders A).right (table.get_borders B).left ∧
    (get_cell_borders table A).right.rank =
      max (table.get_borders A).right.rank (table.get_borders B).left.rank := by
  have hBA : ({ B with phys_col_offset := B.phys_col_offset - 1 } : VirtualLocation) = A := by
    subst hAB
    cases A
    simp
  have hr : (get_cell_borders table A).right =
      MAX (table.get_borders A).right (table.get_borders B).left := by
    subst hAB
    simp only [get_cell_borders, hB, if_true]
    split_ifs <;> rfl
  have hl : (get_cell_borders table B).left =
      MAX (table.get_borders B).left (table.get_borders A).right := by
    simp only [get_cell_borders, hBA, hA, if_true]
    split_ifs <;> rfl
  refine ⟨?_, hr, ?_⟩
  · rw [hr, hl, MAX_comm]
  · rw [hr, MAX_rank]

theorem border_symmetry_of_valid_witness :
    (get_cell_borders table_all_valid ⟨⟨1, 0⟩, 0, 0⟩).right
        = (get_cell_borders table_all_valid ⟨⟨1, 0⟩, 0, 1⟩).left ∧
    (get_cell_borders table_all_valid ⟨⟨1, 0⟩, 0, 0⟩).right =
      MAX (table_all_valid.get_borders ⟨⟨1, 0⟩, 0, 0⟩).right
        (table_all_valid.get_borders ⟨⟨1, 0⟩, 0, 1⟩).left ∧
    (get_cell_borders table_all_valid ⟨⟨1, 0⟩, 0, 0⟩).right.rank =
      max (table_all_valid.get_borders ⟨⟨1, 0⟩, 0, 0⟩).right.rank
        (table_all_valid.get_borders ⟨⟨1, 0⟩, 0, 1⟩).left.rank :=
  border_symmetry_of_valid table_all_valid ⟨⟨1, 0⟩, 0, 0⟩ ⟨⟨1, 0⟩, 0, 1⟩
    (by decide) (by decide) (by decide)

/-- C5: `get_cell_borders` merges each own border with the facing border of
the neighbour when the neighbour exists: top with the bottom of the location
reached by moving -1 row, bottom with the top of the location reached by
moving +1 row, left with the right of the location at `phys_col_offset - 1`
when that location is valid, right with the left of the location at
`phys_col_offset + 1` when valid; otherwise the own border is kept.  The
merge `MAX` is the maximum by rank, and the ranks are ordered
NONE < LIGHT < NORMAL < HEAVY < HIGHLIGHT. -/
theorem get_cell_borders_spec (table : TableModel) (loc : VirtualLocation) :
    let own := table.get_borders loc
    let up := table.move_vertical_position loc (-1)
    let down := table.move_vertical_position loc 1
    let l : VirtualLocation := { loc with phys_col_offset := loc.phys_col_offset - 1 }
    let r : VirtualLocation := { loc with phys_col_offset := loc.phys_col_offset + 1 }
    ((get_cell_borders table loc).top =
        if up.1 = true then MAX own.top (table.get_borders up.2).bottom else own.top) ∧
    ((get_cell_borders table loc).bottom =
        if down.1 = true then MAX own.bottom (table.get_borders down.2).top
        else own.bottom) ∧
    ((get_cell_borders table loc).left =
        if table.virtual_loc_valid l true = true then
          MAX own.left (table.get_borders l).right
        else own.left) ∧
    ((get_cell_borders table loc).right =
        if table.virtual_loc_valid r true = true then
          MAX own.right (table.get_borders r).left
        else own.right) ∧
    (∀ a b : PhysicalCellBorderLineStyle, (MAX a b).rank = max a.rank b.rank) ∧
    CELL_BORDER_LINE_NONE.rank < CELL_BORDER_LINE_LIGHT.rank ∧
    CELL_BORDER_LINE_LIGHT.rank < CELL_BORDER_LINE_NORMAL.rank ∧
    CELL_BORDER_LINE_NORMAL.rank < CELL_BORDER_LINE_HEAVY.rank ∧
    CELL_BORDER_LINE_HEAVY.rank < CELL_BORDER_LINE_HIGHLIGHT.rank := by
  intro own up down l r
  refine ⟨?_, ?_, ?_, ?_, MAX_rank, by decide, by decide, by decide, by decide⟩ <;>
    (simp only [get_cell_borders]; split_ifs <;> rfl)

theorem corner_resolved_intro (hrank vrank : Int) (hreach hinset vreach vinset : ℚ)
    (hh : hreach ≠ hinset) (hv : vreach ≠ vinset) :
    corner_resolved hrank vrank (if hrank ≥ vrank then hreach else hinset) hreach hinset
      (if vrank > hrank then vreach else vinset) vreach vinset := by
  unfold corner_resolved
  by_cases h : hrank ≥ vrank
  · have h2 : ¬ vrank > hrank := not_lt.mpr h
    simp only [h, h2, if_true, if_false, true_iff, iff_true, not_true_eq_false,
      not_false_eq_true, iff_false, and_self, true_or, and_true, true_and]
    exact ⟨hh, hv.symm⟩
  · have h2 : vrank > hrank := not_le.mp h
    simp only [h, h2, if_true, if_false, true_iff, iff_true, not_true_eq_false,
      not_false_eq_true, iff_false, and_self, or_true, and_true, true_and]
    exact ⟨hh.symm, hv⟩

/-- C6: corner tie-break of `draw_cell`.  The four border lines are drawn with
the severities merged by `get_cell_borders`, and at each of the four corners
of the paint rectangle exactly one of the two lines meeting there reaches the
corner while the other is inset by one pixel: the top or bottom line reaches
it iff its rank is at least the rank of the left or right line, the left or
right line reaches it iff its rank is strictly greater.  In particular, with
equal top and left severity the top line starts at `x` and the left line
starts at `y + 1`. -/
theorem corner_tie_break (table : TableModel) (loc : VirtualLocation)
    (x y width height : Int) :
    let bs := get_cell_borders table loc
    let t := top_line bs x y width
    let b := bottom_line bs x y width height
    let l := left_line bs x y height
    let r := right_line bs x y width height
    draw_cell_borders table loc x y width height = [t, b, l, r] ∧
    t.style = bs.top ∧ b.style = bs.bottom ∧ l.style = bs.left ∧ r.style = bs.right ∧
    corner_resolved bs.top.rank bs.left.rank t.x1 x (x + 1) l.y1 y (y + 1) ∧
    corner_resolved bs.top.rank bs.right.rank t.x2 (x + width) (x + width - 1)
      r.y1 y (y + 1) ∧
    corner_resolved bs.bottom.rank bs.left.rank b.x1 x (x + 1)
      l.y2 (y + height) (y + height - 1) ∧
    corner_resolved bs.bottom.rank bs.right.rank b.x2 (x + width) (x + width - 1)
      r.y2 (y + height) (y + height - 1) ∧
    (bs.top = bs.left → t.x1 = x ∧ l.y1 = y + 1) := by
  intro bs t b l r
  refine ⟨rfl, rfl, rfl, rfl, rfl, ?_, ?_, ?_, ?_, ?_⟩
  · exact corner_resolved_intro _ _ _ _ _ _ (by linarith) (by linarith)
  · exact corner_resolved_intro _ _ _ _ _ _ (by linarith) (by linarith)
  · exact corner_resolved_intro _ _ _ _ _ _ (by linarith) (by linarith)
  · exact corner_resolved_intro _ _ _ _ _ _ (by linarith) (by linarith)
  · intro h
    simp only [t, l, top_line, left_line, h, ge_iff_le, le_refl, if_true, gt_iff_lt,
      lt_irrefl, if_false, and_self]

/-! ## Theorems: what the renderers draw -/

theorem blocks_drawn_append (a b : List Event) :
    blocks_drawn (a ++ b) = blocks_drawn a ++ blocks_drawn b := by
  induction a with
  | nil => rfl
  | cons e a ih => cases e <;> simp [blocks_drawn, ih]

theorem cells_drawn_append (a b : List Event) :
    cells_drawn (a ++ b) = cells_drawn a ++ cells_drawn b := by
  induction a with
  | nil => rfl
  | cons e a ih => cases e <;> simp [cells_drawn, ih]

theorem draw_block_cell_paint (block : SheetBlock) (style : SheetBlockStyle)
    (vcell_loc : VirtualCellLocation) (x y width height row col xp yp w h : Int)
    (hp : draw_block_cell block style x y width height row col = .paint xp yp w h) :
    paint_ok block style vcell_loc x y width height (⟨vcell_loc, row, col⟩, xp, yp, w, h) := by
  unfold draw_block_cell at hp
  cases hcd : style.dimensions.cell_dimensions row col with
  | none => simp [hcd] at hp
  | some cd =>
    simp only [hcd] at hp
    split_ifs at hp with h1 h2 h3 h4 h5
    simp only [CellStep.paint.injEq] at hp
    obtain ⟨rfl, rfl, rfl, rfl⟩ := hp
    refine ⟨cd, rfl, hcd, rfl, rfl, rfl, rfl, h3, ?_, ?_, ?_, ?_⟩ <;> dsimp only <;> omega

theorem draw_block_cols_cells (block : SheetBlock) (style : SheetBlockStyle)
    (vcell_loc : VirtualCellLocation) (x y width height row : Int) (fuel : Nat) :
    ∀ col, ∀ c ∈ cells_drawn
        (draw_block_cols block style vcell_loc x y width height row fuel col).1,
      paint_ok block style vcell_loc x y width height c := by
  induction fuel with
  | zero => intro col c hc; simp [draw_block_cols, cells_drawn] at hc
  | succ n ih =>
    intro col c hc
    unfold draw_block_cols at hc
    split_ifs at hc with hlt
    · cases hstep : draw_block_cell block style x y width height row col with
      | fault => simp [hstep, cells_drawn] at hc
      | brk => simp [hstep, cells_drawn] at hc
      | rtn => simp [hstep, cells_drawn] at hc
      | skip =>
        simp only [hstep] at hc
        exact ih _ c hc
      | paint xp yp w h =>
        simp only [hstep, cells_drawn, List.mem_cons] at hc
        rcases hc with rfl | hc
        · exact draw_block_cell_paint block style vcell_loc x y width height row col _ _ _ _ hstep
        · exact ih _ c hc
    · simp [cells_drawn] at hc

theorem draw_block_rows_cells (block : SheetBlock) (style : SheetBlockStyle)
    (vcell_loc : VirtualCellLocation) (x y width height : Int) (fuel : Nat) :
    ∀ row, ∀ c ∈ cells_drawn
        (draw_block_rows block style vcell_loc x y width height fuel row).1,
      paint_ok block style vcell_loc x y width height c := by
  induction fuel with
  | zero => intro row c hc; simp [draw_block_rows, cells_drawn] at hc
  | succ n ih =>
    intro row c hc
    unfold draw_block_rows at hc
    split_ifs at hc with hlt
    · have hcols := draw_block_cols_cells block style vcell_loc x y width height row
        (style.ncols.toNat + 1) 0
      rcases hres : draw_block_cols block style vcell_loc x y width height row
        (style.ncols.toNat + 1) 0 with ⟨evs, o⟩
      rw [hres] at hc hcols
      rcases o with (_ | _) | _ | _
      · simp only [cells_drawn_append, List.mem_append] at hc
        rcases hc with hc | hc
        · exact hcols c hc
        · exact ih _ c hc
      · exact hcols c hc
      · exact hcols c hc
      · exact hcols c hc
    · simp [cells_drawn] at hc

/-- C9: every cell that `draw_block` passes to `draw_cell` is a cell of the
block with `pixel_width ≠ 0`, painted at the cell's rectangle relative to the
viewport origin, and that rectangle is not fully outside the viewport: not
fully left of it (`x_paint + w ≥ 0`), not fully above it (`y_paint + h ≥ 0`),
not right of it (`x_paint ≤ width`) and not below it (`y_paint ≤ height`). -/
theorem draw_block_paints_inside (block : SheetBlock) (virt_loc : VirtualLocation)
    (x y width height : Int) (loc : VirtualLocation) (x_paint y_paint w h : Int)
    (hc : (loc, x_paint, y_paint, w, h) ∈
      cells_drawn (draw_block block virt_loc x y width height).1) :
    w ≠ 0 ∧ x_paint + w ≥ 0 ∧ y_paint + h ≥ 0 ∧ x_paint ≤ width ∧ y_paint ≤ height ∧
    ∃ style cd, block.style = some style ∧ loc.vcell_loc = virt_loc.vcell_loc ∧
      style.dimensions.cell_dimensions loc.phys_row_offset loc.phys_col_offset = some cd ∧
      w = cd.pixel_width ∧ h = cd.pixel_height ∧
      x_paint = block.origin_x + cd.origin_x - x ∧
      y_paint = block.origin_y + cd.origin_y - y := by
  unfold draw_block at hc
  cases hst : block.style with
  | none => simp [hst, cells_drawn] at hc
  | some style =>
    simp only [hst] at hc
    obtain ⟨cd, h1, h2, h3, h4, h5, h6, h7, h8, h9, h10, h11⟩ :=
      draw_block_rows_cells block style virt_loc.vcell_loc x y width height _ _ _ hc
    simp only at h1 h2 h3 h4 h5 h6 h7 h8 h9 h10 h11
    refine ⟨by rw [h5]; exact h7, h8, h9, h10, h11, style, cd, rfl, h1, h2, h5, h6, h3, h4⟩

theorem draw_block_paints_inside_witness :
    (20 : Int) ≠ 0 ∧ (0 : Int) + 20 ≥ 0 ∧ (-10 : Int) + 20 ≥ 0 ∧ (0 : Int) ≤ 100 ∧
    (-10 : Int) ≤ 50 ∧
    ∃ style cd, (SheetBlock.mk (some (style_2x1 20)) 0 40 true).style = some style ∧
      (⟨⟨1, 0⟩, 0, 0⟩ : VirtualLocation).vcell_loc = (⟨⟨1, 0⟩, 7, 7⟩ : VirtualLocation).vcell_loc ∧
      style.dimensions.cell_dimensions 0 0 = some cd ∧
      20 = cd.pixel_width ∧ 20 = cd.pixel_height ∧
      0 = (SheetBlock.mk (some (style_2x1 20)) 0 40 true).origin_x + cd.origin_x - 0 ∧
      -10 = (SheetBlock.mk (some (style_2x1 20)) 0 40 true).origin_y + cd.origin_y - 50 :=
  draw_block_paints_inside ⟨some (style_2x1 20), 0, 40, true⟩ ⟨⟨1, 0⟩, 7, 7⟩ 0 50 100 50
    ⟨⟨1, 0⟩, 0, 0⟩ 0 (-10) 20 20 (by decide)

theorem draw_block_cols_blocks (block : SheetBlock) (style : SheetBlockStyle)
    (vcell_loc : VirtualCellLocation) (x y width height row : Int) (fuel : Nat) :
    ∀ col, blocks_drawn
      (draw_block_cols block style vcell_loc x y width height row fuel col).1 = [] := by
  induction fuel with
  | zero => intro col; rfl
  | succ n ih =>
    intro col
    unfold draw_block_cols
    split_ifs with hlt
    · cases hstep : draw_block_cell block style x y width height row col with
      | fault => rfl
      | brk => rfl
      | rtn => rfl
      | skip => exact ih _
      | paint xp yp w h => simp only [blocks_drawn]; exact ih _
    · rfl

theorem draw_block_rows_blocks (block : SheetBlock) (style : SheetBlockStyle)
    (vcell_loc : VirtualCellLocation) (x y width height : Int) (fuel : Nat) :
    ∀ row, blocks_drawn
      (draw_block_rows block style vcell_loc x y width height fuel row).1 = [] := by
  induction fuel with
  | zero => intro row; rfl
  | succ n ih =>
    intro row
    unfold draw_block_rows
    split_ifs with hlt
    · have hcols := draw_block_cols_blocks block style vcell_loc x y width height row
        (style.ncols.toNat + 1) 0
      rcases hres : draw_block_cols block style vcell_loc x y width height row
        (style.ncols.toNat + 1) 0 with ⟨evs, o⟩
      rw [hres] at hcols
      rcases o with (_ | _) | _ | _
      · simp only [blocks_drawn_append, ih]
        simpa using hcols
      · exact hcols
      · exact hcols
      · exact hcols
    · rfl

theorem draw_block_blocks (block : SheetBlock) (virt_loc : VirtualLocation)
    (x y width height : Int) :
    blocks_drawn (draw_block block virt_loc x y width height).1 = [] := by
  unfold draw_block
  cases block.style with
  | none => rfl
  | some style => exact draw_block_rows_blocks _ _ _ _ _ _ _ _ _

theorem skip_invisible_some (sheet : GnucashSheet) (virt_col : Int) (fuel : Nat) :
    ∀ virt_row r b, skip_invisible sheet virt_col fuel virt_row = .ret (some (r, b)) →
      virt_row ≤ r ∧ sheet.get_block r virt_col = some b ∧ b.visible = true ∧
      (∃ st, b.style = some st) ∧
      ∀ r1 b1, virt_row ≤ r1 → r1 < r → sheet.get_block r1 virt_col = some b1 →
        b1.visible = false := by
  induction fuel with
  | zero => intro virt_row r b h; simp [skip_invisible] at h
  | succ n ih =>
    intro virt_row r b h
    unfold skip_invisible at h
    cases hb : sheet.get_block virt_row virt_col with
    | none => simp [hb] at h
    | some blk =>
      simp only [hb] at h
      cases hst : blk.style with
      | none => simp [hst] at h
      | some st =>
        simp only [hst] at h
        split_ifs at h with hv
        · simp only [Outcome.ret.injEq, Option.some.injEq, Prod.mk.injEq] at h
          obtain ⟨rfl, rfl⟩ := h
          exact ⟨le_refl _, hb, hv, ⟨st, hst⟩, fun r1 b1 h1 h2 _ => absurd h2 (not_lt.mpr h1)⟩
        · obtain ⟨h1, h2, h3, h4, h5⟩ := ih _ _ _ h
          refine ⟨by omega, h2, h3, h4, ?_⟩
          intro r1 b1 hr1 hr1' hb1
          by_cases heq : r1 = virt_row
          · subst heq
            rw [hb] at hb1
            cases hb1
            simpa using hv
          · exact h5 r1 b1 (by omega) hr1' hb1

theorem draw_internal_rows_blocks (sheet : GnucashSheet) (virt_loc : VirtualLocation)
    (x y width height : Int) (inner fuel : Nat) :
    ∀ virt_row, ∀ p ∈ blocks_drawn
        (draw_internal_rows sheet virt_loc x y width height inner fuel virt_row).1,
      p.2.visible = true ∧ p.2.origin_y ≤ y + height ∧
      sheet.get_block p.1.virt_row p.1.virt_col = some p.2 ∧
      p.1.virt_col = virt_loc.vcell_loc.virt_col ∧ virt_row ≤ p.1.virt_row := by
  induction fuel with
  | zero => intro virt_row p hp; simp [draw_internal_rows, blocks_drawn] at hp
  | succ n ih =>
    intro virt_row p hp
    unfold draw_internal_rows at hp
    split_ifs at hp with hlt
    · cases hskip : skip_invisible sheet virt_loc.vcell_loc.virt_col inner virt_row with
      | null_deref => simp [hskip, blocks_drawn] at hp
      | out_of_fuel => simp [hskip, blocks_drawn] at hp
      | ret o =>
        cases o with
        | none => simp [hskip, blocks_drawn] at hp
        | some rb =>
          obtain ⟨r, b⟩ := rb
          obtain ⟨h1, h2, h3, -, -⟩ := skip_invisible_some sheet _ inner virt_row r b hskip
          simp only [hskip] at hp
          split_ifs at hp with hbelow
          · simp [blocks_drawn] at hp
          · have hdb := draw_block_blocks b
              { virt_loc with vcell_loc := ⟨r, virt_loc.vcell_loc.virt_col⟩ } x y width height
            have hhead : p = (⟨r, virt_loc.vcell_loc.virt_col⟩, b) →
                p.2.visible = true ∧ p.2.origin_y ≤ y + height ∧
                sheet.get_block p.1.virt_row p.1.virt_col = some p.2 ∧
                p.1.virt_col = virt_loc.vcell_loc.virt_col ∧ virt_row ≤ p.1.virt_row := by
              rintro rfl
              exact ⟨h3, not_lt.mp hbelow, h2, rfl, h1⟩
            rcases hres : draw_block b
              { virt_loc with vcell_loc := ⟨r, virt_loc.vcell_loc.virt_col⟩ } x y width height
              with ⟨evs, o⟩
            rw [hres] at hp hdb
            simp only at hdb
            rcases o with _ | _ | _
            · simp only [blocks_drawn, blocks_drawn_append, hdb, List.nil_append,
                List.mem_cons] at hp
              rcases hp with hp | hp
              · exact hhead hp
              · obtain ⟨g1, g2, g3, g4, g5⟩ := ih _ p hp
                exact ⟨g1, g2, g3, g4, by omega⟩
            · simp only [blocks_drawn, hdb, List.mem_cons, List.not_mem_nil, or_false] at hp
              exact hhead hp
            · simp only [blocks_drawn, hdb, List.mem_cons, List.not_mem_nil, or_false] at hp
              exact hhead hp
    · simp [blocks_drawn] at hp

/-- C8: every block on which `gnucash_sheet_draw_internal` calls `draw_block`
is a block of the sheet that is visible and whose `origin_y` does not exceed
the viewport bottom `y + height`; this holds for every sheet, viewport and
number of loop iterations. -/
theorem draw_internal_blocks_visible (sheet : GnucashSheet) (fuel : Nat)
    (virt_loc : VirtualLocation) (x y width height : Int)
    (vc : VirtualCellLocation) (b : SheetBlock)
    (hb : (vc, b) ∈
      blocks_drawn (gnucash_sheet_draw_internal sheet fuel virt_loc x y width height).1) :
    b.visible = true ∧ b.origin_y ≤ y + height ∧
    sheet.get_block vc.virt_row vc.virt_col = some b := by
  unfold gnucash_sheet_draw_internal at hb
  split_ifs at hb with hneg
  · simp [blocks_drawn] at hb
  · cases hfind : find_block_by_pixel sheet x y virt_loc.vcell_loc with
    | null_deref => simp [hfind, blocks_drawn] at hb
    | out_of_fuel => simp [hfind, blocks_drawn] at hb
    | ret res =>
      obtain ⟨ob, vc1⟩ := res
      cases ob with
      | none => simp [hfind, blocks_drawn] at hb
      | some sb =>
        simp only [hfind] at hb
        cases hst : sb.style with
        | none => simp [hst, blocks_drawn] at hb
        | some st =>
          simp only [hst] at hb
          obtain ⟨g1, g2, g3, -, -⟩ := draw_internal_rows_blocks sheet _ x y width height
            fuel fuel _ _ hb
          exact ⟨g1, g2, g3⟩

theorem draw_internal_blocks_visible_witness :
    (SheetBlock.mk (some (style_2x1 100)) 0 40 true).visible = true ∧
    (SheetBlock.mk (some (style_2x1 100)) 0 40 true).origin_y ≤ 40 + 50 ∧
    (scenario_sheet 100).get_block (⟨1, 0⟩ : VirtualCellLocation).virt_row
      (⟨1, 0⟩ : VirtualCellLocation).virt_col
      = some (SheetBlock.mk (some (style_2x1 100)) 0 40 true) :=
  draw_internal_blocks_visible (scenario_sheet 100) 10 loc0 0 40 100 50 ⟨1, 0⟩
    ⟨some (style_2x1 100), 0, 40, true⟩ (List.Mem.head _)

/-! ## Theorems: Locator -/

theorem find_block_rows_miss (sheet : GnucashSheet) (y : Int) (fuel : Nat) :
    ∀ s, 1 ≤ s → no_row_contains sheet y → (sheet.num_virt_rows - s).toNat < fuel →
      find_block_rows sheet y 0 fuel s = .ret .returned_null ∨
      ∃ t, find_block_rows sheet y 0 fuel s = .ret (.left t false) ∧
        sheet.num_virt_rows ≤ t ∧ (t = s + 1 ∨ t ≤ sheet.num_virt_rows) := by
  induction fuel with
  | zero => intro s _ _ hf; omega
  | succ n ih =>
    intro s hs hno hf
    unfold find_block_rows
    cases hb : sheet.get_block s 0 with
    | none => exact Or.inl rfl
    | some b =>
      have htest : row_test b y = .ret false := by
        unfold row_test
        split_ifs with hc
        · obtain ⟨st, hst, hle⟩ := hno s b hs hb hc.1 hc.2
          simp only [hst, Outcome.ret.injEq, decide_eq_false_iff_not, not_lt]
          exact hle
        · rfl
      simp only [htest]
      split_ifs with hlt
      · rcases ih (s + 1) (by omega) hno (by omega) with h | ⟨t, h1, h2, h3⟩
        · exact Or.inl h
        · exact Or.inr ⟨t, h1, h2, Or.inr (by omega)⟩
      · exact Or.inr ⟨s + 1, rfl, by omega, Or.inl rfl⟩

theorem find_block_by_pixel_miss (sheet : GnucashSheet) (hbound : LookupBounded sheet)
    (x y : Int) (vcl : VirtualCellLocation)
    (h : (x < 0 ∨ y < 0) ∨ no_row_contains sheet y) :
    find_block_by_pixel sheet x y vcl = .ret (none, vcl) := by
  unfold find_block_by_pixel
  by_cases hy : y ≥ 0
  · by_cases hx : x ≥ 0
    · have hno : no_row_contains sheet y := by
        rcases h with h | h
        · omega
        · exact h
      simp only [hy, hx, not_true_eq_false, if_false]
      rcases find_block_rows_miss sheet y ((sheet.num_virt_rows - 1).toNat + 1) 1
        (le_refl _) hno (by omega) with h1 | ⟨t, h1, h2, h3⟩
      · simp only [h1]
      · simp only [h1, Bool.false_eq_true, if_false]
        split_ifs with ht
        · rfl
        · have hnone : sheet.get_block t 0 = none := by
            cases hb : sheet.get_block t 0 with
            | none => rfl
            | some b => have := hbound t 0 b hb; omega
          have : find_block_cols sheet x t (sheet.num_virt_cols.toNat + 1) 0
              = .ret (.returned_null, none) := by
            unfold find_block_cols
            simp only [hnone]
          simp only [this]
    · simp only [hy, hx, not_true_eq_false, not_false_eq_true, if_true, if_false]
  · simp only [hy, not_false_eq_true, if_true]

/-- C3: for every grid whose block lookups outside the grid yield `NULL`,
`gnucash_sheet_find_loc_by_pixel` returns FALSE (NotFound), leaving the
location untouched, for every pixel with `x < 0` or `y < 0`, and for every
pixel whose `y` lies in the vertical range of no visible block of the scanned
rows, as is the case at or beyond the bottom edge of the last virtual row. -/
theorem find_loc_not_found (sheet : GnucashSheet) (hbound : LookupBounded sheet)
    (x y : Int) (v0 : VirtualLocation)
    (h : (x < 0 ∨ y < 0) ∨ no_row_contains sheet y) :
    gnucash_sheet_find_loc_by_pixel sheet x y (some v0) = .ret (false, some v0) := by
  unfold gnucash_sheet_find_loc_by_pixel
  simp only [find_block_by_pixel_miss sheet hbound x y v0.vcell_loc h]

theorem find_loc_not_found_witness :
    gnucash_sheet_find_loc_by_pixel (scenario_sheet 100) 5 120 (some loc0)
      = .ret (false, some loc0) :=
  find_loc_not_found (scenario_sheet 100)
    (by
      intro r c b hb
      simp only [scenario_sheet] at hb ⊢
      split_ifs at hb with hc
      omega)
    5 120 loc0
    (Or.inr (by
      intro r b hr hb hv hy
      simp only [scenario_sheet] at hb
      split_ifs at hb with hc
      simp only [Option.some.injEq] at hb
      subst hb
      exact ⟨style_2x1 100, rfl, by simp only [style_2x1]; omega⟩))

theorem find_cell_rows_ret (style : SheetBlockStyle) (hcb : CellLookupBounded style)
    (y : Int) (fuel : Nat) :
    ∀ s t, find_cell_rows style y fuel s = .ret t →
      t = style.nrows ∨
      ∃ cd, style.dimensions.cell_dimensions t 0 = some cd ∧
        cd.origin_y ≤ y ∧ y < cd.origin_y + cd.pixel_height := by
  induction fuel with
  | zero => intro s t h; simp [find_cell_rows] at h
  | succ n ih =>
    intro s t h
    unfold find_cell_rows at h
    cases hcd : style.dimensions.cell_dimensions s 0 with
    | none => simp [hcd] at h
    | some cd =>
      have hb := hcb s 0 cd hcd
      simp only [hcd] at h
      split_ifs at h with hhit hlt
      · simp only [Outcome.ret.injEq] at h
        subst h
        exact Or.inr ⟨cd, hcd, hhit.1, hhit.2⟩
      · exact ih _ _ h
      · simp only [Outcome.ret.injEq] at h
        left
        omega

theorem find_cell_cols_ret (style : SheetBlockStyle) (hcb : CellLookupBounded style)
    (x row : Int) (fuel : Nat) :
    ∀ s t, find_cell_cols style x row fuel s = .ret t →
      t = style.ncols ∨
      ∃ cd, style.dimensions.cell_dimensions row t = some cd ∧
        cd.origin_x ≤ x ∧ x < cd.origin_x + cd.pixel_width := by
  induction fuel with
  | zero => intro s t h; simp [find_cell_cols] at h
  | succ n ih =>
    intro s t h
    unfold find_cell_cols at h
    cases hcd : style.dimensions.cell_dimensions row s with
    | none => simp [hcd] at h
    | some cd =>
      have hb := hcb row s cd hcd
      simp only [hcd] at h
      split_ifs at h with hhit hlt
      · simp only [Outcome.ret.injEq] at h
        subst h
        exact Or.inr ⟨cd, hcd, hhit.1, hhit.2⟩
      · exact ih _ _ h
      · simp only [Outcome.ret.injEq] at h
        left
        omega

theorem find_cell_by_pixel_true (sheet : GnucashSheet) (hsb : StylesBounded sheet)
    (x y : Int) (v L : VirtualLocation)
    (h : find_cell_by_pixel sheet x y (some v) = .ret (true, some L)) :
    L.vcell_loc = v.vcell_loc ∧
    ∃ b st cd cd0, sheet.get_block L.vcell_loc.virt_row L.vcell_loc.virt_col = some b ∧
      b.style = some st ∧
      st.dimensions.cell_dimensions L.phys_row_offset L.phys_col_offset = some cd ∧
      st.dimensions.cell_dimensions L.phys_row_offset 0 = some cd0 ∧
      b.origin_x + cd.origin_x ≤ x ∧ x < b.origin_x + cd.origin_x + cd.pixel_width ∧
      b.origin_y + cd0.origin_y ≤ y ∧ y < b.origin_y + cd0.origin_y + cd0.pixel_height := by
  unfold find_cell_by_pixel at h
  simp only at h
  cases hb : sheet.get_block v.vcell_loc.virt_row v.vcell_loc.virt_col with
  | none => simp [hb] at h
  | some b =>
    simp only [hb] at h
    cases hst : b.style with
    | none => simp [hst] at h
    | some st =>
      have hcb := hsb _ _ b st hb hst
      simp only [hst] at h
      cases hrow : find_cell_rows st (y - b.origin_y) (st.nrows.toNat + 1) 0 with
      | null_deref => simp [hrow] at h
      | out_of_fuel => simp [hrow] at h
      | ret row =>
        simp only [hrow] at h
        split_ifs at h with hr
        · simp at h
        cases hcol : find_cell_cols st (x - b.origin_x) row (st.ncols.toNat + 1) 0 with
        | null_deref => simp [hcol] at h
        | out_of_fuel => simp [hcol] at h
        | ret col =>
          simp only [hcol] at h
          split_ifs at h with hc
          · simp at h
          simp only [Outcome.ret.injEq, Prod.mk.injEq, Option.some.injEq, true_and] at h
          subst h
          rcases find_cell_rows_ret st hcb _ _ _ _ hrow with h1 | ⟨cd0, h1, h2, h3⟩
          · exact absurd h1 hr
          rcases find_cell_cols_ret st hcb _ _ _ _ _ hcol with g1 | ⟨cd, g1, g2, g3⟩
          · exact absurd g1 hc
          exact ⟨rfl, b, st, cd, cd0, hb, hst, g1, h1, by omega, by omega, by omega, by omega⟩

/-- C2 (as stated, refuted): in `sheet_uneven` the pixel (60, 30) is located at
virtual row 1, virtual column 0, physical row 0, physical column 1, but the
pixel rectangle of that cell, 5 pixels high from y = 20, does not contain
y = 30: the physical row was chosen by the dimensions of the column-0 cell. -/
theorem round_trip_counterexample :
    gnucash_sheet_find_loc_by_pixel sheet_uneven 60 30 (some loc0)
      = .ret (true, some ⟨⟨1, 0⟩, 0, 1⟩) ∧
    sheet_uneven.get_block 1 0 = some ⟨some style_uneven, 0, 20, true⟩ ∧
    style_uneven.dimensions.cell_dimensions 0 1 = some ⟨50, 0, 50, 5⟩ ∧
    ¬ ((20 : Int) + 0 ≤ 30 ∧ (30 : Int) < 20 + 0 + 5) := by
  refine ⟨by decide, rfl, rfl, by decide⟩

/-- C2 (amended): round trip.  For every grid whose cell-dimension lookups
outside a style yield `NULL`, whenever `gnucash_sheet_find_loc_by_pixel`
succeeds with location L = (virt_row, virt_col, r, c), `x` lies in the
horizontal range of cell (r, c) of the owning block, and `y` lies in the
vertical range of the column-0 cell (r, 0) of the same physical row; hence
the rectangle of cell (r, c) contains (x, y) whenever that cell shares
`origin_y` and `pixel_height` with the column-0 cell of its row. -/
theorem find_loc_round_trip (sheet : GnucashSheet) (hsb : StylesBounded sheet)
    (x y : Int) (v0 L : VirtualLocation)
    (h : gnucash_sheet_find_loc_by_pixel sheet x y (some v0) = .ret (true, some L)) :
    ∃ b st cd cd0, sheet.get_block L.vcell_loc.virt_row L.vcell_loc.virt_col = some b ∧
      b.style = some st ∧
      st.dimensions.cell_dimensions L.phys_row_offset L.phys_col_offset = some cd ∧
      st.dimensions.cell_dimensions L.phys_row_offset 0 = some cd0 ∧
      (b.origin_x + cd.origin_x ≤ x ∧ x < b.origin_x + cd.origin_x + cd.pixel_width) ∧
      (b.origin_y + cd0.origin_y ≤ y ∧ y < b.origin_y + cd0.origin_y + cd0.pixel_height) ∧
      (cd.origin_y = cd0.origin_y → cd.pixel_height = cd0.pixel_height →
        b.origin_y + cd.origin_y ≤ y ∧ y < b.origin_y + cd.origin_y + cd.pixel_height) := by
  unfold gnucash_sheet_find_loc_by_pixel at h
  simp only at h
  cases hfind : find_block_by_pixel sheet x y v0.vcell_loc with
  | null_deref => simp [hfind] at h
  | out_of_fuel => simp [hfind] at h
  | ret res =>
    obtain ⟨ob, vc⟩ := res
    cases ob with
    | none => simp [hfind] at h
    | some blk =>
      simp only [hfind] at h
      obtain ⟨-, b, st, cd, cd0, h1, h2, h3, h4, h5, h6, h7, h8⟩ :=
        find_cell_by_pixel_true sheet hsb x y _ L h
      exact ⟨b, st, cd, cd0, h1, h2, h3, h4, ⟨h5, h6⟩, ⟨h7, h8⟩,
        fun e1 e2 => ⟨by omega, by omega⟩⟩

theorem find_block_rows_hit (sheet : GnucashSheet) (y col : Int) (fuel : Nat) :
    ∀ s t bt, s ≤ t → t < sheet.num_virt_rows → (t - s).toNat < fuel →
      (∀ r, s ≤ r → r < t → ∃ b, sheet.get_block r col = some b ∧ row_test b y = .ret false) →
      sheet.get_block t col = some bt → row_test bt y = .ret true →
      find_block_rows sheet y col fuel s = .ret (.left t true) := by
  induction fuel with
  | zero => intro s t bt _ _ hf; omega
  | succ n ih =>
    intro s t bt hst ht hf hmiss hbt htest
    unfold find_block_rows
    by_cases heq : s = t
    · subst heq
      simp only [hbt, htest]
    · obtain ⟨b, hb, hb2⟩ := hmiss s (le_refl _) (by omega)
      simp only [hb, hb2]
      have hlt : s + 1 < sheet.num_virt_rows := by omega
      simp only [hlt, if_true]
      exact ih (s + 1) t bt (by omega) ht (by omega)
        (fun r h1 h2 => hmiss r (by omega) h2) hbt htest

theorem find_block_cols_hit (sheet : GnucashSheet) (x row : Int) (fuel : Nat) :
    ∀ s t bt, s ≤ t → t < sheet.num_virt_cols → (t - s).toNat < fuel →
      (∀ c, s ≤ c → c < t → ∃ b, sheet.get_block row c = some b ∧ col_test b x = .ret false) →
      sheet.get_block row t = some bt → col_test bt x = .ret true →
      find_block_cols sheet x row fuel s = .ret (.left t true, some bt) := by
  induction fuel with
  | zero => intro s t bt _ _ hf; omega
  | succ n ih =>
    intro s t bt hst ht hf hmiss hbt htest
    unfold find_block_cols
    by_cases heq : s = t
    · subst heq
      simp only [hbt, htest]
    · obtain ⟨b, hb, hb2⟩ := hmiss s (le_refl _) (by omega)
      simp only [hb, hb2]
      have hlt : s + 1 < sheet.num_virt_cols := by omega
      simp only [hlt, if_true]
      exact ih (s + 1) t bt (by omega) ht (by omega)
        (fun r h1 h2 => hmiss r (by omega) h2) hbt htest

theorem find_cell_rows_hit (style : SheetBlockStyle) (y : Int) (fuel : Nat) :
    ∀ s t cdt, s ≤ t → t < style.nrows → (t - s).toNat < fuel →
      (∀ r, s ≤ r → r < t → ∃ cd, style.dimensions.cell_dimensions r 0 = some cd ∧
        ¬ (y ≥ cd.origin_y ∧ y < cd.origin_y + cd.pixel_height)) →
      style.dimensions.cell_dimensions t 0 = some cdt →
      (y ≥ cdt.origin_y ∧ y < cdt.origin_y + cdt.pixel_height) →
      find_cell_rows style y fuel s = .ret t := by
  induction fuel with
  | zero => intro s t cdt _ _ hf; omega
  | succ n ih =>
    intro s t cdt hst ht hf hmiss hcdt htest
    unfold find_cell_rows
    by_cases heq : s = t
    · subst heq
      simp only [hcdt, htest, and_self, if_true]
    · obtain ⟨cd, hcd, hcd2⟩ := hmiss s (le_refl _) (by omega)
      simp only [hcd, hcd2, if_false]
      have hlt : s + 1 < style.nrows := by omega
      simp only [hlt, if_true]
      exact ih (s + 1) t cdt (by omega) ht (by omega)
        (fun r h1 h2 => hmiss r (by omega) h2) hcdt htest

theorem find_cell_cols_hit (style : SheetBlockStyle) (x row : Int) (fuel : Nat) :
    ∀ s t cdt, s ≤ t → t < style.ncols → (t - s).toNat < fuel →
      (∀ c, s ≤ c → c < t → ∃ cd, style.dimensions.cell_dimensions row c = some cd ∧
        ¬ (x ≥ cd.origin_x ∧ x < cd.origin_x + cd.pixel_width)) →
      style.dimensions.cell_dimensions row t = some cdt →
      (x ≥ cdt.origin_x ∧ x < cdt.origin_x + cdt.pixel_width) →
      find_cell_cols style x row fuel s = .ret t := by
  induction fuel with
  | zero => intro s t cdt _ _ hf; omega
  | succ n ih =>
    intro s t cdt hst ht hf hmiss hcdt htest
    unfold find_cell_cols
    by_cases heq : s = t
    · subst heq
      simp only [hcdt, htest, and_self, if_true]
    · obtain ⟨cd, hcd, hcd2⟩ := hmiss s (le_refl _) (by omega)
      simp only [hcd, hcd2, if_false]
      have hlt : s + 1 < style.ncols := by omega
      simp only [hlt, if_true]
      exact ih (s + 1) t cdt (by omega) ht (by omega)
        (fun r h1 h2 => hmiss r (by omega) h2) hcdt htest

theorem row_test_eq (b : SheetBlock) (st : SheetBlockStyle) (y : Int)
    (hst : b.style = some st) :
    row_test b y = .ret (decide (b.visible = true ∧ b.origin_y ≤ y ∧
      y < b.origin_y + st.dimensions.height)) := by
  unfold row_test
  split_ifs with h
  · simp only [hst, h.1, true_and, ge_iff_le.mp h.2]
  · simp only [Outcome.ret.injEq]
    symm
    rw [decide_eq_false_iff_not]
    rintro ⟨h1, h2, -⟩
    exact h ⟨h1, h2⟩

theorem col_test_eq (b : SheetBlock) (st : SheetBlockStyle) (x : Int)
    (hst : b.style = some st) :
    col_test b x = .ret (decide (b.visible = true ∧ b.origin_x ≤ x ∧
      x < b.origin_x + st.dimensions.width)) := by
  unfold col_test
  split_ifs with h
  · simp only [hst, h.1, true_and, ge_iff_le.mp h.2]
  · simp only [Outcome.ret.injEq]
    symm
    rw [decide_eq_false_iff_not]
    rintro ⟨h1, h2, -⟩
    exact h ⟨h1, h2⟩

theorem find_block_by_pixel_hit (sheet : GnucashSheet) (hL : SheetLayout sheet)
    (x y vr vc : Int) (b : SheetBlock) (st : SheetBlockStyle) (vcl : VirtualCellLocation)
    (hvr : 1 ≤ vr) (hvr2 : vr < sheet.num_virt_rows)
    (hvc : 0 ≤ vc) (hvc2 : vc < sheet.num_virt_cols)
    (hb : sheet.get_block vr vc = some b) (hst : b.style = some st)
    (hvis : b.visible = true)
    (hvis0 : ∀ b0, sheet.get_block vr 0 = some b0 → b0.visible = true)
    (hx0 : 0 ≤ x) (hy0 : 0 ≤ y)
    (hx : b.origin_x ≤ x ∧ x < b.origin_x + st.dimensions.width)
    (hy : b.origin_y ≤ y ∧ y < b.origin_y + st.dimensions.height) :
    find_block_by_pixel sheet x y vcl = .ret (some b, ⟨vr, vc⟩) := by
  have hnc : (0 : Int) < sheet.num_virt_cols := by omega
  obtain ⟨b0, st0, hb0, hst0, -⟩ := hL.block_exists vr 0 (by omega) hvr2 (le_refl _) hnc
  obtain ⟨e1, e2⟩ := hL.row_shared vr 0 vc b0 b st0 st (by omega) hvr2 (le_refl _) hnc
    hvc hvc2 hb0 hb hst0 hst
  have hrows : find_block_rows sheet y 0 ((sheet.num_virt_rows - 1).toNat + 1) 1
      = .ret (.left vr true) := by
    apply find_block_rows_hit sheet y 0 _ 1 vr b0 hvr hvr2 (by omega) _ hb0
    · rw [row_test_eq b0 st0 y hst0]
      simp only [Outcome.ret.injEq, decide_eq_true_eq]
      exact ⟨hvis0 b0 hb0, by omega, by omega⟩
    · intro r hr1 hr2
      obtain ⟨b1, st1, hb1, hst1, -⟩ := hL.block_exists r 0 (by omega) (by omega)
        (le_refl _) hnc
      refine ⟨b1, hb1, ?_⟩
      rw [row_test_eq b1 st1 y hst1]
      simp only [Outcome.ret.injEq, decide_eq_false_iff_not]
      rintro ⟨h1, h2, h3⟩
      have := (hL.rows_ascending r vr 0 b1 b0 st1 (by omega) hr2 hvr2 (le_refl _) hnc
        hb1 hb0 hst1).2 h1
      omega
  have hcols : find_block_cols sheet x vr (sheet.num_virt_cols.toNat + 1) 0
      = .ret (.left vc true, some b) := by
    apply find_block_cols_hit sheet x vr _ 0 vc b hvc hvc2 (by omega) _ hb
    · rw [col_test_eq b st x hst]
      simp only [Outcome.ret.injEq, decide_eq_true_eq]
      exact ⟨hvis, hx.1, hx.2⟩
    · intro c hc1 hc2
      obtain ⟨b1, st1, hb1, hst1, -⟩ := hL.block_exists vr c (by omega) hvr2 hc1 (by omega)
      refine ⟨b1, hb1, ?_⟩
      rw [col_test_eq b1 st1 x hst1]
      simp only [Outcome.ret.injEq, decide_eq_false_iff_not]
      rintro ⟨h1, h2, h3⟩
      have := hL.cols_ascending vr c vc b1 b st1 (by omega) hvr2 hc1 hc2 hvc2 hb1 hb hst1 h1
      omega
  unfold find_block_by_pixel
  have hy1 : y ≥ 0 := hy0
  have hx1 : x ≥ 0 := hx0
  simp only [hy1, hx1, not_true_eq_false, if_false, hrows, hcols, if_true,
    ne_of_lt hvr2, ne_of_lt hvc2]

theorem find_cell_by_pixel_hit (sheet : GnucashSheet) (x y : Int) (v : VirtualLocation)
    (b : SheetBlock) (st : SheetBlockStyle) (hS : StyleLayout st) (r c : Int)
    (cd : CellDimensions)
    (hb : sheet.get_block v.vcell_loc.virt_row v.vcell_loc.virt_col = some b)
    (hst : b.style = some st)
    (hr : 0 ≤ r) (hr2 : r < st.nrows) (hc : 0 ≤ c) (hc2 : c < st.ncols)
    (hcd : st.dimensions.cell_dimensions r c = some cd)
    (hx : b.origin_x + cd.origin_x ≤ x ∧ x < b.origin_x + cd.origin_x + cd.pixel_width)
    (hy : b.origin_y + cd.origin_y ≤ y ∧ y < b.origin_y + cd.origin_y + cd.pixel_height) :
    find_cell_by_pixel sheet x y (some v) = .ret (true, some ⟨v.vcell_loc, r, c⟩) := by
  have hnc : (0 : Int) < st.ncols := by omega
  obtain ⟨cd0, hcd0⟩ := hS.cell_exists r 0 hr hr2 (le_refl _) hnc
  obtain ⟨e1, e2⟩ := hS.row_shared r c cd cd0 hr hr2 hc hc2 hcd hcd0
  have hrows : find_cell_rows st (y - b.origin_y) (st.nrows.toNat + 1) 0 = .ret r := by
    apply find_cell_rows_hit st _ _ 0 r cd0 hr hr2 (by omega) _ hcd0
    · constructor <;> omega
    · intro r1 h1 h2
      obtain ⟨cd1, hcd1⟩ := hS.cell_exists r1 0 h1 (by omega) (le_refl _) hnc
      refine ⟨cd1, hcd1, ?_⟩
      have := hS.rows_ascending r1 r cd1 cd0 h1 h2 hr2 hcd1 hcd0
      omega
  have hcols : find_cell_cols st (x - b.origin_x) r (st.ncols.toNat + 1) 0 = .ret c := by
    apply find_cell_cols_hit st _ r _ 0 c cd hc hc2 (by omega) _ hcd
    · constructor <;> omega
    · intro c1 h1 h2
      obtain ⟨cd1, hcd1⟩ := hS.cell_exists r c1 hr hr2 h1 (by omega)
      refine ⟨cd1, hcd1, ?_⟩
      have := hS.cols_ascending r c1 c cd1 cd hr hr2 h1 h2 hc2 hcd1 hcd
      omega
  unfold find_cell_by_pixel
  simp only [hb, hst, hrows, hcols, ne_of_lt hr2, ne_of_lt hc2, if_false]

/-- C1 (amended): for every grid that satisfies the rectilinear layout
invariants, every visible block at a virtual address with
`1 ≤ virt_row < num_virt_rows` and `0 ≤ virt_col < num_virt_cols` whose
virtual row has a visible block in column 0, every physical cell (r, c) of
that block's style and every pixel (x, y) with `x, y ≥ 0` inside that cell's
pixel rectangle, `gnucash_sheet_find_loc_by_pixel` returns TRUE and sets the
location to exactly (virt_row, virt_col, r, c). -/
theorem find_loc_of_pixel_in_cell (sheet : GnucashSheet) (hL : SheetLayout sheet)
    (x y vr vc r c : Int) (b : SheetBlock) (st : SheetBlockStyle) (cd : CellDimensions)
    (v0 : VirtualLocation)
    (hvr : 1 ≤ vr) (hvr2 : vr < sheet.num_virt_rows)
    (hvc : 0 ≤ vc) (hvc2 : vc < sheet.num_virt_cols)
    (hb : sheet.get_block vr vc = some b) (hst : b.style = some st)
    (hvis : b.visible = true)
    (hvis0 : ∀ b0, sheet.get_block vr 0 = some b0 → b0.visible = true)
    (hr : 0 ≤ r) (hr2 : r < st.nrows) (hc : 0 ≤ c) (hc2 : c < st.ncols)
    (hcd : st.dimensions.cell_dimensions r c = some cd)
    (hx0 : 0 ≤ x) (hy0 : 0 ≤ y)
    (hx : b.origin_x + cd.origin_x ≤ x ∧ x < b.origin_x + cd.origin_x + cd.pixel_width)
    (hy : b.origin_y + cd.origin_y ≤ y ∧ y < b.origin_y + cd.origin_y + cd.pixel_height) :
    gnucash_sheet_find_loc_by_pixel sheet x y (some v0)
      = .ret (true, some ⟨⟨vr, vc⟩, r, c⟩) := by
  obtain ⟨b1, st1, hb1, hst1, hS⟩ := hL.block_exists vr vc (by omega) hvr2 hvc hvc2
  rw [hb] at hb1
  cases hb1
  rw [hst] at hst1
  cases hst1
  obtain ⟨i1, i2, i3, i4⟩ := hS.inside r c cd hr hr2 hc hc2 hcd
  have hfind := find_block_by_pixel_hit sheet hL x y vr vc b st v0.vcell_loc hvr hvr2 hvc hvc2
    hb hst hvis hvis0 hx0 hy0 ⟨by omega, by omega⟩ ⟨by omega, by omega⟩
  unfold gnucash_sheet_find_loc_by_pixel
  simp only [hfind]
  exact find_cell_by_pixel_hit sheet x y _ b st hS r c cd hb hst hr hr2 hc hc2 hcd hx hy

theorem style_2x1_layout (w : Int) : StyleLayout (style_2x1 w) where
  cell_exists := by
    intro r c h1 h2 h3 h4
    simp only [style_2x1] at h2 h4 ⊢
    exact ⟨⟨0, 20 * r, w, 20⟩, by rw [if_pos]; omega⟩
  inside := by
    intro r c cd h1 h2 h3 h4 h
    simp only [style_2x1] at h h2 ⊢
    split_ifs at h
    simp only [Option.some.injEq] at h
    subst h
    dsimp only
    omega
  row_shared := by
    intro r c cd cd0 h1 h2 h3 h4 h h0
    simp only [style_2x1] at h h0
    split_ifs at h h0
    simp only [Option.some.injEq] at h h0
    subst h h0
    exact ⟨rfl, rfl⟩
  rows_ascending := by
    intro r1 r2 cd1 cd2 h1 h2 h3 h h0
    simp only [style_2x1] at h h0 h3
    split_ifs at h h0
    simp only [Option.some.injEq] at h h0
    subst h h0
    dsimp only
    omega
  cols_ascending := by
    intro r c1 c2 cd1 cd2 h1 h2 h3 h4 h5
    simp only [style_2x1] at h5
    omega

theorem style_2x1_bounded (w : Int) : CellLookupBounded (style_2x1 w) := by
  intro r c cd h
  simp only [style_2x1] at h ⊢
  split_ifs at h
  omega

theorem scenario_sheet_bounded (w : Int) : LookupBounded (scenario_sheet w) := by
  intro r c b hb
  simp only [scenario_sheet] at hb ⊢
  split_ifs at hb
  omega

theorem scenario_sheet_styles_bounded (w : Int) : StylesBounded (scenario_sheet w) := by
  intro r c b st hb hst
  simp only [scenario_sheet] at hb
  split_ifs at hb
  simp only [Option.some.injEq] at hb
  subst hb
  simp only [Option.some.injEq] at hst
  subst hst
  exact style_2x1_bounded w

theorem scenario_sheet_layout (w : Int) : SheetLayout (scenario_sheet w) where
  block_exists := by
    intro r c h1 h2 h3 h4
    simp only [scenario_sheet] at h2 h4 ⊢
    refine ⟨_, style_2x1 w, by rw [if_pos]; omega, rfl, style_2x1_layout w⟩
  row_shared := by
    intro r c1 c2 b1 b2 st1 st2 _ _ _ _ _ _ hb1 hb2 hs1 hs2
    simp only [scenario_sheet] at hb1 hb2
    split_ifs at hb1 hb2
    simp only [Option.some.injEq] at hb1 hb2
    subst hb1 hb2
    simp only [Option.some.injEq] at hs1 hs2
    subst hs1 hs2
    exact ⟨rfl, rfl⟩
  col_shared := by
    intro r1 r2 c b1 b2 st1 st2 _ _ _ _ _ _ hb1 hb2 hs1 hs2
    simp only [scenario_sheet] at hb1 hb2
    split_ifs at hb1 hb2
    simp only [Option.some.injEq] at hb1 hb2
    subst hb1 hb2
    simp only [Option.some.injEq] at hs1 hs2
    subst hs1 hs2
    exact ⟨rfl, rfl⟩
  rows_ascending := by
    intro r1 r2 c b1 b2 st1 _ h12 _ _ _ hb1 hb2 hs1
    simp only [scenario_sheet] at hb1 hb2
    split_ifs at hb1 hb2
    simp only [Option.some.injEq] at hb1 hb2
    subst hb1 hb2
    simp only [Option.some.injEq] at hs1
    subst hs1
    simp only [style_2x1]
    omega
  cols_ascending := by
    intro r c1 c2 b1 b2 st1 _ _ h1 h2 h3
    simp only [scenario_sheet] at h3
    omega

theorem sheet_2x2_layout (v : Bool) : SheetLayout (sheet_2x2 v) where
  block_exists := by
    intro r c h1 h2 h3 h4
    simp only [sheet_2x2] at h2 h4 ⊢
    refine ⟨_, style_2x1 50, by rw [if_pos]; omega, rfl, style_2x1_layout 50⟩
  row_shared := by
    intro r c1 c2 b1 b2 st1 st2 _ _ _ _ _ _ hb1 hb2 hs1 hs2
    simp only [sheet_2x2] at hb1 hb2
    split_ifs at hb1 hb2
    simp only [Option.some.injEq] at hb1 hb2
    subst hb1 hb2
    simp only [Option.some.injEq] at hs1 hs2
    subst hs1 hs2
    exact ⟨rfl, rfl⟩
  col_shared := by
    intro r1 r2 c b1 b2 st1 st2 _ _ _ _ _ _ hb1 hb2 hs1 hs2
    simp only [sheet_2x2] at hb1 hb2
    split_ifs at hb1 hb2
    simp only [Option.some.injEq] at hb1 hb2
    subst hb1 hb2
    simp only [Option.some.injEq] at hs1 hs2
    subst hs1 hs2
    exact ⟨rfl, rfl⟩
  rows_ascending := by
    intro r1 r2 c b1 b2 st1 _ h12 _ _ _ hb1 hb2 hs1
    simp only [sheet_2x2] at hb1 hb2
    split_ifs at hb1 hb2
    simp only [Option.some.injEq] at hb1 hb2
    subst hb1 hb2
    simp only [Option.some.injEq] at hs1
    subst hs1
    simp only [style_2x1]
    omega
  cols_ascending := by
    intro r c1 c2 b1 b2 st1 _ _ _ h12 _ hb1 hb2 hs1 _
    simp only [sheet_2x2] at hb1 hb2
    split_ifs at hb1 hb2
    simp only [Option.some.injEq] at hb1 hb2
    subst hb1 hb2
    simp only [Option.some.injEq] at hs1
    subst hs1
    simp only [style_2x1]
    omega

/-- C1 (as stated, refuted).  Both grids satisfy the layout invariants.  In
`scenario_sheet 100` the pixel (5, 5) lies in cell (0, 0) of the visible block
at virtual row 0, yet the lookup returns FALSE: the row scan starts at virtual
row 1.  In `sheet_2x2 false` the pixel (60, 45) lies in cell (0, 0) of the
visible block at virtual row 1, virtual column 1, yet the lookup returns
FALSE: the row scan tests the visible flag of the block in column 0. -/
theorem find_loc_counterexample :
    (SheetLayout (scenario_sheet 100) ∧
      (scenario_sheet 100).get_block 0 0
        = some ⟨some (style_2x1 100), 0, 0, true⟩ ∧
      (style_2x1 100).dimensions.cell_dimensions 0 0 = some ⟨0, 0, 100, 20⟩ ∧
      ((0 : Int) + 0 ≤ 5 ∧ (5 : Int) < 0 + 0 + 100) ∧
      ((0 : Int) + 0 ≤ 5 ∧ (5 : Int) < 0 + 0 + 20) ∧
      gnucash_sheet_find_loc_by_pixel (scenario_sheet 100) 5 5 (some loc0)
        = .ret (false, some loc0)) ∧
    (SheetLayout (sheet_2x2 false) ∧
      (sheet_2x2 false).get_block 1 1 = some ⟨some (style_2x1 50), 50, 40, true⟩ ∧
      (style_2x1 50).dimensions.cell_dimensions 0 0 = some ⟨0, 0, 50, 20⟩ ∧
      ((50 : Int) + 0 ≤ 60 ∧ (60 : Int) < 50 + 0 + 50) ∧
      ((40 : Int) + 0 ≤ 45 ∧ (45 : Int) < 40 + 0 + 20) ∧
      gnucash_sheet_find_loc_by_pixel (sheet_2x2 false) 60 45 (some loc0)
        = .ret (false, some loc0)) := by
  refine ⟨⟨scenario_sheet_layout 100, rfl, rfl, by decide, by decide, by decide⟩,
    ⟨sheet_2x2_layout false, rfl, rfl, by decide, by decide, by decide⟩⟩

theorem find_loc_of_pixel_in_cell_witness :
    gnucash_sheet_find_loc_by_pixel (scenario_sheet 100) 5 65 (some loc0)
      = .ret (true, some ⟨⟨1, 0⟩, 1, 0⟩) :=
  find_loc_of_pixel_in_cell (scenario_sheet 100) (scenario_sheet_layout 100)
    5 65 1 0 1 0 ⟨some (style_2x1 100), 0, 40, true⟩ (style_2x1 100) ⟨0, 20, 100, 20⟩ loc0
    (by decide) (by decide) (by decide) (by decide) rfl rfl rfl
    (by
      intro b0 hb0
      simp only [scenario_sheet] at hb0
      split_ifs at hb0
      simp only [Option.some.injEq] at hb0
      subst hb0
      rfl)
    (by decide) (by decide) (by decide) (by decide) rfl (by decide) (by decide)
    (by decide) (by decide)

theorem find_loc_round_trip_witness :
    ∃ b st cd cd0,
      (scenario_sheet 100).get_block (⟨⟨1, 0⟩, 1, 0⟩ : VirtualLocation).vcell_loc.virt_row
        (⟨⟨1, 0⟩, 1, 0⟩ : VirtualLocation).vcell_loc.virt_col = some b ∧
      b.style = some st ∧
      st.dimensions.cell_dimensions (⟨⟨1, 0⟩, 1, 0⟩ : VirtualLocation).phys_row_offset
        (⟨⟨1, 0⟩, 1, 0⟩ : VirtualLocation).phys_col_offset = some cd ∧
      st.dimensions.cell_dimensions (⟨⟨1, 0⟩, 1, 0⟩ : VirtualLocation).phys_row_offset 0
        = some cd0 ∧
      (b.origin_x + cd.origin_x ≤ 5 ∧ 5 < b.origin_x + cd.origin_x + cd.pixel_width) ∧
      (b.origin_y + cd0.origin_y ≤ 65 ∧
        65 < b.origin_y + cd0.origin_y + cd0.pixel_height) ∧
      (cd.origin_y = cd0.origin_y → cd.pixel_height = cd0.pixel_height →
        b.origin_y + cd.origin_y ≤ 65 ∧ 65 < b.origin_y + cd.origin_y + cd.pixel_height) :=
  find_loc_round_trip (scenario_sheet 100) (scenario_sheet_styles_bounded 100) 5 65 loc0
    ⟨⟨1, 0⟩, 1, 0⟩ (by decide)

/-! ## Theorems: ViewportRenderer -/

/-- C10 (as stated, refuted): on the scenario grid with viewport origin (0, 0)
and size 100 x 50, `gnucash_sheet_draw_internal` returns FALSE and calls
neither `draw_block` nor `draw_cell`: no cell of virtual rows 0 and 1 is
painted. -/
theorem scenario_counterexample :
    (gnucash_sheet_draw_internal (scenario_sheet 100) 10 loc0 0 0 100 50).2 = .ret false ∧
    cells_drawn (gnucash_sheet_draw_internal (scenario_sheet 100) 10 loc0 0 0 100 50).1 = [] ∧
    (blocks_drawn (gnucash_sheet_draw_internal (scenario_sheet 100) 10 loc0 0 0 100 50).1).map
      (fun p => p.1) = [] := by
  decide

/-- C10 (amended): for the grid of 3 virtual rows x 1 virtual column, every
block visible, each block's style having 2 physical rows x 1 physical column
of cells 20px high (block origins at y = 0, 40, 80), whatever the cell width,
`gnucash_sheet_draw_internal` with viewport origin (0, 0) and size 100 x 50
returns drawn = FALSE and draws nothing, so no cell of virtual row 2 (or of
any other row) is painted: the block scan for the viewport origin starts at
virtual row 1 and finds no block whose vertical range contains y = 0. -/
theorem scenario_draws_nothing (w : Int) (fuel : Nat) (virt_loc : VirtualLocation) :
    gnucash_sheet_draw_internal (scenario_sheet w) fuel virt_loc 0 0 100 50
      = ([], .ret false) := by
  have hno : no_row_contains (scenario_sheet w) 0 := by
    intro r b hr hb _ hy
    simp only [scenario_sheet] at hb
    split_ifs at hb
    simp only [Option.some.injEq] at hb
    subst hb
    dsimp only at hy
    omega
  unfold gnucash_sheet_draw_internal
  simp only [lt_irrefl, or_self, if_false,
    find_block_by_pixel_miss (scenario_sheet w) (scenario_sheet_bounded w) 0 0
      virt_loc.vcell_loc (Or.inr hno)]

theorem find_block_rows_ret (sheet : GnucashSheet) (hbound : LookupBounded sheet)
    (y col : Int) (fuel : Nat) :
    ∀ s t hit, find_block_rows sheet y col fuel s = .ret (.left t hit) →
      (hit = false ∧ t = sheet.num_virt_rows) ∨
      (hit = true ∧ s ≤ t ∧ ∃ b st, sheet.get_block t col = some b ∧ b.style = some st ∧
        b.visible = true ∧ b.origin_y ≤ y ∧ y < b.origin_y + st.dimensions.height) := by
  induction fuel with
  | zero => intro s t hit h; simp [find_block_rows] at h
  | succ n ih =>
    intro s t hit h
    unfold find_block_rows at h
    cases hb : sheet.get_block s col with
    | none => simp [hb] at h
    | some b =>
      have hbd := hbound s col b hb
      simp only [hb] at h
      cases htest : row_test b y with
      | null_deref => simp [htest] at h
      | out_of_fuel => simp [htest] at h
      | ret v =>
        cases v with
        | true =>
          simp only [htest, Outcome.ret.injEq, ScanExit.left.injEq] at h
          obtain ⟨rfl, rfl⟩ := h
          right
          unfold row_test at htest
          split_ifs at htest with hc
          · cases hst : b.style with
            | none => simp [hst] at htest
            | some st =>
              simp only [hst, Outcome.ret.injEq, decide_eq_true_eq] at htest
              exact ⟨rfl, le_refl _, b, st, hb, hst, hc.1, hc.2, htest⟩
          · simp at htest
        | false =>
          simp only [htest] at h
          split_ifs at h with hlt
          · rcases ih _ _ _ h with h1 | ⟨h1, h2, h3⟩
            · exact Or.inl h1
            · exact Or.inr ⟨h1, by omega, h3⟩
          · simp only [Outcome.ret.injEq, ScanExit.left.injEq] at h
            obtain ⟨rfl, rfl⟩ := h
            left
            exact ⟨rfl, by omega⟩

theorem find_block_cols_ret (sheet : GnucashSheet) (hbound : LookupBounded sheet)
    (x row : Int) (fuel : Nat) :
    ∀ s t hit ob, find_block_cols sheet x row fuel s = .ret (.left t hit, ob) →
      (hit = false ∧ t = sheet.num_virt_cols) ∨
      (hit = true ∧ s ≤ t ∧ ∃ b st, ob = some b ∧ sheet.get_block row t = some b ∧
        b.style = some st ∧
        b.visible = true ∧ b.origin_x ≤ x ∧ x < b.origin_x + st.dimensions.width) := by
  induction fuel with
  | zero => intro s t hit ob h; simp [find_block_cols] at h
  | succ n ih =>
    intro s t hit ob h
    unfold find_block_cols at h
    cases hb : sheet.get_block row s with
    | none => simp [hb] at h
    | some b =>
      have hbd := hbound row s b hb
      simp only [hb] at h
      cases htest : col_test b x with
      | null_deref => simp [htest] at h
      | out_of_fuel => simp [htest] at h
      | ret v =>
        cases v with
        | true =>
          simp only [htest, Outcome.ret.injEq, Prod.mk.injEq, ScanExit.left.injEq] at h
          obtain ⟨⟨rfl, rfl⟩, rfl⟩ := h
          right
          unfold col_test at htest
          split_ifs at htest with hc
          · cases hst : b.style with
            | none => simp [hst] at htest
            | some st =>
              simp only [hst, Outcome.ret.injEq, decide_eq_true_eq] at htest
              exact ⟨rfl, le_refl _, b, st, rfl, hb, hst, hc.1, hc.2, htest⟩
          · simp at htest
        | false =>
          simp only [htest] at h
          split_ifs at h with hlt
          · rcases ih _ _ _ _ h with h1 | ⟨h1, h2, h3⟩
            · exact Or.inl h1
            · exact Or.inr ⟨h1, by omega, h3⟩
          · simp only [Outcome.ret.injEq, Prod.mk.injEq, ScanExit.left.injEq] at h
            obtain ⟨⟨rfl, rfl⟩, -⟩ := h
            left
            exact ⟨rfl, by omega⟩

theorem find_block_by_pixel_some (sheet : GnucashSheet) (hbound : LookupBounded sheet)
    (x y : Int) (vcl vc : VirtualCellLocation) (b : SheetBlock)
    (h : find_block_by_pixel sheet x y vcl = .ret (some b, vc)) :
    0 ≤ x ∧ 0 ≤ y ∧ 1 ≤ vc.virt_row ∧ 0 ≤ vc.virt_col ∧
    sheet.get_block vc.virt_row vc.virt_col = some b ∧
    ∃ st, b.style = some st ∧ b.visible = true ∧
      (b.origin_x ≤ x ∧ x < b.origin_x + st.dimensions.width) ∧
      ∃ b0 st0, sheet.get_block vc.virt_row 0 = some b0 ∧ b0.style = some st0 ∧
        b0.visible = true ∧ b0.origin_y ≤ y ∧ y < b0.origin_y + st0.dimensions.height := by
  unfold find_block_by_pixel at h
  by_cases hy : y ≥ 0
  swap
  · rw [if_pos hy] at h
    simp at h
  by_cases hx : x ≥ 0
  swap
  · rw [if_neg (not_not.mpr hy), if_pos hx] at h
    simp at h
  rw [if_neg (not_not.mpr hy), if_neg (not_not.mpr hx)] at h
  generalize hrows : find_block_rows sheet y 0 ((sheet.num_virt_rows - 1).toNat + 1) 1 = R at h
  rcases R with e | _ | _
  · rcases e with _ | ⟨t, hit⟩
    · simp at h
    · dsimp only at h
      by_cases ht : t = sheet.num_virt_rows
      · rw [if_pos ht] at h
        simp at h
      · rw [if_neg ht] at h
        rcases find_block_rows_ret sheet hbound y 0 _ _ _ _ hrows with
          ⟨-, h2⟩ | ⟨h1, h2, b0, st0, g1, g2, g3, g4, g5⟩
        · exact absurd h2 ht
        · subst h1
          generalize hcols : find_block_cols sheet x t (sheet.num_virt_cols.toNat + 1) 0
            = C at h
          rcases C with res | _ | _
          · obtain ⟨e2, ob⟩ := res
            rcases e2 with _ | ⟨c, hit2⟩
            · simp at h
            · dsimp only at h
              by_cases hc : c = sheet.num_virt_cols
              · rw [if_pos hc] at h
                simp at h
              · rw [if_neg hc] at h
                rcases find_block_cols_ret sheet hbound x t _ _ _ _ _ hcols with
                  ⟨-, k2⟩ | ⟨k1, k2, b1, st1, q0, q1, q2, q3, q4, q5⟩
                · exact absurd k2 hc
                · subst k1
                  simp only [if_true, Outcome.ret.injEq, Prod.mk.injEq] at h
                  obtain ⟨h5, rfl⟩ := h
                  rw [q0] at h5
                  cases h5
                  exact ⟨by omega, by omega, h2, k2, q1, st1, q2, q3, ⟨q4, q5⟩,
                    b0, st0, g1, g2, g3, g4, g5⟩
          · simp at h
          · simp at h
  · simp at h
  · simp at h

theorem draw_block_cols_ret (block : SheetBlock) (style : SheetBlockStyle)
    (hS : StyleLayout style) (vcell_loc : VirtualCellLocation)
    (x y width height row : Int) (hr : 0 ≤ row) (hr2 : row < style.nrows) (fuel : Nat) :
    ∀ col, 0 ≤ col → (style.ncols - col).toNat < fuel →
      ∃ evs o, draw_block_cols block style vcell_loc x y width height row fuel col
        = (evs, .ret o) := by
  induction fuel with
  | zero => intro col _ hf; omega
  | succ n ih =>
    intro col hc hf
    unfold draw_block_cols
    split_ifs with hlt
    · obtain ⟨cd, hcd⟩ := hS.cell_exists row col hr hr2 hc hlt
      obtain ⟨evs, o, hrec⟩ := ih (col + 1) (by omega) (by omega)
      cases hstep : draw_block_cell block style x y width height row col with
      | fault =>
        unfold draw_block_cell at hstep
        simp only [hcd] at hstep
        split_ifs at hstep
      | brk => exact ⟨_, _, rfl⟩
      | rtn => exact ⟨_, _, rfl⟩
      | skip => exact ⟨evs, o, hrec⟩
      | paint xp yp w h =>
        simp only [hrec]
        exact ⟨_, _, rfl⟩
    · exact ⟨_, _, rfl⟩

theorem draw_block_rows_ret (block : SheetBlock) (style : SheetBlockStyle)
    (hS : StyleLayout style) (vcell_loc : VirtualCellLocation)
    (x y width height : Int) (fuel : Nat) :
    ∀ row, 0 ≤ row → (style.nrows - row).toNat < fuel →
      ∃ evs, draw_block_rows block style vcell_loc x y width height fuel row
        = (evs, .ret ()) := by
  induction fuel with
  | zero => intro row _ hf; omega
  | succ n ih =>
    intro row hr hf
    unfold draw_block_rows
    split_ifs with hlt
    · obtain ⟨evs, o, hcols⟩ := draw_block_cols_ret block style hS vcell_loc x y width height
        row hr hlt (style.ncols.toNat + 1) 0 (le_refl _) (by omega)
      obtain ⟨evs2, hrec⟩ := ih (row + 1) (by omega) (by omega)
      rw [hcols]
      cases o with
      | true => exact ⟨_, rfl⟩
      | false =>
        simp only [hrec]
        exact ⟨_, rfl⟩
    · exact ⟨_, rfl⟩

theorem draw_block_ret (block : SheetBlock) (style : SheetBlockStyle)
    (hst : block.style = some style) (hS : StyleLayout style) (virt_loc : VirtualLocation)
    (x y width height : Int) :
    ∃ evs, draw_block block virt_loc x y width height = (evs, .ret ()) := by
  unfold draw_block
  simp only [hst]
  exact draw_block_rows_ret block style hS _ x y width height _ 0 (le_refl _) (by omega)

theorem skip_invisible_spec (sheet : GnucashSheet) (hL : SheetLayout sheet)
    (hbound : LookupBounded sheet) (c0 : Int) (hc : 0 ≤ c0) (hc2 : c0 < sheet.num_virt_cols)
    (fuel : Nat) :
    ∀ row, 0 ≤ row → (sheet.num_virt_rows - row).toNat < fuel →
      (skip_invisible sheet c0 fuel row = .ret none ∧
        ∀ r1 b1, row ≤ r1 → sheet.get_block r1 c0 = some b1 → b1.visible = false) ∨
      (∃ r b st, skip_invisible sheet c0 fuel row = .ret (some (r, b)) ∧
        row ≤ r ∧ r < sheet.num_virt_rows ∧ sheet.get_block r c0 = some b ∧
        b.visible = true ∧ b.style = some st ∧ StyleLayout st ∧
        ∀ r1 b1, row ≤ r1 → r1 < r → sheet.get_block r1 c0 = some b1 →
          b1.visible = false) := by
  induction fuel with
  | zero => intro row _ hf; omega
  | succ n ih =>
    intro row hr hf
    unfold skip_invisible
    cases hb : sheet.get_block row c0 with
    | none =>
      left
      refine ⟨rfl, ?_⟩
      intro r1 b1 h1 hb1
      have := hbound r1 c0 b1 hb1
      by_cases hlt : row < sheet.num_virt_rows
      · obtain ⟨b, st, h2, -, -⟩ := hL.block_exists row c0 hr hlt hc hc2
        rw [hb] at h2
        cases h2
      · omega
    | some b =>
      have hbd := hbound row c0 b hb
      obtain ⟨b', st, h2, hst, hS⟩ := hL.block_exists row c0 hr hbd.2.1 hc hc2
      rw [hb] at h2
      cases h2
      simp only [hst]
      split_ifs with hv
      · right
        exact ⟨row, b, st, rfl, le_refl _, hbd.2.1, hb, hv, hst, hS,
          fun r1 b1 h1 h2 _ => absurd h2 (not_lt.mpr h1)⟩
      · have hstep : ∀ r1 b1, row ≤ r1 → r1 < row + 1 → sheet.get_block r1 c0 = some b1 →
            b1.visible = false := by
          intro r1 b1 h1 h2 hb1
          have : r1 = row := by omega
          subst this
          rw [hb] at hb1
          cases hb1
          simpa using hv
        rcases ih (row + 1) (by omega) (by omega) with ⟨h1, h2⟩ | ⟨r, b2, st2, h1, h2, h3, h4, h5, h6, h7, h8⟩
        · left
          refine ⟨h1, ?_⟩
          intro r1 b1 g1 g2
          by_cases hlt : r1 < row + 1
          · exact hstep r1 b1 g1 hlt g2
          · exact h2 r1 b1 (by omega) g2
        · right
          refine ⟨r, b2, st2, h1, by omega, h3, h4, h5, h6, h7, ?_⟩
          intro r1 b1 g1 g2 g3
          by_cases hlt : r1 < row + 1
          · exact hstep r1 b1 g1 hlt g3
          · exact h8 r1 b1 (by omega) g2 g3

theorem draw_internal_rows_complete (sheet : GnucashSheet) (hL : SheetLayout sheet)
    (hbound : LookupBounded sheet) (virt_loc : VirtualLocation)
    (hc : 0 ≤ virt_loc.vcell_loc.virt_col)
    (hc2 : virt_loc.vcell_loc.virt_col < sheet.num_virt_cols)
    (x y width height : Int) (inner : Nat) (hinner : sheet.num_virt_rows.toNat < inner)
    (fuel : Nat) :
    ∀ row, 0 ≤ row → (sheet.num_virt_rows - row).toNat < fuel →
      ∃ evs, draw_internal_rows sheet virt_loc x y width height inner fuel row
          = (evs, .ret true) ∧
        ∀ r b, row ≤ r → r < sheet.num_virt_rows →
          sheet.get_block r virt_loc.vcell_loc.virt_col = some b → b.visible = true →
          b.origin_y ≤ y + height →
          (⟨r, virt_loc.vcell_loc.virt_col⟩, b) ∈ blocks_drawn evs := by
  induction fuel with
  | zero => intro row _ hf; omega
  | succ n ih =>
    intro row hr hf
    unfold draw_internal_rows
    split_ifs with hlt
    · rcases skip_invisible_spec sheet hL hbound _ hc hc2 inner row hr (by omega) with
        ⟨h1, h2⟩ | ⟨r0, b0, st0, h1, h2, h3, h4, h5, h6, h7, h8⟩
      · refine ⟨[], by simp only [h1], ?_⟩
        intro r b g1 _ g3 g4 _
        rw [h2 r b g1 g3] at g4
        cases g4
      · simp only [h1]
        split_ifs with hbelow
        · refine ⟨[], rfl, ?_⟩
          intro r b g1 g2 g3 g4 g5
          exfalso
          by_cases hlt2 : r < r0
          · rw [h8 r b g1 hlt2 g3] at g4
            cases g4
          · by_cases heq : r = r0
            · subst heq
              rw [h4] at g3
              cases g3
              omega
            · have := (hL.rows_ascending r0 r _ b0 b st0 (by omega) (by omega) g2 hc hc2
                h4 g3 h6).1
              omega
        · obtain ⟨evs, hdb⟩ := draw_block_ret b0 st0 h6 h7
            { virt_loc with vcell_loc := ⟨r0, virt_loc.vcell_loc.virt_col⟩ } x y width height
          obtain ⟨evs2, hrec, hall⟩ := ih (r0 + 1) (by omega) (by omega)
          simp only [hdb, hrec]
          refine ⟨_, rfl, ?_⟩
          intro r b g1 g2 g3 g4 g5
          simp only [blocks_drawn, blocks_drawn_append, List.mem_cons, List.mem_append]
          by_cases hlt2 : r < r0
          · rw [h8 r b g1 hlt2 g3] at g4
            cases g4
          · by_cases heq : r = r0
            · subst heq
              rw [h4] at g3
              cases g3
              exact Or.inl rfl
            · exact Or.inr (Or.inr (hall r b (by omega) g2 g3 g4 g5))
    · refine ⟨[], rfl, ?_⟩
      intro r b g1 g2
      omega

/-- C7 (as stated, refuted).  Both grids satisfy the layout invariants and both
viewports have a non-negative origin.  On `scenario_sheet 100` with viewport
origin (0, 10) and size 100 x 100 the visible block at virtual row 1, whose
rectangle [0, 100) x [40, 80) overlaps the viewport, is not passed to
`draw_block`: the viewport origin lies in no block of the rows scanned from
virtual row 1 on, and the function returns FALSE without drawing.  On
`sheet_2x2 true` with viewport origin (0, 40) and size 100 x 50 the visible
block at virtual row 1, virtual column 1, whose rectangle
[50, 100) x [40, 80) overlaps the viewport, is not passed to `draw_block`:
only the virtual column of the block found at the viewport origin is
drawn. -/
theorem draw_internal_skips_counterexample :
    (SheetLayout (scenario_sheet 100) ∧
      (scenario_sheet 100).get_block 1 0 = some ⟨some (style_2x1 100), 0, 40, true⟩ ∧
      (gnucash_sheet_draw_internal (scenario_sheet 100) 10 loc0 0 10 100 100).2
        = .ret false ∧
      (blocks_drawn
        (gnucash_sheet_draw_internal (scenario_sheet 100) 10 loc0 0 10 100 100).1).map
        (fun p => p.1) = []) ∧
    (SheetLayout (sheet_2x2 true) ∧
      (sheet_2x2 true).get_block 1 1 = some ⟨some (style_2x1 50), 50, 40, true⟩ ∧
      (gnucash_sheet_draw_internal (sheet_2x2 true) 10 loc0 0 40 100 50).2 = .ret true ∧
      (blocks_drawn
        (gnucash_sheet_draw_internal (sheet_2x2 true) 10 loc0 0 40 100 50).1).map
        (fun p => p.1) = [⟨1, 0⟩]) := by
  refine ⟨⟨scenario_sheet_layout 100, rfl, by decide, by decide⟩,
    ⟨sheet_2x2_layout true, rfl, by decide, by decide⟩⟩

/-- C7 (amended): for every grid that satisfies the layout invariants and
whose block lookups outside the grid yield `NULL`, and every viewport whose
origin pixel is found by `find_block_by_pixel` in a block at (r0, c0), a run
of `gnucash_sheet_draw_internal` with enough loop iterations returns TRUE and
passes to `draw_block` every visible block of virtual column c0 in a virtual
row `r0 ≤ r < num_virt_rows` whose `origin_y` does not exceed the viewport
bottom `y + height`, hence every such block that overlaps the viewport. -/
theorem draw_internal_draws_visible (sheet : GnucashSheet) (hL : SheetLayout sheet)
    (hbound : LookupBounded sheet) (fuel : Nat) (hfuel : sheet.num_virt_rows.toNat < fuel)
    (virt_loc : VirtualLocation) (x y width height : Int)
    (b0 : SheetBlock) (r0 c0 : Int)
    (hfind : find_block_by_pixel sheet x y virt_loc.vcell_loc = .ret (some b0, ⟨r0, c0⟩)) :
    ∃ evs, gnucash_sheet_draw_internal sheet fuel virt_loc x y width height
        = (evs, .ret true) ∧
      ∀ r b, r0 ≤ r → r < sheet.num_virt_rows → sheet.get_block r c0 = some b →
        b.visible = true → b.origin_y ≤ y + height →
        (⟨r, c0⟩, b) ∈ blocks_drawn evs := by
  obtain ⟨hx, hy, hr0, hc0, hb0, st0, hst0, -⟩ :=
    find_block_by_pixel_some sheet hbound x y _ _ b0 hfind
  have hbd := hbound _ _ b0 hb0
  dsimp only at hr0 hc0 hbd
  unfold gnucash_sheet_draw_internal
  have hneg : ¬ (x < 0 ∨ y < 0) := by omega
  simp only [hneg, if_false, hfind, hst0]
  exact draw_internal_rows_complete sheet hL hbound
    { virt_loc with vcell_loc := ⟨r0, c0⟩ } hc0 hbd.2.2.2 x y width height fuel hfuel fuel r0
    (by omega) (by omega)

theorem draw_internal_draws_visible_witness :
    ∃ evs, gnucash_sheet_draw_internal (scenario_sheet 100) 10 loc0 0 40 100 50
        = (evs, .ret true) ∧
      ∀ r b, 1 ≤ r → r < (scenario_sheet 100).num_virt_rows →
        (scenario_sheet 100).get_block r 0 = some b →
        b.visible = true → b.origin_y ≤ 40 + 50 →
        (⟨r, 0⟩, b) ∈ blocks_drawn evs :=
  draw_internal_draws_visible (scenario_sheet 100) (scenario_sheet_layout 100)
    (scenario_sheet_bounded 100) 10 (by decide) loc0 0 40 100 50
    ⟨some (style_2x1 100), 0, 40, true⟩ 1 0 rfl

/-! ## Theorems: colours, divider lines and text of `draw_cell` -/

theorem and_mask_shiftRight (a k n : Nat) :
    (a &&& ((2 ^ n - 1) <<< k)) >>> k = (a / 2 ^ k) % 2 ^ n := by
  apply Nat.eq_of_testBit_eq
  intro i
  rw [← Nat.shiftRight_eq_div_pow]
  simp only [Nat.testBit_shiftRight, Nat.testBit_and, Nat.testBit_shiftLeft,
    Nat.testBit_two_pow_sub_one, Nat.testBit_mod_two_pow]
  by_cases h : i < n
  · simp [h]
  · simp [h]

theorem dec_intensity_byte_eq (v : Nat) (h : v < 256) :
    dec_intensity_byte v 9 10 = v * 9 / 10 := by
  unfold dec_intensity_byte
  rw [Int.tdiv_eq_ediv (by positivity) (by norm_num)]
  have h1 : ((v : Int) * 9) / 10 = ((v * 9 / 10 : Nat) : Int) := by
    push_cast
    rfl
  rw [h1]
  have h2 : v * 9 / 10 < 256 := by omega
  generalize v * 9 / 10 = n at h2 ⊢
  omega

theorem dec_intensity_10percent_eq (argb : Nat) :
    dec_intensity_10percent argb =
      (argb / 65536 % 256 * 9 / 10) * 65536 + (argb / 256 % 256 * 9 / 10) * 256
        + argb % 256 * 9 / 10 := by
  have m1 : (argb &&& 0x00FF0000) >>> 16 = argb / 65536 % 256 := by
    have := and_mask_shiftRight argb 16 8
    norm_num at this
    exact this
  have m2 : (argb &&& 0x0000FF00) >>> 8 = argb / 256 % 256 := by
    have := and_mask_shiftRight argb 8 8
    norm_num at this
    exact this
  have m3 : argb &&& 0x000000FF = argb % 256 := Nat.and_pow_two_sub_one_eq_mod argb 8
  unfold dec_intensity_10percent
  rw [m1, m2, m3, Nat.mod_mod, Nat.mod_mod, Nat.mod_mod,
    dec_intensity_byte_eq _ (Nat.mod_lt _ (by norm_num)),
    dec_intensity_byte_eq _ (Nat.mod_lt _ (by norm_num)),
    dec_intensity_byte_eq _ (Nat.mod_lt _ (by norm_num)),
    Nat.shiftLeft_eq, Nat.shiftLeft_eq]
  have hr : argb / 65536 % 256 < 256 := Nat.mod_lt _ (by norm_num)
  have hg : argb / 256 % 256 < 256 := Nat.mod_lt _ (by norm_num)
  have hb : argb % 256 < 256 := Nat.mod_lt _ (by norm_num)
  generalize argb / 65536 % 256 = r at hr ⊢
  generalize argb / 256 % 256 = g at hg ⊢
  generalize argb % 256 = b at hb ⊢
  omega

/-- C11: for every `argb` (in particular every 32-bit value) with channels
R = bits 16-23, G = bits 8-15 and B = bits 0-7,
`dec_intensity_10percent argb` is
`(R*9/10 << 16) + (G*9/10 << 8) + B*9/10` with truncating division: each
darkened channel stays below 256, so no carry passes between channels, the
channels of the result are the darkened channels, and the top byte of the
result is zero.  A channel 0xFF becomes 0xE5 and a channel 0x00 stays
0x00. -/
theorem dec_intensity_10percent_channels (argb : Nat) :
    dec_intensity_10percent argb =
      ((argb / 65536 % 256 * 9 / 10) <<< 16) + ((argb / 256 % 256 * 9 / 10) <<< 8)
        + argb % 256 * 9 / 10 ∧
    (argb / 65536 % 256 * 9 / 10 < 256 ∧ argb / 256 % 256 * 9 / 10 < 256 ∧
      argb % 256 * 9 / 10 < 256) ∧
    (dec_intensity_10percent argb / 65536 % 256 = argb / 65536 % 256 * 9 / 10 ∧
      dec_intensity_10percent argb / 256 % 256 = argb / 256 % 256 * 9 / 10 ∧
      dec_intensity_10percent argb % 256 = argb % 256 * 9 / 10) ∧
    dec_intensity_10percent argb / 2 ^ 24 = 0 ∧
    dec_intensity_byte 0xFF 9 10 = 0xE5 ∧ dec_intensity_byte 0x00 9 10 = 0x00 ∧
    dec_intensity_10percent 0xFFFFFFFF = 0x00E5E5E5 ∧
    dec_intensity_10percent 0x00000000 = 0x00000000 := by
  rw [dec_intensity_10percent_eq, Nat.shiftLeft_eq, Nat.shiftLeft_eq]
  have hr : argb / 65536 % 256 < 256 := Nat.mod_lt _ (by norm_num)
  have hg : argb / 256 % 256 < 256 := Nat.mod_lt _ (by norm_num)
  have hb : argb % 256 < 256 := Nat.mod_lt _ (by norm_num)
  generalize argb / 65536 % 256 = r at hr ⊢
  generalize argb / 256 % 256 = g at hg ⊢
  generalize argb % 256 = b at hb ⊢
  have hr2 : r * 9 / 10 < 256 := by omega
  have hg2 : g * 9 / 10 < 256 := by omega
  have hb2 : b * 9 / 10 < 256 := by omega
  generalize r * 9 / 10 = r2 at hr2 ⊢
  generalize g * 9 / 10 = g2 at hg2 ⊢
  generalize b * 9 / 10 = b2 at hb2 ⊢
  refine ⟨by norm_num, ⟨hr2, hg2, hb2⟩, ⟨by omega, by omega, by omega⟩,
    by omega, by decide, by decide, by decide, by decide⟩

/-- C14: `draw_divider_line` strokes a line iff the divider index `D` is not
negative and either the cell is in physical row 0 of a block of virtual row
`D`, in which case the line lies at the top of the cell (`y + 0.5`), or,
failing that, the cell is in the last physical row `n - 1` of a block of
virtual row `D - 1`, in which case it lies at the bottom (`y + 0.5 + height`);
a negative `D` never draws. -/
theorem draw_divider_line_spec (virt_loc : VirtualLocation) (D n : Int) (color : Color)
    (x y width height : ℚ) :
    let top := virt_loc.phys_row_offset = 0 ∧ virt_loc.vcell_loc.virt_row = D
    let bottom := virt_loc.phys_row_offset = n - 1 ∧ virt_loc.vcell_loc.virt_row = D - 1
    ((draw_divider_line virt_loc D n color x y width height).isSome = true ↔
      D ≥ 0 ∧ (top ∨ bottom)) ∧
    (D ≥ 0 → top →
      draw_divider_line virt_loc D n color x y width height
        = some ⟨color, x, y + 1 / 2, width⟩) ∧
    (D ≥ 0 → ¬ top → bottom →
      draw_divider_line virt_loc D n color x y width height
        = some ⟨color, x, y + 1 / 2 + height, width⟩) ∧
    (D < 0 → draw_divider_line virt_loc D n color x y width height = none) := by
  intro top bottom
  simp only [top, bottom]
  unfold draw_divider_line
  split_ifs with h1 h2 h3
  · refine ⟨?_, ?_, ?_, ?_⟩
    · simp only [Option.isSome_none, Bool.false_eq_true, false_iff]
      rintro ⟨h, -⟩
      omega
    · intro h
      omega
    · intro h
      omega
    · intro _
      rfl
  · refine ⟨?_, ?_, ?_, ?_⟩
    · simp only [Option.isSome_some, true_iff]
      exact ⟨by omega, Or.inl h2⟩
    · intro _ _
      simp only [add_zero]
    · intro _ h
      exact absurd h2 h
    · intro h
      exact absurd h h1
  · refine ⟨?_, ?_, ?_, ?_⟩
    · simp only [Option.isSome_some, true_iff]
      exact ⟨by omega, Or.inr h3⟩
    · intro _ h
      exact absurd h h2
    · intro _ _ _
      rfl
    · intro h
      exact absurd h h1
  · refine ⟨?_, ?_, ?_, ?_⟩
    · simp only [Option.isSome_none, Bool.false_eq_true, false_iff]
      rintro ⟨-, h | h⟩
      · exact h2 h
      · exact h3 h
    · intro _ h
      exact absurd h h2
    · intro _ _ h
      exact absurd h h3
    · intro _
      rfl

theorem draw_cell_ret (ctx : CellContext) (block : SheetBlock) (style : SheetBlockStyle)
    (hst : block.style = some style) (virt_loc : VirtualLocation) (x y width height : Int) :
    ∃ d, draw_cell ctx block virt_loc x y width height = .ret d ∧
      d.bg_color = (draw_cell_bg ctx style.nrows virt_loc).1 ∧
      d.hatching = (draw_cell_bg ctx style.nrows virt_loc).2 ∧
      d.text = draw_cell_text ctx virt_loc x y width height := by
  unfold draw_cell
  simp only [hst]
  exact ⟨_, rfl, rfl, rfl, rfl⟩

/-- C13 (the code departs from the claim at this input): a right-aligned cell
of width 50 with horizontal padding 5 and a non-empty text measuring 60
pixels, wider than the 40 available, is shown with
`x_offset = 50 - 10 - 60 = -20`, at x = 5 - 20 = -15 inside the clip rectangle
that starts at x = 5, not with `x_offset = 0` (x = 5).  The centre case of the
same `switch` does fall back: the same cell with centre alignment has
`x_offset = 0` and shows the text at x = 5. -/
theorem right_align_overflow_offset :
    (50 - 2 * (ctx_cell false .CELL_ALIGN_RIGHT 3 (some "1,234.56") none).CELL_HPADDING <
      (ctx_cell false .CELL_ALIGN_RIGHT 3 (some "1,234.56") none).text_width
        "1,234.56" false) ∧
    (∃ d td, draw_cell (ctx_cell false .CELL_ALIGN_RIGHT 3 (some "1,234.56") none)
        block_cell ⟨⟨1, 0⟩, 0, 0⟩ 0 0 50 20 = .ret d ∧ d.text = some td ∧
      td.text = "1,234.56" ∧ td.clip_x = 5 ∧ td.clip_width = 40 ∧ td.x = -15) ∧
    text_x_offset 5 .CELL_ALIGN_RIGHT 50 60 = -20 ∧
    text_x_offset 5 .CELL_ALIGN_CENTER 50 60 = 0 ∧
    (∃ d td, draw_cell (ctx_cell false .CELL_ALIGN_CENTER 3 (some "1,234.56") none)
        block_cell ⟨⟨1, 0⟩, 0, 0⟩ 0 0 50 20 = .ret d ∧ d.text = some td ∧ td.x = 5) := by
  refine ⟨by decide, ⟨_, _, rfl, rfl, by decide, by decide, by decide, by decide⟩,
    by decide, by decide, ⟨_, _, rfl, rfl, by decide⟩⟩

/-- C15 (as stated, refuted): with theme colours in use, the cell in the last
physical row (offset 1 of 2) of the block at virtual row 1, below the upper
dividing row 5, is filled with the theme colour 0xFFFFFF itself, not with the
darkened colour 0xE5E5E5. -/
theorem theme_fill_counterexample :
    ((⟨⟨1, 0⟩, 1, 0⟩ : VirtualLocation).phys_row_offset = (style_2x1 50).nrows - 1 ∧
      (table_cell .CELL_ALIGN_LEFT 3 none none).dividing_row_upper ≥ 0 ∧
      (⟨⟨1, 0⟩, 1, 0⟩ : VirtualLocation).vcell_loc.virt_row
        < (table_cell .CELL_ALIGN_LEFT 3 none none).dividing_row_upper) ∧
    (∃ d, draw_cell (ctx_cell true .CELL_ALIGN_LEFT 3 none none) block_cell
        ⟨⟨1, 0⟩, 1, 0⟩ 0 20 50 20 = .ret d ∧ d.bg_color = Color.of_argb 0xFFFFFF) ∧
    (ctx_cell true .CELL_ALIGN_LEFT 3 none none).get_gtkrc_color
      ((table_cell .CELL_ALIGN_LEFT 3 none none).get_gtkrc_bg_color ⟨⟨1, 0⟩, 1, 0⟩).1
      = Color.of_argb 0xFFFFFF ∧
    dec_intensity_10percent 0xFFFFFF = 0xE5E5E5 ∧
    Color.of_argb 0xFFFFFF ≠ Color.of_argb 0xE5E5E5 := by
  refine ⟨by decide, ⟨_, rfl, rfl⟩, rfl, by decide, by decide⟩

/-- C15 (amended): for every cell drawn by `draw_cell`, when the sheet does not
use theme colours the background fill colour is the raw model colour with
each channel multiplied by 9/10 (truncating) if the cell is in the last
physical row of its block, `dividing_row_upper ≥ 0` and the block's virtual
row is below `dividing_row_upper`, and the raw model colour unchanged
otherwise; when the sheet uses theme colours the fill colour is the theme
colour of the model's colour type, never darkened. -/
theorem background_fill_color (ctx : CellContext) (block : SheetBlock)
    (style : SheetBlockStyle) (hst : block.style = some style)
    (virt_loc : VirtualLocation) (x y width height : Int) :
    let read_only := virt_loc.phys_row_offset = style.nrows - 1 ∧
      ctx.table.dividing_row_upper ≥ 0 ∧
      virt_loc.vcell_loc.virt_row < ctx.table.dividing_row_upper
    let argb := (ctx.table.get_bg_color virt_loc).1
    ∃ d, draw_cell ctx block virt_loc x y width height = .ret d ∧
      (d.fill_x = x ∧ d.fill_y = y ∧ d.fill_width = width ∧ d.fill_height = height) ∧
      (ctx.use_theme_colors = false → read_only →
        d.bg_color = Color.of_argb (dec_intensity_10percent argb) ∧
        d.bg_color = Color.of_argb ((argb / 65536 % 256 * 9 / 10) * 65536
          + (argb / 256 % 256 * 9 / 10) * 256 + argb % 256 * 9 / 10)) ∧
      (ctx.use_theme_colors = false → ¬ read_only → d.bg_color = Color.of_argb argb) ∧
      (ctx.use_theme_colors = true →
        d.bg_color = ctx.get_gtkrc_color (ctx.table.get_gtkrc_bg_color virt_loc).1) := by
  intro read_only argb
  unfold draw_cell
  simp only [hst]
  refine ⟨_, rfl, ⟨rfl, rfl, rfl, rfl⟩, ?_, ?_, ?_⟩
  · intro ht hro
    have hro2 := hro
    simp only [read_only] at hro2
    have h1 : (draw_cell_bg ctx style.nrows virt_loc).1
        = Color.of_argb (dec_intensity_10percent argb) := by
      simp only [draw_cell_bg, ht, Bool.false_eq_true, if_false, hro2, and_self, if_true, argb]
    exact ⟨h1, by rw [h1, dec_intensity_10percent_eq]⟩
  · intro ht hro
    have hro2 := hro
    simp only [read_only] at hro2
    simp only [draw_cell_bg, ht, Bool.false_eq_true, if_false, hro2, argb]
  · intro ht
    simp only [draw_cell_bg, ht, if_true]

theorem background_fill_color_witness :
    ∃ d, draw_cell (ctx_cell false .CELL_ALIGN_LEFT 3 none none) block_cell
        ⟨⟨1, 0⟩, 1, 0⟩ 0 20 50 20 = .ret d ∧ d.bg_color = Color.of_argb 0xE5E5E5 := by
  obtain ⟨d, h1, -, h2, -, -⟩ := background_fill_color
    (ctx_cell false .CELL_ALIGN_LEFT 3 none none) block_cell (style_2x1 50) rfl
    ⟨⟨1, 0⟩, 1, 0⟩ 0 20 50 20
  exact ⟨d, h1, (h2 rfl (by decide)).1.trans (by decide)⟩

/-- C16: for every cell whose model entry text is empty (`NULL` or `""`):
if its virtual row is the row of `current_cursor_loc` and the model's label
is not empty, `draw_cell` shows the label, in italic and light gray; if the
label is empty too, it shows no text; and if its virtual row is not the
active row it shows no text. -/
theorem empty_entry_label (ctx : CellContext) (block : SheetBlock)
    (style : SheetBlockStyle) (hst : block.style = some style)
    (virt_loc : VirtualLocation) (x y width height : Int)
    (hempty : ctx.table.get_entry virt_loc = none ∨ ctx.table.get_entry virt_loc = some "") :
    ∃ d, draw_cell ctx block virt_loc x y width height = .ret d ∧
      (ctx.table.current_cursor_loc.vcell_loc.virt_row = virt_loc.vcell_loc.virt_row →
        ∀ label, ctx.table.get_label virt_loc = some label → label ≠ "" →
          ∃ td, d.text = some td ∧ td.text = label ∧ td.italic = true ∧
            td.color = Color.gn_light_gray) ∧
      (ctx.table.current_cursor_loc.vcell_loc.virt_row = virt_loc.vcell_loc.virt_row →
        (ctx.table.get_label virt_loc = none ∨ ctx.table.get_label virt_loc = some "") →
        d.text = none) ∧
      (ctx.table.current_cursor_loc.vcell_loc.virt_row ≠ virt_loc.vcell_loc.virt_row →
        d.text = none) := by
  have he : text_empty (ctx.table.get_entry virt_loc) = true := by
    rcases hempty with h | h <;> simp [h, text_empty]
  obtain ⟨d, hd, -, -, htext⟩ := draw_cell_ret ctx block style hst virt_loc x y width height
  refine ⟨d, hd, ?_, ?_, ?_⟩
  · intro hact label hl hne
    rw [htext]
    simp only [draw_cell_text, hact, he, and_self, if_true, hl, hne, if_false]
    exact ⟨_, rfl, rfl, rfl, rfl⟩
  · intro hact hl
    rw [htext]
    simp only [draw_cell_text, hact, he, and_self, if_true]
    rcases hl with h | h <;> simp [h]
  · intro hact
    rw [htext]
    simp only [draw_cell_text, hact, false_and, if_false]
    rcases hempty with h | h <;> simp [h]

theorem empty_entry_label_witness :
    ∃ d, draw_cell (ctx_cell false .CELL_ALIGN_LEFT 1 (some "") (some "Description"))
        block_cell ⟨⟨1, 0⟩, 0, 0⟩ 0 0 50 20 = .ret d ∧
      ∃ td, d.text = some td ∧ td.text = "Description" ∧ td.italic = true ∧
        td.color = Color.gn_light_gray := by
  obtain ⟨d, h1, h2, -, -⟩ := empty_entry_label
    (ctx_cell false .CELL_ALIGN_LEFT 1 (some "") (some "Description")) block_cell
    (style_2x1 50) rfl ⟨⟨1, 0⟩, 0, 0⟩ 0 0 50 20 (Or.inr rfl)
  exact ⟨d, h1, h2 rfl "Description" rfl (by decide)⟩

/-! ## Theorems: the virtual-column scan and valid addresses -/

/-- C18: for every grid whose block and cell-dimension lookups outside the
bounds yield `NULL`, whenever `gnucash_sheet_find_loc_by_pixel` returns TRUE
the resulting location is a valid address: `0 ≤ virt_row < num_virt_rows`
(indeed `1 ≤ virt_row`), `0 ≤ virt_col < num_virt_cols`, and the physical
offsets lie inside the style of the block at that virtual address. -/
theorem find_loc_valid_address (sheet : GnucashSheet) (hbound : LookupBounded sheet)
    (hsb : StylesBounded sheet) (x y : Int) (v0 L : VirtualLocation)
    (h : gnucash_sheet_find_loc_by_pixel sheet x y (some v0) = .ret (true, some L)) :
    (0 ≤ L.vcell_loc.virt_row ∧ L.vcell_loc.virt_row < sheet.num_virt_rows) ∧
    1 ≤ L.vcell_loc.virt_row ∧
    (0 ≤ L.vcell_loc.virt_col ∧ L.vcell_loc.virt_col < sheet.num_virt_cols) ∧
    ∃ b st, sheet.get_block L.vcell_loc.virt_row L.vcell_loc.virt_col = some b ∧
      b.style = some st ∧
      (0 ≤ L.phys_row_offset ∧ L.phys_row_offset < st.nrows) ∧
      (0 ≤ L.phys_col_offset ∧ L.phys_col_offset < st.ncols) := by
  unfold gnucash_sheet_find_loc_by_pixel at h
  simp only at h
  cases hfind : find_block_by_pixel sheet x y v0.vcell_loc with
  | null_deref => simp [hfind] at h
  | out_of_fuel => simp [hfind] at h
  | ret res =>
    obtain ⟨ob, vc⟩ := res
    cases ob with
    | none => simp [hfind] at h
    | some blk =>
      simp only [hfind] at h
      obtain ⟨-, -, h3, -, -, -⟩ := find_block_by_pixel_some sheet hbound x y _ _ blk hfind
      obtain ⟨e, b, st, cd, cd0, g1, g2, g3, -⟩ := find_cell_by_pixel_true sheet hsb x y _ L h
      have hbd := hbound _ _ b g1
      have hcb := hsb _ _ b st g1 g2 _ _ cd g3
      simp only at e
      rw [← e] at h3
      exact ⟨⟨hbd.1, hbd.2.1⟩, h3, ⟨hbd.2.2.1, hbd.2.2.2⟩, b, st, g1, g2,
        ⟨hcb.1, hcb.2.1⟩, ⟨hcb.2.2.1, hcb.2.2.2⟩⟩

theorem find_loc_valid_address_witness :
    (0 ≤ (⟨⟨1, 0⟩, 1, 0⟩ : VirtualLocation).vcell_loc.virt_row ∧
      (⟨⟨1, 0⟩, 1, 0⟩ : VirtualLocation).vcell_loc.virt_row
        < (scenario_sheet 100).num_virt_rows) ∧
    1 ≤ (⟨⟨1, 0⟩, 1, 0⟩ : VirtualLocation).vcell_loc.virt_row ∧
    (0 ≤ (⟨⟨1, 0⟩, 1, 0⟩ : VirtualLocation).vcell_loc.virt_col ∧
      (⟨⟨1, 0⟩, 1, 0⟩ : VirtualLocation).vcell_loc.virt_col
        < (scenario_sheet 100).num_virt_cols) ∧
    ∃ b st, (scenario_sheet 100).get_block
        (⟨⟨1, 0⟩, 1, 0⟩ : VirtualLocation).vcell_loc.virt_row
        (⟨⟨1, 0⟩, 1, 0⟩ : VirtualLocation).vcell_loc.virt_col = some b ∧
      b.style = some st ∧
      (0 ≤ (⟨⟨1, 0⟩, 1, 0⟩ : VirtualLocation).phys_row_offset ∧
        (⟨⟨1, 0⟩, 1, 0⟩ : VirtualLocation).phys_row_offset < st.nrows) ∧
      (0 ≤ (⟨⟨1, 0⟩, 1, 0⟩ : VirtualLocation).phys_col_offset ∧
        (⟨⟨1, 0⟩, 1, 0⟩ : VirtualLocation).phys_col_offset < st.ncols) :=
  find_loc_valid_address (scenario_sheet 100) (scenario_sheet_bounded 100)
    (scenario_sheet_styles_bounded 100) 5 65 loc0 ⟨⟨1, 0⟩, 1, 0⟩ (by decide)

/-! ## Theorems: the result of `gnucash_sheet_draw_internal` -/

theorem draw_block_cols_total (block : SheetBlock) (style : SheetBlockStyle)
    (vcell_loc : VirtualCellLocation) (x y width height row : Int)
    (hce : ∀ pc, 0 ≤ pc → pc < style.ncols →
      ∃ cd, style.dimensions.cell_dimensions row pc = some cd) (fuel : Nat) :
    ∀ col, 0 ≤ col → (style.ncols - col).toNat < fuel →
      ∃ evs o, draw_block_cols block style vcell_loc x y width height row fuel col
        = (evs, .ret o) := by
  induction fuel with
  | zero => intro col _ hf; omega
  | succ n ih =>
    intro col hc hf
    unfold draw_block_cols
    split_ifs with hlt
    · obtain ⟨cd, hcd⟩ := hce col hc hlt
      obtain ⟨evs, o, hrec⟩ := ih (col + 1) (by omega) (by omega)
      cases hstep : draw_block_cell block style x y width height row col with
      | fault =>
        unfold draw_block_cell at hstep
        simp only [hcd] at hstep
        split_ifs at hstep
      | brk => exact ⟨_, _, rfl⟩
      | rtn => exact ⟨_, _, rfl⟩
      | skip => exact ⟨evs, o, hrec⟩
      | paint xp yp w h =>
        simp only [hrec]
        exact ⟨_, _, rfl⟩
    · exact ⟨_, _, rfl⟩

theorem draw_block_rows_total (block : SheetBlock) (style : SheetBlockStyle)
    (vcell_loc : VirtualCellLocation) (x y width height : Int)
    (hce : ∀ pr pc, 0 ≤ pr → pr < style.nrows → 0 ≤ pc → pc < style.ncols →
      ∃ cd, style.dimensions.cell_dimensions pr pc = some cd) (fuel : Nat) :
    ∀ row, 0 ≤ row → (style.nrows - row).toNat < fuel →
      ∃ evs, draw_block_rows block style vcell_loc x y width height fuel row
        = (evs, .ret ()) := by
  induction fuel with
  | zero => intro row _ hf; omega
  | succ n ih =>
    intro row hr hf
    unfold draw_block_rows
    split_ifs with hlt
    · obtain ⟨evs, o, hcols⟩ := draw_block_cols_total block style vcell_loc x y width height
        row (hce row · hr hlt) (style.ncols.toNat + 1) 0 (le_refl _) (by omega)
      obtain ⟨evs2, hrec⟩ := ih (row + 1) (by omega) (by omega)
      rw [hcols]
      cases o with
      | true => exact ⟨_, rfl⟩
      | false =>
        simp only [hrec]
        exact ⟨_, rfl⟩
    · exact ⟨_, rfl⟩

theorem draw_block_total (block : SheetBlock) (style : SheetBlockStyle)
    (hst : block.style = some style)
    (hce : ∀ pr pc, 0 ≤ pr → pr < style.nrows → 0 ≤ pc → pc < style.ncols →
      ∃ cd, style.dimensions.cell_dimensions pr pc = some cd)
    (virt_loc : VirtualLocation) (x y width height : Int) :
    ∃ evs, draw_block block virt_loc x y width height = (evs, .ret ()) := by
  unfold draw_block
  simp only [hst]
  exact draw_block_rows_total block style _ x y width height hce _ 0 (le_refl _) (by omega)

theorem skip_invisible_total (sheet : GnucashSheet) (hbound : LookupBounded sheet)
    (c0 : Int) (fuel : Nat) :
    ∀ row, (sheet.num_virt_rows - row).toNat < fuel →
      ∃ o, skip_invisible sheet c0 fuel row = .ret o := by
  induction fuel with
  | zero => intro row hf; omega
  | succ n ih =>
    intro row hf
    unfold skip_invisible
    cases hb : sheet.get_block row c0 with
    | none => exact ⟨_, rfl⟩
    | some b =>
      have hbd := hbound row c0 b hb
      cases hst : b.style with
      | none =>
        simp only [hst]
        exact ⟨_, rfl⟩
      | some st =>
        simp only [hst]
        split_ifs with hv
        · exact ⟨_, rfl⟩
        · exact ih (row + 1) (by omega)

theorem draw_internal_rows_total (sheet : GnucashSheet) (hbound : LookupBounded sheet)
    (hcells : CellsPresent sheet) (virt_loc : VirtualLocation)
    (x y width height : Int) (inner : Nat) (hinner : sheet.num_virt_rows.toNat < inner)
    (fuel : Nat) :
    ∀ row, 0 ≤ row → (sheet.num_virt_rows - row).toNat < fuel →
      ∃ evs, draw_internal_rows sheet virt_loc x y width height inner fuel row
        = (evs, .ret true) := by
  induction fuel with
  | zero => intro row _ hf; omega
  | succ n ih =>
    intro row hr hf
    unfold draw_internal_rows
    split_ifs with hlt
    · obtain ⟨o, ho⟩ := skip_invisible_total sheet hbound virt_loc.vcell_loc.virt_col inner
        row (by omega)
      rw [ho]
      cases o with
      | none => exact ⟨_, rfl⟩
      | some rb =>
        obtain ⟨r, b⟩ := rb
        obtain ⟨h1, h2, h3, ⟨st, hst⟩, -⟩ := skip_invisible_some sheet _ inner row r b ho
        have hbd := hbound _ _ b h2
        simp only
        split_ifs with hbelow
        · exact ⟨_, rfl⟩
        · obtain ⟨evs, hdb⟩ := draw_block_total b st hst (hcells _ _ b st h2 hst)
            { virt_loc with vcell_loc := ⟨r, virt_loc.vcell_loc.virt_col⟩ } x y width height
          obtain ⟨evs2, hrec⟩ := ih (r + 1) (by omega) (by omega)
          simp only [hdb, hrec]
          exact ⟨_, rfl⟩
    · exact ⟨_, rfl⟩

/-- C17: `gnucash_sheet_draw_internal` returns FALSE and draws nothing when the
viewport origin has `x < 0` or `y < 0`, and when `find_block_by_pixel` finds
no block for the viewport origin.  In every other case, that is when a block
is found, on a grid whose block lookups outside the grid yield `NULL` and
whose styles have dimensions for all their cells, a run with enough loop
iterations returns TRUE, whether the loop ends at `num_virt_rows`, runs out
of blocks or reaches a block below the viewport. -/
theorem draw_internal_result (sheet : GnucashSheet) (fuel : Nat)
    (virt_loc : VirtualLocation) (x y width height : Int) :
    ((x < 0 ∨ y < 0) →
      gnucash_sheet_draw_internal sheet fuel virt_loc x y width height = ([], .ret false)) ∧
    (∀ vc, find_block_by_pixel sheet x y virt_loc.vcell_loc = .ret (none, vc) →
      gnucash_sheet_draw_internal sheet fuel virt_loc x y width height = ([], .ret false)) ∧
    (LookupBounded sheet → CellsPresent sheet → sheet.num_virt_rows.toNat < fuel →
      ∀ b vc, find_block_by_pixel sheet x y virt_loc.vcell_loc = .ret (some b, vc) →
        ∃ evs, gnucash_sheet_draw_internal sheet fuel virt_loc x y width height
          = (evs, .ret true)) := by
  refine ⟨?_, ?_, ?_⟩
  · intro h
    unfold gnucash_sheet_draw_internal
    rw [if_pos h]
  · intro vc h
    unfold gnucash_sheet_draw_internal
    split_ifs with hneg
    · rfl
    · simp only [h]
  · intro hbound hcells hfuel b vc hfind
    obtain ⟨hx, hy, hr0, hc0, hb0, st0, hst0, -⟩ :=
      find_block_by_pixel_some sheet hbound x y _ _ b hfind
    unfold gnucash_sheet_draw_internal
    have hneg : ¬ (x < 0 ∨ y < 0) := by omega
    simp only [hneg, if_false, hfind, hst0]
    exact draw_internal_rows_total sheet hbound hcells _ x y width height fuel hfuel fuel
      vc.virt_row (by omega) (by omega)

theorem draw_internal_result_witness :
    ∃ evs, gnucash_sheet_draw_internal (scenario_sheet 100) 10 loc0 0 40 100 50
      = (evs, .ret true) :=
  (draw_internal_result (scenario_sheet 100) 10 loc0 0 40 100 50).2.2
    (scenario_sheet_bounded 100)
    (by
      intro r c b st hb hst
      simp only [scenario_sheet] at hb
      split_ifs at hb
      simp only [Option.some.injEq] at hb
      subst hb
      simp only [Option.some.injEq] at hst
      subst hst
      exact (style_2x1_layout 100).cell_exists)
    (by decide) ⟨some (style_2x1 100), 0, 40, true⟩ ⟨1, 0⟩ rfl

/-! ## Theorems: first-match scan of the physical cells -/

theorem find_cell_rows_spec (style : SheetBlockStyle)
    (hce : ∀ r, 0 ≤ r → r < style.nrows →
      ∃ cd, style.dimensions.cell_dimensions r 0 = some cd)
    (y : Int) (fuel : Nat) :
    ∀ s, 0 ≤ s → s < style.nrows → (style.nrows - s).toNat < fuel →
      (∀ r1, r1 < s → ¬ phys_row_hit style y r1) →
      (∃ t, find_cell_rows style y fuel s = .ret t ∧ t < style.nrows ∧
        least_phys_row style y t) ∨
      (find_cell_rows style y fuel s = .ret style.nrows ∧
        ∀ r1, ¬ phys_row_hit style y r1) := by
  induction fuel with
  | zero => intro s _ _ hf; omega
  | succ n ih =>
    intro s hs hs2 hf hbefore
    unfold find_cell_rows
    obtain ⟨cd, hcd⟩ := hce s hs hs2
    simp only [hcd]
    by_cases hhit : y ≥ cd.origin_y ∧ y < cd.origin_y + cd.pixel_height
    · left
      rw [if_pos hhit]
      exact ⟨s, rfl, hs2, ⟨hs, hs2, cd, hcd, hhit.1, hhit.2⟩, hbefore⟩
    · rw [if_neg hhit]
      have hmiss : ¬ phys_row_hit style y s := by
        rintro ⟨-, -, cd1, h1, h2, h3⟩
        rw [hcd] at h1
        cases h1
        exact hhit ⟨h2, h3⟩
      have hbefore2 : ∀ r1, r1 < s + 1 → ¬ phys_row_hit style y r1 := by
        intro r1 h1
        by_cases heq : r1 = s
        · subst heq
          exact hmiss
        · exact hbefore r1 (by omega)
      split_ifs with hlt
      · exact ih (s + 1) (by omega) hlt (by omega) hbefore2
      · right
        have hend : s + 1 = style.nrows := by omega
        refine ⟨by rw [hend], ?_⟩
        intro r1 hr1
        exact hbefore2 r1 (by have := hr1.2.1; omega) hr1

theorem find_cell_cols_spec (style : SheetBlockStyle) (row : Int)
    (hce : ∀ c, 0 ≤ c → c < style.ncols →
      ∃ cd, style.dimensions.cell_dimensions row c = some cd)
    (x : Int) (fuel : Nat) :
    ∀ s, 0 ≤ s → s < style.ncols → (style.ncols - s).toNat < fuel →
      (∀ c1, c1 < s → ¬ phys_col_hit style x row c1) →
      (∃ t, find_cell_cols style x row fuel s = .ret t ∧ t < style.ncols ∧
        least_phys_col style x row t) ∨
      (find_cell_cols style x row fuel s = .ret style.ncols ∧
        ∀ c1, ¬ phys_col_hit style x row c1) := by
  induction fuel with
  | zero => intro s _ _ hf; omega
  | succ n ih =>
    intro s hs hs2 hf hbefore
    unfold find_cell_cols
    obtain ⟨cd, hcd⟩ := hce s hs hs2
    simp only [hcd]
    by_cases hhit : x ≥ cd.origin_x ∧ x < cd.origin_x + cd.pixel_width
    · left
      rw [if_pos hhit]
      exact ⟨s, rfl, hs2, ⟨hs, hs2, cd, hcd, hhit.1, hhit.2⟩, hbefore⟩
    · rw [if_neg hhit]
      have hmiss : ¬ phys_col_hit style x row s := by
        rintro ⟨-, -, cd1, h1, h2, h3⟩
        rw [hcd] at h1
        cases h1
        exact hhit ⟨h2, h3⟩
      have hbefore2 : ∀ c1, c1 < s + 1 → ¬ phys_col_hit style x row c1 := by
        intro c1 h1
        by_cases heq : c1 = s
        · subst heq
          exact hmiss
        · exact hbefore c1 (by omega)
      split_ifs with hlt
      · exact ih (s + 1) (by omega) hlt (by omega) hbefore2
      · right
        have hend : s + 1 = style.ncols := by omega
        refine ⟨by rw [hend], ?_⟩
        intro c1 hc1
        exact hbefore2 c1 (by have := hc1.2.1; omega) hc1

theorem least_phys_row_unique (style : SheetBlockStyle) (y r1 r2 : Int)
    (h1 : least_phys_row style y r1) (h2 : least_phys_row style y r2) : r1 = r2 := by
  rcases lt_trichotomy r1 r2 with h | h | h
  · exact absurd h1.1 (h2.2 r1 h)
  · exact h
  · exact absurd h2.1 (h1.2 r2 h)

theorem least_phys_col_unique (style : SheetBlockStyle) (x r c1 c2 : Int)
    (h1 : least_phys_col style x r c1) (h2 : least_phys_col style x r c2) : c1 = c2 := by
  rcases lt_trichotomy c1 c2 with h | h | h
  · exact absurd h1.1 (h2.2 c1 h)
  · exact h
  · exact absurd h2.1 (h1.2 c2 h)

theorem find_cell_by_pixel_cases (sheet : GnucashSheet) (x y : Int) (v : VirtualLocation)
    (b : SheetBlock) (st : SheetBlockStyle)
    (hb : sheet.get_block v.vcell_loc.virt_row v.vcell_loc.virt_col = some b)
    (hst : b.style = some st) (hn : 1 ≤ st.nrows) (hm : 1 ≤ st.ncols)
    (hce : ∀ r c, 0 ≤ r → r < st.nrows → 0 ≤ c → c < st.ncols →
      ∃ cd, st.dimensions.cell_dimensions r c = some cd) :
    (∃ r c, find_cell_by_pixel sheet x y (some v) = .ret (true, some ⟨v.vcell_loc, r, c⟩) ∧
      least_phys_row st (y - b.origin_y) r ∧ least_phys_col st (x - b.origin_x) r c) ∨
    (find_cell_by_pixel sheet x y (some v) = .ret (false, some v) ∧
      ((∀ r, ¬ phys_row_hit st (y - b.origin_y) r) ∨
        ∃ r, least_phys_row st (y - b.origin_y) r ∧
          ∀ c, ¬ phys_col_hit st (x - b.origin_x) r c)) := by
  unfold find_cell_by_pixel
  simp only [hb, hst]
  rcases find_cell_rows_spec st (fun r h1 h2 => hce r 0 h1 h2 (le_refl _) (by omega))
    (y - b.origin_y) (st.nrows.toNat + 1) 0 (le_refl _) (by omega) (by omega)
    (fun r1 h1 h2 => by have := h2.1; omega) with ⟨r, h1, h2, h3⟩ | ⟨h1, h2⟩
  · simp only [h1, ne_of_lt h2, if_false]
    rcases find_cell_cols_spec st r (fun c g1 g2 => hce r c h3.1.1 h2 g1 g2)
      (x - b.origin_x) (st.ncols.toNat + 1) 0 (le_refl _) (by omega) (by omega)
      (fun c1 g1 g2 => by have := g2.1; omega) with ⟨c, k1, k2, k3⟩ | ⟨k1, k2⟩
    · left
      simp only [k1, ne_of_lt k2, if_false]
      exact ⟨r, c, rfl, h3, k3⟩
    · right
      simp only [k1, if_true]
      exact ⟨trivial, Or.inr ⟨r, h3, k2⟩⟩
  · right
    simp only [h1, if_true]
    exact ⟨trivial, Or.inl h2⟩

/-- C19: first-match physical scan.  For every block with a style of
`nrows ≥ 1` and `ncols ≥ 1` whose cells all have dimensions, and every pixel,
`find_cell_by_pixel` succeeds iff there is a physical row whose column-0 cell
contains the block-local `y` in `[origin_y, origin_y + pixel_height)` and, for
the least such row `r`, a column whose cell `(r, c)` contains the block-local
`x` in `[origin_x, origin_x + pixel_width)`; on success `phys_row_offset` is
that least row, `phys_col_offset` is the least such column of that row and
the virtual address is unchanged; otherwise it returns FALSE and leaves the
location unchanged. -/
theorem find_cell_by_pixel_first_match (sheet : GnucashSheet) (x y : Int)
    (v : VirtualLocation) (b : SheetBlock) (st : SheetBlockStyle)
    (hb : sheet.get_block v.vcell_loc.virt_row v.vcell_loc.virt_col = some b)
    (hst : b.style = some st) (hn : 1 ≤ st.nrows) (hm : 1 ≤ st.ncols)
    (hce : ∀ r c, 0 ≤ r → r < st.nrows → 0 ≤ c → c < st.ncols →
      ∃ cd, st.dimensions.cell_dimensions r c = some cd) :
    ((∃ L, find_cell_by_pixel sheet x y (some v) = .ret (true, some L)) ↔
      ∃ r, least_phys_row st (y - b.origin_y) r ∧
        ∃ c, phys_col_hit st (x - b.origin_x) r c) ∧
    (∀ L, find_cell_by_pixel sheet x y (some v) = .ret (true, some L) →
      L.vcell_loc = v.vcell_loc ∧
      least_phys_row st (y - b.origin_y) L.phys_row_offset ∧
      least_phys_col st (x - b.origin_x) L.phys_row_offset L.phys_col_offset) ∧
    ((¬ ∃ r, least_phys_row st (y - b.origin_y) r ∧
        ∃ c, phys_col_hit st (x - b.origin_x) r c) →
      find_cell_by_pixel sheet x y (some v) = .ret (false, some v)) := by
  have hcases := find_cell_by_pixel_cases sheet x y v b st hb hst hn hm hce
  have hfail : find_cell_by_pixel sheet x y (some v) = .ret (false, some v) →
      ((∀ r, ¬ phys_row_hit st (y - b.origin_y) r) ∨
        ∃ r, least_phys_row st (y - b.origin_y) r ∧
          ∀ c, ¬ phys_col_hit st (x - b.origin_x) r c) →
      ¬ ∃ r, least_phys_row st (y - b.origin_y) r ∧
        ∃ c, phys_col_hit st (x - b.origin_x) r c := by
    rintro - (h | ⟨r0, h1, h2⟩) ⟨r, g1, c, g2⟩
    · exact h r g1.1
    · have := least_phys_row_unique st _ r r0 g1 h1
      subst this
      exact h2 c g2
  refine ⟨⟨?_, ?_⟩, ?_, ?_⟩
  · rintro ⟨L, hL⟩
    rcases hcases with ⟨r, c, h1, h2, h3⟩ | ⟨h1, -⟩
    · exact ⟨r, h2, c, h3.1⟩
    · rw [h1] at hL
      simp at hL
  · intro hex
    rcases hcases with ⟨r, c, h1, -, -⟩ | ⟨h1, h2⟩
    · exact ⟨_, h1⟩
    · exact absurd hex (hfail h1 h2)
  · intro L hL
    rcases hcases with ⟨r, c, h1, h2, h3⟩ | ⟨h1, -⟩
    · rw [h1] at hL
      simp only [Outcome.ret.injEq, Prod.mk.injEq, Option.some.injEq, true_and] at hL
      subst hL
      exact ⟨rfl, h2, h3⟩
    · rw [h1] at hL
      simp at hL
  · intro hno
    rcases hcases with ⟨r, c, -, h2, h3⟩ | ⟨h1, -⟩
    · exact absurd ⟨r, h2, c, h3.1⟩ hno
    · exact h1

theorem find_cell_by_pixel_first_match_witness :
    find_cell_by_pixel (scenario_sheet 100) 5 65 (some ⟨⟨1, 0⟩, 7, 7⟩)
        = .ret (true, some ⟨⟨1, 0⟩, 1, 0⟩) ∧
    least_phys_row (style_2x1 100) (65 - 40) 1 ∧
    least_phys_col (style_2x1 100) (5 - 0) 1 0 := by
  have h := (find_cell_by_pixel_first_match (scenario_sheet 100) 5 65 ⟨⟨1, 0⟩, 7, 7⟩
    ⟨some (style_2x1 100), 0, 40, true⟩ (style_2x1 100) rfl rfl (by decide) (by decide)
    (style_2x1_layout 100).cell_exists).2.1 ⟨⟨1, 0⟩, 1, 0⟩ (by decide)
  exact ⟨by decide, h.2.1, h.2.2⟩

/-! ## Theorems: the early exits of `draw_block` -/

theorem draw_block_cell_right (block : SheetBlock) (style : SheetBlockStyle)
    (vcell_loc : VirtualCellLocation) (x y width height row col : Int)
    (cd : CellDimensions) (hcd : style.dimensions.cell_dimensions row col = some cd)
    (hx : block.origin_x + cd.origin_x - x > width) :
    draw_block_cell block style x y width height row col = .brk ∧
    naive_cell block style vcell_loc x y width height row col = none := by
  constructor
  · simp only [draw_block_cell, hcd, hx, if_true]
  · simp only [naive_cell, hcd]
    rw [if_neg]
    rintro ⟨-, h, -⟩
    omega

theorem draw_block_cell_below (block : SheetBlock) (style : SheetBlockStyle)
    (vcell_loc : VirtualCellLocation) (x y width height row col : Int)
    (cd : CellDimensions) (hcd : style.dimensions.cell_dimensions row col = some cd)
    (hy : block.origin_y + cd.origin_y - y > height) :
    (draw_block_cell block style x y width height row col = .brk ∨
      draw_block_cell block style x y width height row col = .rtn) ∧
    naive_cell block style vcell_loc x y width height row col = none := by
  constructor
  · simp only [draw_block_cell, hcd]
    split_ifs with h1
    · exact Or.inl rfl
    · exact Or.inr rfl
  · simp only [naive_cell, hcd]
    rw [if_neg]
    rintro ⟨-, -, h, -⟩
    omega

theorem draw_block_cell_inside (block : SheetBlock) (style : SheetBlockStyle)
    (vcell_loc : VirtualCellLocation) (x y width height row col : Int)
    (cd : CellDimensions) (hcd : style.dimensions.cell_dimensions row col = some cd)
    (hx : block.origin_x + cd.origin_x - x ≤ width)
    (hy : block.origin_y + cd.origin_y - y ≤ height) :
    (draw_block_cell block style x y width height row col = .skip ∧
      naive_cell block style vcell_loc x y width height row col = none) ∨
    (draw_block_cell block style x y width height row col
        = .paint (block.origin_x + cd.origin_x - x) (block.origin_y + cd.origin_y - y)
          cd.pixel_width cd.pixel_height ∧
      naive_cell block style vcell_loc x y width height row col
        = some (⟨vcell_loc, row, col⟩, block.origin_x + cd.origin_x - x,
          block.origin_y + cd.origin_y - y, cd.pixel_width, cd.pixel_height)) := by
  have hx2 : ¬ block.origin_x + cd.origin_x - x > width := not_lt.mpr hx
  have hy2 : ¬ block.origin_y + cd.origin_y - y > height := not_lt.mpr hy
  simp only [draw_block_cell, naive_cell, hcd, hx2, hy2, if_false]
  by_cases hw : cd.pixel_width = 0
  · left
    simp only [hw, if_true, true_and]
    rw [if_neg]
    rintro ⟨h, -⟩
    exact h rfl
  · by_cases h1 : block.origin_x + cd.origin_x - x + cd.pixel_width < 0
    · left
      simp only [hw, h1, if_true, if_false, true_and]
      rw [if_neg]
      rintro ⟨-, -, -, h, -⟩
      omega
    · by_cases h2 : block.origin_y + cd.origin_y - y + cd.pixel_height < 0
      · left
        simp only [hw, h1, h2, if_true, if_false, true_and]
        rw [if_neg]
        rintro ⟨-, -, -, -, h⟩
        omega
      · right
        simp only [hw, h1, h2, if_false, true_and]
        rw [if_pos]
        exact ⟨hw, hx, hy, by omega, by omega⟩

theorem filterMap_range_nil {β : Type} (f : Nat → Option β) (n : Nat) :
    ∀ c, (∀ k, c ≤ k → k < c + n → f k = none) → (List.range' c n).filterMap f = [] := by
  induction n with
  | zero => intro c _; rfl
  | succ m ih =>
    intro c h
    rw [List.range'_succ, List.filterMap_cons, h c (le_refl _) (by omega)]
    exact ih (c + 1) (fun k h1 h2 => h k (by omega) (by omega))

theorem draw_block_cols_below (block : SheetBlock) (style : SheetBlockStyle)
    (hM : StyleMonotonic style) (vcell_loc : VirtualCellLocation)
    (x y width height row : Int) (hr : 0 ≤ row) (hr2 : row < style.nrows)
    (hbelow : row_below block style y height row) (fuel : Nat) (col : Int) (hc : 0 ≤ col) :
    ∃ o, draw_block_cols block style vcell_loc x y width height row (fuel + 1) col
      = ([], .ret o) := by
  unfold draw_block_cols
  split_ifs with hlt
  · obtain ⟨cd, hcd⟩ := hM.cell_exists row col hr hr2 hc hlt
    rcases (draw_block_cell_below block style vcell_loc x y width height row col cd hcd
      (hbelow col cd hc hlt hcd)).1 with h | h
    · simp only [h]
      exact ⟨_, rfl⟩
    · simp only [h]
      exact ⟨_, rfl⟩
  · exact ⟨_, rfl⟩

theorem naive_row_below (block : SheetBlock) (style : SheetBlockStyle)
    (vcell_loc : VirtualCellLocation) (x y width height : Int) (row : Nat)
    (hbelow : row_below block style y height row) :
    naive_row block style vcell_loc x y width height row = [] := by
  unfold naive_row
  rw [List.range_eq_range']
  apply filterMap_range_nil
  intro k _ hk
  simp only [naive_cell]
  cases hcd : style.dimensions.cell_dimensions row k with
  | none => rfl
  | some cd =>
    simp only
    rw [if_neg]
    rintro ⟨-, -, h, -⟩
    have := hbelow k cd (by omega) (by omega) hcd
    omega

theorem flatMap_range_nil {β : Type} (f : Nat → List β) (n : Nat) :
    ∀ c, (∀ k, c ≤ k → k < c + n → f k = []) → (List.range' c n).flatMap f = [] := by
  induction n with
  | zero => intro c _; rfl
  | succ m ih =>
    intro c h
    rw [List.range'_succ, List.flatMap_cons, h c (le_refl _) (by omega),
      ih (c + 1) (fun k h1 h2 => h k (by omega) (by omega))]
    rfl

theorem draw_block_cols_inside (block : SheetBlock) (style : SheetBlockStyle)
    (hM : StyleMonotonic style) (vcell_loc : VirtualCellLocation)
    (x y width height : Int) (row : Nat) (hr2 : (row : Int) < style.nrows)
    (hnb : ∀ c cd, 0 ≤ c → c < style.ncols →
      style.dimensions.cell_dimensions row c = some cd →
      block.origin_y + cd.origin_y - y ≤ height) (fuel : Nat) :
    ∀ (c n : Nat), c + n = style.ncols.toNat → n < fuel →
      ∃ evs, draw_block_cols block style vcell_loc x y width height row fuel c
          = (evs, .ret false) ∧
        cells_drawn evs = (List.range' c n).filterMap
          (fun (k : Nat) => naive_cell block style vcell_loc x y width height (row : Int)
            (k : Int)) := by
  induction fuel with
  | zero => intro c n _ hf; omega
  | succ f ih =>
    intro c n hcn hn
    unfold draw_block_cols
    by_cases hlt : (c : Int) < style.ncols
    · rw [if_pos hlt]
      obtain ⟨cd, hcd⟩ := hM.cell_exists row c (by omega) hr2 (by omega) hlt
      have hcast : (c : Int) + 1 = ((c + 1 : Nat) : Int) := by push_cast; rfl
      cases n with
      | zero => omega
      | succ m =>
        by_cases hx : block.origin_x + cd.origin_x - x > width
        · simp only [(draw_block_cell_right block style vcell_loc x y width height row c cd
            hcd hx).1]
          refine ⟨[], rfl, ?_⟩
          symm
          apply filterMap_range_nil
          intro k hk1 hk2
          obtain ⟨cdk, hcdk⟩ := hM.cell_exists row k (by omega) hr2 (by omega) (by omega)
          have := hM.cols_monotone row c k cd cdk (by omega) hr2 (by omega) (by omega)
            (by omega) hcd hcdk
          exact (draw_block_cell_right block style vcell_loc x y width height row k cdk
            hcdk (by omega)).2
        · have hy := hnb c cd (by omega) hlt hcd
          obtain ⟨evs, h1, h2⟩ := ih (c + 1) m (by omega) (by omega)
          rcases draw_block_cell_inside block style vcell_loc x y width height row c cd hcd
            (not_lt.mp hx) hy with ⟨g1, g2⟩ | ⟨g1, g2⟩
          · simp only [g1]
            rw [hcast]
            refine ⟨evs, h1, ?_⟩
            rw [List.range'_succ, List.filterMap_cons, g2]
            exact h2
          · simp only [g1]
            rw [hcast, h1]
            refine ⟨_, rfl, ?_⟩
            rw [List.range'_succ, List.filterMap_cons, g2]
            simp only [cells_drawn, h2]
    · rw [if_neg hlt]
      have hn0 : n = 0 := by omega
      subst hn0
      exact ⟨[], rfl, rfl⟩

theorem row_below_mono (block : SheetBlock) (style : SheetBlockStyle)
    (hM : StyleMonotonic style) (y height : Int) (r k : Int) (hr : 0 ≤ r) (hrk : r ≤ k)
    (hk : k < style.nrows) (hbelow : row_below block style y height r) :
    row_below block style y height k := by
  intro c cd hc hc2 hcd
  have hnc : (0 : Int) < style.ncols := by omega
  obtain ⟨cdk0, hk0⟩ := hM.cell_exists k 0 (by omega) hk (le_refl _) hnc
  obtain ⟨cdr0, hr0⟩ := hM.cell_exists r 0 hr (by omega) (le_refl _) hnc
  have e1 := hM.row_shared_y k c 0 cd cdk0 (by omega) hk hc hc2 (le_refl _) hnc hcd hk0
  have e2 := hM.rows_monotone r k cdr0 cdk0 hr hrk hk hr0 hk0
  have e3 := hbelow 0 cdr0 (le_refl _) hnc hr0
  omega

theorem draw_block_rows_naive (block : SheetBlock) (style : SheetBlockStyle)
    (hM : StyleMonotonic style) (vcell_loc : VirtualCellLocation)
    (x y width height : Int) (fuel : Nat) :
    ∀ (r n : Nat), r + n = style.nrows.toNat → n < fuel →
      ∃ evs, draw_block_rows block style vcell_loc x y width height fuel r
          = (evs, .ret ()) ∧
        cells_drawn evs = (List.range' r n).flatMap
          (fun (k : Nat) => naive_row block style vcell_loc x y width height k) := by
  induction fuel with
  | zero => intro r n _ hf; omega
  | succ f ih =>
    intro r n hrn hn
    unfold draw_block_rows
    by_cases hlt : (r : Int) < style.nrows
    · rw [if_pos hlt]
      have hcast : (r : Int) + 1 = ((r + 1 : Nat) : Int) := by push_cast; rfl
      cases n with
      | zero => omega
      | succ m =>
        obtain ⟨evs2, h1, h2⟩ := ih (r + 1) m (by omega) (by omega)
        by_cases hbelow : row_below block style y height r
        · obtain ⟨o, ho⟩ := draw_block_cols_below block style hM vcell_loc x y width height
            r (by omega) hlt hbelow style.ncols.toNat 0 (le_refl _)
          rw [ho]
          cases o with
          | true =>
            refine ⟨[], rfl, ?_⟩
            symm
            apply flatMap_range_nil
            intro k hk1 hk2
            exact naive_row_below block style vcell_loc x y width height k
              (row_below_mono block style hM y height r k (by omega) (by omega) (by omega)
                hbelow)
          | false =>
            simp only
            rw [hcast, h1]
            refine ⟨_, rfl, ?_⟩
            rw [List.range'_succ, List.flatMap_cons,
              naive_row_below block style vcell_loc x y width height r hbelow]
            simp only [List.nil_append, h2]
        · have hnb : ∀ c cd, 0 ≤ c → c < style.ncols →
              style.dimensions.cell_dimensions r c = some cd →
              block.origin_y + cd.origin_y - y ≤ height := by
            intro c cd hc hc2 hcd
            unfold row_below at hbelow
            push_neg at hbelow
            obtain ⟨c0, cd0, g1, g2, g3, g4⟩ := hbelow
            have := hM.row_shared_y r c c0 cd cd0 (by omega) hlt hc hc2 g1 g2 hcd g3
            omega
          obtain ⟨evs, k1, k2⟩ := draw_block_cols_inside block style hM vcell_loc x y width
            height r hlt hnb (style.ncols.toNat + 1) 0 style.ncols.toNat (by omega)
            (by omega)
          simp only [Nat.cast_zero] at k1
          rw [k1]
          simp only
          rw [hcast, h1]
          refine ⟨_, rfl, ?_⟩
          rw [List.range'_succ, List.flatMap_cons, cells_drawn_append, k2, h2]
          simp only [naive_row, List.range_eq_range']
    · rw [if_neg hlt]
      have hn0 : n = 0 := by omega
      subst hn0
      exact ⟨[], rfl, rfl⟩

/-- C20: the early exits of `draw_block` lose nothing.  For every block whose
style is monotonic (every cell has dimensions; within a row `origin_x` is
non-decreasing in the column index and all cells share `origin_y`; `origin_y`
is non-decreasing in the row index), `draw_block` runs to its end and the
sequence of cells it passes to `draw_cell`, with their paint rectangles, is
the sequence selected, in row-major order, by the naive filter over all
`(row, col)`: `pixel_width ≠ 0`, `x_paint ≤ width`, `y_paint ≤ height`,
`x_paint + w ≥ 0` and `y_paint + h ≥ 0`. -/
theorem draw_block_refines_naive (block : SheetBlock) (style : SheetBlockStyle)
    (hst : block.style = some style) (hM : StyleMonotonic style)
    (virt_loc : VirtualLocation) (x y width height : Int) :
    (draw_block block virt_loc x y width height).2 = .ret () ∧
    cells_drawn (draw_block block virt_loc x y width height).1 =
      draw_block_naive block style virt_loc.vcell_loc x y width height := by
  obtain ⟨evs, h1, h2⟩ := draw_block_rows_naive block style hM virt_loc.vcell_loc x y width
    height (style.nrows.toNat + 1) 0 style.nrows.toNat (by omega) (by omega)
  simp only [Nat.cast_zero] at h1
  unfold draw_block
  simp only [hst, h1, h2, draw_block_naive, List.range_eq_range', and_self]

theorem style_2x1_monotonic (w : Int) : StyleMonotonic (style_2x1 w) where
  cell_exists := (style_2x1_layout w).cell_exists
  cols_monotone := by
    intro r c1 c2 cd1 cd2 _ _ _ _ _ h1 h2
    simp only [style_2x1] at h1 h2
    split_ifs at h1 h2
    simp only [Option.some.injEq] at h1 h2
    subst h1 h2
    exact le_refl _
  row_shared_y := by
    intro r c1 c2 cd1 cd2 _ _ _ _ _ _ h1 h2
    simp only [style_2x1] at h1 h2
    split_ifs at h1 h2
    simp only [Option.some.injEq] at h1 h2
    subst h1 h2
    rfl
  rows_monotone := by
    intro r1 r2 cd1 cd2 _ h12 _ h1 h2
    simp only [style_2x1] at h1 h2
    split_ifs at h1 h2
    simp only [Option.some.injEq] at h1 h2
    subst h1 h2
    dsimp only
    omega

theorem draw_block_refines_naive_witness :
    (draw_block ⟨some (style_2x1 100), 0, 40, true⟩ ⟨⟨1, 0⟩, 0, 0⟩ 0 0 100 50).2 = .ret () ∧
    cells_drawn (draw_block ⟨some (style_2x1 100), 0, 40, true⟩ ⟨⟨1, 0⟩, 0, 0⟩ 0 0 100 50).1 =
      draw_block_naive ⟨some (style_2x1 100), 0, 40, true⟩ (style_2x1 100)
        (⟨⟨1, 0⟩, 0, 0⟩ : VirtualLocation).vcell_loc 0 0 100 50 :=
  draw_block_refines_naive ⟨some (style_2x1 100), 0, 40, true⟩ (style_2x1 100) rfl
    (style_2x1_monotonic 100) ⟨⟨1, 0⟩, 0, 0⟩ 0 0 100 50

/-! ## Theorems: termination and order of `gnucash_sheet_draw_internal` -/

theorem row_test_ne_fuel (b : SheetBlock) (y : Int) : row_test b y ≠ .out_of_fuel := by
  unfold row_test
  split_ifs
  · cases b.style <;> simp
  · simp

theorem col_test_ne_fuel (b : SheetBlock) (x : Int) : col_test b x ≠ .out_of_fuel := by
  unfold col_test
  split_ifs
  · cases b.style <;> simp
  · simp

theorem find_block_rows_fuel (sheet : GnucashSheet) (y col : Int) (fuel : Nat) :
    ∀ s, (sheet.num_virt_rows - s).toNat < fuel →
      find_block_rows sheet y col fuel s ≠ .out_of_fuel := by
  induction fuel with
  | zero => intro s hf; omega
  | succ n ih =>
    intro s hf
    unfold find_block_rows
    cases hb : sheet.get_block s col with
    | none => simp
    | some b =>
      simp only
      cases htest : row_test b y with
      | null_deref => simp
      | out_of_fuel => exact absurd htest (row_test_ne_fuel b y)
      | ret v =>
        cases v with
        | true => simp
        | false =>
          simp only
          split_ifs with hlt
          · exact ih (s + 1) (by omega)
          · simp

theorem find_block_cols_fuel (sheet : GnucashSheet) (x row : Int) (fuel : Nat) :
    ∀ s, (sheet.num_virt_cols - s).toNat < fuel →
      find_block_cols sheet x row fuel s ≠ .out_of_fuel := by
  induction fuel with
  | zero => intro s hf; omega
  | succ n ih =>
    intro s hf
    unfold find_block_cols
    cases hb : sheet.get_block row s with
    | none => simp
    | some b =>
      simp only
      cases htest : col_test b x with
      | null_deref => simp
      | out_of_fuel => exact absurd htest (col_test_ne_fuel b x)
      | ret v =>
        cases v with
        | true => simp
        | false =>
          simp only
          split_ifs with hlt
          · exact ih (s + 1) (by omega)
          · simp

theorem find_block_by_pixel_fuel (sheet : GnucashSheet) (x y : Int)
    (vcl : VirtualCellLocation) :
    find_block_by_pixel sheet x y vcl ≠ .out_of_fuel := by
  unfold find_block_by_pixel
  by_cases hy : y ≥ 0
  swap
  · rw [if_pos hy]
    simp
  by_cases hx : x ≥ 0
  swap
  · rw [if_neg (not_not.mpr hy), if_pos hx]
    simp
  rw [if_neg (not_not.mpr hy), if_neg (not_not.mpr hx)]
  have hrf := find_block_rows_fuel sheet y 0 ((sheet.num_virt_rows - 1).toNat + 1) 1
    (by omega)
  generalize find_block_rows sheet y 0 ((sheet.num_virt_rows - 1).toNat + 1) 1 = R at hrf ⊢
  rcases R with e | _ | _
  · rcases e with _ | ⟨t, hit⟩
    · simp
    · dsimp only
      by_cases ht : t = sheet.num_virt_rows
      · rw [if_pos ht]
        simp
      · rw [if_neg ht]
        have hcf := find_block_cols_fuel sheet x t (sheet.num_virt_cols.toNat + 1) 0
          (by omega)
        generalize find_block_cols sheet x t (sheet.num_virt_cols.toNat + 1) 0 = C at hcf ⊢
        rcases C with res | _ | _
        · obtain ⟨e2, ob⟩ := res
          rcases e2 with _ | ⟨c, hit2⟩
          · simp
          · dsimp only
            by_cases hc : c = sheet.num_virt_cols
            · rw [if_pos hc]
              simp
            · rw [if_neg hc]
              simp
        · simp
        · exact absurd rfl hcf
  · simp
  · exact absurd rfl hrf

theorem draw_block_cols_fuel (block : SheetBlock) (style : SheetBlockStyle)
    (vcell_loc : VirtualCellLocation) (x y width height row : Int) (fuel : Nat) :
    ∀ col, (style.ncols - col).toNat < fuel →
      (draw_block_cols block style vcell_loc x y width height row fuel col).2
        ≠ .out_of_fuel := by
  induction fuel with
  | zero => intro col hf; omega
  | succ n ih =>
    intro col hf
    unfold draw_block_cols
    split_ifs with hlt
    · cases hstep : draw_block_cell block style x y width height row col with
      | fault => simp
      | brk => simp
      | rtn => simp
      | skip => exact ih (col + 1) (by omega)
      | paint xp yp w h => exact ih (col + 1) (by omega)
    · simp

theorem draw_block_rows_fuel (block : SheetBlock) (style : SheetBlockStyle)
    (vcell_loc : VirtualCellLocation) (x y width height : Int) (fuel : Nat) :
    ∀ row, (style.nrows - row).toNat < fuel →
      (draw_block_rows block style vcell_loc x y width height fuel row).2
        ≠ .out_of_fuel := by
  induction fuel with
  | zero => intro row hf; omega
  | succ n ih =>
    intro row hf
    unfold draw_block_rows
    split_ifs with hlt
    · have hcols := draw_block_cols_fuel block style vcell_loc x y width height row
        (style.ncols.toNat + 1) 0 (by omega)
      rcases hres : draw_block_cols block style vcell_loc x y width height row
        (style.ncols.toNat + 1) 0 with ⟨evs, o⟩
      rw [hres] at hcols
      rcases o with (_ | _) | _ | _
      · exact ih (row + 1) (by omega)
      · simp
      · simp
      · exact absurd rfl hcols
    · simp

theorem draw_block_fuel (block : SheetBlock) (virt_loc : VirtualLocation)
    (x y width height : Int) :
    (draw_block block virt_loc x y width height).2 ≠ .out_of_fuel := by
  unfold draw_block
  cases block.style with
  | none => simp
  | some style =>
    exact draw_block_rows_fuel block style _ x y width height _ 0 (by omega)

theorem skip_invisible_rows_total (sheet : GnucashSheet) (hrows : RowLookupBounded sheet)
    (c0 : Int) (fuel : Nat) :
    ∀ row, (sheet.num_virt_rows - row).toNat < fuel →
      ∃ o, skip_invisible sheet c0 fuel row = .ret o := by
  induction fuel with
  | zero => intro row hf; omega
  | succ n ih =>
    intro row hf
    unfold skip_invisible
    cases hb : sheet.get_block row c0 with
    | none => exact ⟨_, rfl⟩
    | some b =>
      have hbd := hrows row c0 b hb
      cases hst : b.style with
      | none =>
        simp only [hst]
        exact ⟨_, rfl⟩
      | some st =>
        simp only [hst]
        split_ifs with hv
        · exact ⟨_, rfl⟩
        · exact ih (row + 1) (by omega)

theorem draw_internal_rows_fuel (sheet : GnucashSheet) (hrows : RowLookupBounded sheet)
    (virt_loc : VirtualLocation) (x y width height : Int) (inner : Nat)
    (hinner : sheet.num_virt_rows.toNat < inner) (fuel : Nat) :
    ∀ row, 0 ≤ row → (sheet.num_virt_rows - row).toNat < fuel →
      (draw_internal_rows sheet virt_loc x y width height inner fuel row).2
        ≠ .out_of_fuel := by
  induction fuel with
  | zero => intro row _ hf; omega
  | succ n ih =>
    intro row hr hf
    unfold draw_internal_rows
    split_ifs with hlt
    · obtain ⟨o, ho⟩ := skip_invisible_rows_total sheet hrows virt_loc.vcell_loc.virt_col
        inner row (by omega)
      rw [ho]
      cases o with
      | none => simp
      | some rb =>
        obtain ⟨r, b⟩ := rb
        obtain ⟨h1, h2, -, -, -⟩ := skip_invisible_some sheet _ inner row r b ho
        have hbd := hrows _ _ b h2
        simp only
        split_ifs with hbelow
        · simp
        · have hdb := draw_block_fuel b
            { virt_loc with vcell_loc := ⟨r, virt_loc.vcell_loc.virt_col⟩ } x y width height
          rcases hres : draw_block b
            { virt_loc with vcell_loc := ⟨r, virt_loc.vcell_loc.virt_col⟩ } x y width height
            with ⟨evs, o2⟩
          rw [hres] at hdb
          rcases o2 with _ | _ | _
          · exact ih (r + 1) (by omega) (by omega)
          · simp
          · exact absurd rfl hdb
    · simp

theorem draw_internal_rows_sorted (sheet : GnucashSheet) (virt_loc : VirtualLocation)
    (x y width height : Int) (inner fuel : Nat) :
    ∀ virt_row, List.Pairwise (fun p q => p.1.virt_row < q.1.virt_row)
      (blocks_drawn
        (draw_internal_rows sheet virt_loc x y width height inner fuel virt_row).1) := by
  induction fuel with
  | zero => intro virt_row; simp [draw_internal_rows, blocks_drawn]
  | succ n ih =>
    intro virt_row
    unfold draw_internal_rows
    split_ifs with hlt
    · cases hskip : skip_invisible sheet virt_loc.vcell_loc.virt_col inner virt_row with
      | null_deref => simp [blocks_drawn]
      | out_of_fuel => simp [blocks_drawn]
      | ret o =>
        cases o with
        | none => simp [blocks_drawn]
        | some rb =>
          obtain ⟨r, b⟩ := rb
          simp only
          split_ifs with hbelow
          · simp [blocks_drawn]
          · have hdb := draw_block_blocks b
              { virt_loc with vcell_loc := ⟨r, virt_loc.vcell_loc.virt_col⟩ } x y width height
            rcases hres : draw_block b
              { virt_loc with vcell_loc := ⟨r, virt_loc.vcell_loc.virt_col⟩ } x y width height
              with ⟨evs, o2⟩
            rw [hres] at hdb
            simp only at hdb
            rcases o2 with _ | _ | _
            · simp only [blocks_drawn, blocks_drawn_append, hdb, List.nil_append,
                List.pairwise_cons]
              refine ⟨?_, ih (r + 1)⟩
              intro q hq
              have := (draw_internal_rows_blocks sheet virt_loc x y width height inner n
                (r + 1) q hq).2.2.2.2
              show r < q.1.virt_row
              omega
            · simp [blocks_drawn, hdb]
            · simp [blocks_drawn, hdb]
    · simp [blocks_drawn]

theorem find_block_rows_exit (sheet : GnucashSheet) (y col : Int) (fuel : Nat) :
    ∀ s t hit, s < sheet.num_virt_rows →
      find_block_rows sheet y col fuel s = .ret (.left t hit) →
      (hit = true ∧ s ≤ t ∧ t < sheet.num_virt_rows) ∨
      (hit = false ∧ t = sheet.num_virt_rows) := by
  induction fuel with
  | zero => intro s t hit _ h; simp [find_block_rows] at h
  | succ n ih =>
    intro s t hit hs h
    unfold find_block_rows at h
    cases hb : sheet.get_block s col with
    | none => simp [hb] at h
    | some b =>
      simp only [hb] at h
      cases htest : row_test b y with
      | null_deref => simp [htest] at h
      | out_of_fuel => simp [htest] at h
      | ret v =>
        cases v with
        | true =>
          simp only [htest, Outcome.ret.injEq, ScanExit.left.injEq] at h
          obtain ⟨rfl, rfl⟩ := h
          exact Or.inl ⟨rfl, le_refl _, hs⟩
        | false =>
          simp only [htest] at h
          split_ifs at h with hlt
          · rcases ih _ _ _ hlt h with ⟨h1, h2, h3⟩ | h1
            · exact Or.inl ⟨h1, by omega, h3⟩
            · exact Or.inr h1
          · simp only [Outcome.ret.injEq, ScanExit.left.injEq] at h
            obtain ⟨rfl, rfl⟩ := h
            exact Or.inr ⟨rfl, by omega⟩

theorem find_block_cols_exit (sheet : GnucashSheet) (x row : Int) (fuel : Nat) :
    ∀ s t hit ob, s < sheet.num_virt_cols →
      find_block_cols sheet x row fuel s = .ret (.left t hit, ob) →
      (hit = true ∧ s ≤ t ∧ t < sheet.num_virt_cols ∧
        ∃ b, ob = some b ∧ sheet.get_block row t = some b) ∨
      (hit = false ∧ t = sheet.num_virt_cols) := by
  induction fuel with
  | zero => intro s t hit ob _ h; simp [find_block_cols] at h
  | succ n ih =>
    intro s t hit ob hs h
    unfold find_block_cols at h
    cases hb : sheet.get_block row s with
    | none => simp [hb] at h
    | some b =>
      simp only [hb] at h
      cases htest : col_test b x with
      | null_deref => simp [htest] at h
      | out_of_fuel => simp [htest] at h
      | ret v =>
        cases v with
        | true =>
          simp only [htest, Outcome.ret.injEq, Prod.mk.injEq, ScanExit.left.injEq] at h
          obtain ⟨⟨rfl, rfl⟩, rfl⟩ := h
          exact Or.inl ⟨rfl, le_refl _, hs, b, rfl, hb⟩
        | false =>
          simp only [htest] at h
          split_ifs at h with hlt
          · rcases ih _ _ _ _ hlt h with ⟨h1, h2, h3⟩ | h1
            · exact Or.inl ⟨h1, by omega, h3⟩
            · exact Or.inr h1
          · simp only [Outcome.ret.injEq, Prod.mk.injEq, ScanExit.left.injEq] at h
            obtain ⟨⟨rfl, rfl⟩, -⟩ := h
            exact Or.inr ⟨rfl, by omega⟩

theorem find_block_rows_first_lookup (sheet : GnucashSheet) (y col : Int) (fuel : Nat)
    (s t : Int) (hit : Bool)
    (h : find_block_rows sheet y col fuel s = .ret (.left t hit)) :
    ∃ b, sheet.get_block s col = some b := by
  cases fuel with
  | zero => simp [find_block_rows] at h
  | succ n =>
    unfold find_block_rows at h
    cases hb : sheet.get_block s col with
    | none => simp [hb] at h
    | some b => exact ⟨b, rfl⟩

theorem find_block_by_pixel_row (sheet : GnucashSheet) (hrows : RowLookupBounded sheet)
    (x y : Int) (vcl vc : VirtualCellLocation) (b : SheetBlock)
    (h : find_block_by_pixel sheet x y vcl = .ret (some b, vc)) :
    1 ≤ vc.virt_row ∧ vc.virt_row < sheet.num_virt_rows := by
  unfold find_block_by_pixel at h
  by_cases hy : y ≥ 0
  swap
  · rw [if_pos hy] at h
    simp at h
  by_cases hx : x ≥ 0
  swap
  · rw [if_neg (not_not.mpr hy), if_pos hx] at h
    simp at h
  rw [if_neg (not_not.mpr hy), if_neg (not_not.mpr hx)] at h
  generalize hrs : find_block_rows sheet y 0 ((sheet.num_virt_rows - 1).toNat + 1) 1 = R at h
  rcases R with e | _ | _
  · rcases e with _ | ⟨t, hit⟩
    · simp at h
    · dsimp only at h
      by_cases ht : t = sheet.num_virt_rows
      · rw [if_pos ht] at h
        simp at h
      · rw [if_neg ht] at h
        obtain ⟨b1, hb1⟩ := find_block_rows_first_lookup sheet y 0 _ _ _ _ hrs
        have h1lt := (hrows 1 0 b1 hb1).2
        rcases find_block_rows_exit sheet y 0 _ _ _ _ h1lt hrs with ⟨g1, g2, g3⟩ | ⟨-, g2⟩
        · subst g1
          generalize find_block_cols sheet x t (sheet.num_virt_cols.toNat + 1) 0 = C at h
          rcases C with res | _ | _
          · obtain ⟨e2, ob⟩ := res
            rcases e2 with _ | ⟨c, hit2⟩
            · simp at h
            · dsimp only at h
              by_cases hc : c = sheet.num_virt_cols
              · rw [if_pos hc] at h
                simp at h
              · rw [if_neg hc] at h
                simp only [if_true, Outcome.ret.injEq, Prod.mk.injEq] at h
                obtain ⟨-, rfl⟩ := h
                cases hit2 <;> exact ⟨g2, g3⟩
          · simp at h
          · simp at h
        · exact absurd g2 ht
  · simp at h
  · simp at h

/-- C21: for every grid in which a block lookup outside
`0 ≤ virt_row < num_virt_rows` yields no block, a run of
`gnucash_sheet_draw_internal` with more loop iterations than
`num_virt_rows` never exhausts them: the loop that skips invisible rows
always ends and the function terminates.  The blocks it passes to
`draw_block` come in strictly increasing `virt_row` order, so at most one per
virtual row, and all of them lie in the virtual column that
`find_block_by_pixel` found for the viewport origin, from the virtual row
found on. -/
theorem draw_internal_terminates (sheet : GnucashSheet) (hrows : RowLookupBounded sheet)
    (fuel : Nat) (hfuel : sheet.num_virt_rows.toNat < fuel)
    (virt_loc : VirtualLocation) (x y width height : Int) :
    (gnucash_sheet_draw_internal sheet fuel virt_loc x y width height).2 ≠ .out_of_fuel ∧
    List.Pairwise (fun p q => p.1.virt_row < q.1.virt_row)
      (blocks_drawn (gnucash_sheet_draw_internal sheet fuel virt_loc x y width height).1) ∧
    ((blocks_drawn (gnucash_sheet_draw_internal sheet fuel virt_loc x y width height).1).map
      (fun p => p.1.virt_row)).Nodup ∧
    (∀ b vc, find_block_by_pixel sheet x y virt_loc.vcell_loc = .ret (some b, vc) →
      ∀ p ∈ blocks_drawn
          (gnucash_sheet_draw_internal sheet fuel virt_loc x y width height).1,
        p.1.virt_col = vc.virt_col ∧ vc.virt_row ≤ p.1.virt_row) := by
  have key : (gnucash_sheet_draw_internal sheet fuel virt_loc x y width height).2
        ≠ .out_of_fuel ∧
      List.Pairwise (fun p q => p.1.virt_row < q.1.virt_row)
        (blocks_drawn
          (gnucash_sheet_draw_internal sheet fuel virt_loc x y width height).1) ∧
      (∀ b vc, find_block_by_pixel sheet x y virt_loc.vcell_loc = .ret (some b, vc) →
        ∀ p ∈ blocks_drawn
            (gnucash_sheet_draw_internal sheet fuel virt_loc x y width height).1,
          p.1.virt_col = vc.virt_col ∧ vc.virt_row ≤ p.1.virt_row) := by
    unfold gnucash_sheet_draw_internal
    split_ifs with hneg
    · refine ⟨by simp, by simp [blocks_drawn], ?_⟩
      intro b vc _ p hp
      simp [blocks_drawn] at hp
    · have hff := find_block_by_pixel_fuel sheet x y virt_loc.vcell_loc
      cases hfind : find_block_by_pixel sheet x y virt_loc.vcell_loc with
      | null_deref =>
        refine ⟨by simp, by simp [blocks_drawn], ?_⟩
        intro b vc h
        cases h
      | out_of_fuel => exact absurd hfind hff
      | ret res =>
        obtain ⟨ob, vc1⟩ := res
        cases ob with
        | none =>
          refine ⟨by simp, by simp [blocks_drawn], ?_⟩
          intro b vc h
          simp at h
        | some sb =>
          simp only
          obtain ⟨hr1, hr2⟩ := find_block_by_pixel_row sheet hrows x y _ _ sb hfind
          cases hst : sb.style with
          | none =>
            refine ⟨by simp, by simp [blocks_drawn], ?_⟩
            intro b vc _ p hp
            simp [blocks_drawn] at hp
          | some st =>
            simp only
            refine ⟨draw_internal_rows_fuel sheet hrows _ x y width height fuel hfuel fuel
              vc1.virt_row (by omega) (by omega),
              draw_internal_rows_sorted sheet _ x y width height fuel fuel vc1.virt_row, ?_⟩
            intro b vc h p hp
            simp only [Outcome.ret.injEq, Prod.mk.injEq, Option.some.injEq] at h
            obtain ⟨-, rfl⟩ := h
            obtain ⟨-, -, -, g4, g5⟩ := draw_internal_rows_blocks sheet _ x y width height
              fuel fuel _ p hp
            exact ⟨g4, g5⟩
  obtain ⟨k1, k2, k3⟩ := key
  refine ⟨k1, k2, ?_, k3⟩
  rw [List.Nodup, List.pairwise_map]
  exact k2.imp (fun h => ne_of_lt h)

theorem draw_internal_terminates_witness :
    (gnucash_sheet_draw_internal (scenario_sheet 100) 10 loc0 0 40 100 50).2
      ≠ .out_of_fuel ∧
    ((blocks_drawn (gnucash_sheet_draw_internal (scenario_sheet 100) 10 loc0 0 40 100 50).1).map
      (fun p => p.1.virt_row)).Nodup := by
  have h := draw_internal_terminates (scenario_sheet 100)
    (fun r c b hb => ⟨(scenario_sheet_bounded 100 r c b hb).1,
      (scenario_sheet_bounded 100 r c b hb).2.1⟩)
    10 (by decide) loc0 0 40 100 50
  exact ⟨h.1, h.2.2.1⟩

/-! ## Theorems: the lookups of the Locator -/

theorem find_block_rows_traced_snd (sheet : GnucashSheet) (y col : Int) (fuel : Nat) :
    ∀ s, (find_block_rows_traced sheet y col fuel s).2 = find_block_rows sheet y col fuel s := by
  induction fuel with
  | zero => intro s; rfl
  | succ n ih =>
    intro s
    unfold find_block_rows_traced find_block_rows
    cases hb : sheet.get_block s col with
    | none => rfl
    | some b =>
      simp only
      cases htest : row_test b y with
      | null_deref => rfl
      | out_of_fuel => rfl
      | ret v =>
        cases v with
        | true => rfl
        | false =>
          simp only
          split_ifs with hlt
          · exact ih _
          · rfl

theorem find_block_cols_traced_snd (sheet : GnucashSheet) (x row : Int) (fuel : Nat) :
    ∀ s, (find_block_cols_traced sheet x row fuel s).2 = find_block_cols sheet x row fuel s := by
  induction fuel with
  | zero => intro s; rfl
  | succ n ih =>
    intro s
    unfold find_block_cols_traced find_block_cols
    cases hb : sheet.get_block row s with
    | none => rfl
    | some b =>
      simp only
      cases htest : col_test b x with
      | null_deref => rfl
      | out_of_fuel => rfl
      | ret v =>
        cases v with
        | true => rfl
        | false =>
          simp only
          split_ifs with hlt
          · exact ih _
          · rfl

theorem find_cell_rows_traced_snd (style : SheetBlockStyle) (y : Int) (fuel : Nat) :
    ∀ s, (find_cell_rows_traced style y fuel s).2 = find_cell_rows style y fuel s := by
  induction fuel with
  | zero => intro s; rfl
  | succ n ih =>
    intro s
    unfold find_cell_rows_traced find_cell_rows
    cases hcd : style.dimensions.cell_dimensions s 0 with
    | none => rfl
    | some cd =>
      simp only
      split_ifs with h1 h2
      · rfl
      · exact ih _
      · rfl

theorem find_cell_cols_traced_snd (style : SheetBlockStyle) (x row : Int) (fuel : Nat) :
    ∀ s, (find_cell_cols_traced style x row fuel s).2 = find_cell_cols style x row fuel s := by
  induction fuel with
  | zero => intro s; rfl
  | succ n ih =>
    intro s
    unfold find_cell_cols_traced find_cell_cols
    cases hcd : style.dimensions.cell_dimensions row s with
    | none => rfl
    | some cd =>
      simp only
      split_ifs with h1 h2
      · rfl
      · exact ih _
      · rfl

theorem find_block_rows_traced_bounds (sheet : GnucashSheet) (y col : Int)
    (hc0 : 0 ≤ col) (hc1 : col < sheet.num_virt_cols) (fuel : Nat) :
    ∀ s, 0 ≤ s → s < sheet.num_virt_rows →
      ∀ l ∈ (find_block_rows_traced sheet y col fuel s).1, lookup_in_bounds sheet l := by
  induction fuel with
  | zero => intro s _ _ l hl; simp [find_block_rows_traced] at hl
  | succ n ih =>
    intro s hs0 hs1 l hl
    have hhere : lookup_in_bounds sheet (Lookup.block s col) := ⟨hs0, hs1, hc0, hc1⟩
    unfold find_block_rows_traced at hl
    cases hb : sheet.get_block s col with
    | none =>
      simp only [hb, List.mem_singleton] at hl
      rw [hl]; exact hhere
    | some b =>
      simp only [hb] at hl
      cases htest : row_test b y with
      | null_deref =>
        simp only [htest, List.mem_singleton] at hl
        rw [hl]; exact hhere
      | out_of_fuel =>
        simp only [htest, List.mem_singleton] at hl
        rw [hl]; exact hhere
      | ret v =>
        cases v with
        | true =>
          simp only [htest, List.mem_singleton] at hl
          rw [hl]; exact hhere
        | false =>
          simp only [htest] at hl
          split_ifs at hl with hlt
          · simp only [List.mem_cons] at hl
            rcases hl with hl | hl
            · rw [hl]; exact hhere
            · exact ih _ (by omega) hlt l hl
          · simp only [List.mem_singleton] at hl
            rw [hl]; exact hhere

theorem find_block_cols_traced_bounds (sheet : GnucashSheet) (x row : Int)
    (hr0 : 0 ≤ row) (hr1 : row < sheet.num_virt_rows) (fuel : Nat) :
    ∀ s, 0 ≤ s → s < sheet.num_virt_cols →
      ∀ l ∈ (find_block_cols_traced sheet x row fuel s).1, lookup_in_bounds sheet l := by
  induction fuel with
  | zero => intro s _ _ l hl; simp [find_block_cols_traced] at hl
  | succ n ih =>
    intro s hs0 hs1 l hl
    have hhere : lookup_in_bounds sheet (Lookup.block row s) := ⟨hr0, hr1, hs0, hs1⟩
    unfold find_block_cols_traced at hl
    cases hb : sheet.get_block row s with
    | none =>
      simp only [hb, List.mem_singleton] at hl
      rw [hl]; exact hhere
    | some b =>
      simp only [hb] at hl
      cases htest : col_test b x with
      | null_deref =>
        simp only [htest, List.mem_singleton] at hl
        rw [hl]; exact hhere
      | out_of_fuel =>
        simp only [htest, List.mem_singleton] at hl
        rw [hl]; exact hhere
      | ret v =>
        cases v with
        | true =>
          simp only [htest, List.mem_singleton] at hl
          rw [hl]; exact hhere
        | false =>
          simp only [htest] at hl
          split_ifs at hl with hlt
          · simp only [List.mem_cons] at hl
            rcases hl with hl | hl
            · rw [hl]; exact hhere
            · exact ih _ (by omega) hlt l hl
          · simp only [List.mem_singleton] at hl
            rw [hl]; exact hhere

theorem find_cell_rows_exit (style : SheetBlockStyle) (y : Int) (fuel : Nat) :
    ∀ s t, s < style.nrows → find_cell_rows style y fuel s = .ret t →
      (s ≤ t ∧ t < style.nrows) ∨ t = style.nrows := by
  induction fuel with
  | zero => intro s t _ h; simp [find_cell_rows] at h
  | succ n ih =>
    intro s t hs h
    unfold find_cell_rows at h
    cases hcd : style.dimensions.cell_dimensions s 0 with
    | none => simp [hcd] at h
    | some cd =>
      simp only [hcd] at h
      split_ifs at h with h1 h2
      · simp only [Outcome.ret.injEq] at h
        subst h
        exact Or.inl ⟨le_refl _, hs⟩
      · rcases ih _ _ h2 h with ⟨g1, g2⟩ | g
        · exact Or.inl ⟨by omega, g2⟩
        · exact Or.inr g
      · simp only [Outcome.ret.injEq] at h
        subst h
        exact Or.inr (by omega)

theorem find_cell_rows_traced_bounds (sheet : GnucashSheet) (style : SheetBlockStyle)
    (hncols : 1 ≤ style.ncols) (y : Int) (fuel : Nat) :
    ∀ s, 0 ≤ s → s < style.nrows →
      ∀ l ∈ (find_cell_rows_traced style y fuel s).1, lookup_in_bounds sheet l := by
  induction fuel with
  | zero => intro s _ _ l hl; simp [find_cell_rows_traced] at hl
  | succ n ih =>
    intro s hs0 hs1 l hl
    have hhere : lookup_in_bounds sheet (Lookup.cell style s 0) :=
      ⟨hs0, hs1, le_refl _, by omega⟩
    unfold find_cell_rows_traced at hl
    cases hcd : style.dimensions.cell_dimensions s 0 with
    | none =>
      simp only [hcd, List.mem_singleton] at hl
      rw [hl]; exact hhere
    | some cd =>
      simp only [hcd] at hl
      split_ifs at hl with h1 h2
      · simp only [List.mem_singleton] at hl
        rw [hl]; exact hhere
      · simp only [List.mem_cons] at hl
        rcases hl with hl | hl
        · rw [hl]; exact hhere
        · exact ih _ (by omega) h2 l hl
      · simp only [List.mem_singleton] at hl
        rw [hl]; exact hhere

theorem find_cell_cols_traced_bounds (sheet : GnucashSheet) (style : SheetBlockStyle)
    (x row : Int) (hr0 : 0 ≤ row) (hr1 : row < style.nrows) (fuel : Nat) :
    ∀ s, 0 ≤ s → s < style.ncols →
      ∀ l ∈ (find_cell_cols_traced style x row fuel s).1, lookup_in_bounds sheet l := by
  induction fuel with
  | zero => intro s _ _ l hl; simp [find_cell_cols_traced] at hl
  | succ n ih =>
    intro s hs0 hs1 l hl
    have hhere : lookup_in_bounds sheet (Lookup.cell style row s) := ⟨hr0, hr1, hs0, hs1⟩
    unfold find_cell_cols_traced at hl
    cases hcd : style.dimensions.cell_dimensions row s with
    | none =>
      simp only [hcd, List.mem_singleton] at hl
      rw [hl]; exact hhere
    | some cd =>
      simp only [hcd] at hl
      split_ifs at hl with h1 h2
      · simp only [List.mem_singleton] at hl
        rw [hl]; exact hhere
      · simp only [List.mem_cons] at hl
        rcases hl with hl | hl
        · rw [hl]; exact hhere
        · exact ih _ (by omega) h2 l hl
      · simp only [List.mem_singleton] at hl
        rw [hl]; exact hhere

theorem find_block_by_pixel_found (sheet : GnucashSheet)
    (hnvr : 2 ≤ sheet.num_virt_rows) (hnvc : 1 ≤ sheet.num_virt_cols)
    (x y : Int) (vcl vc : VirtualCellLocation) (b : SheetBlock)
    (h : find_block_by_pixel sheet x y vcl = .ret (some b, vc)) :
    1 ≤ vc.virt_row ∧ vc.virt_row < sheet.num_virt_rows ∧
    0 ≤ vc.virt_col ∧ vc.virt_col < sheet.num_virt_cols ∧
    sheet.get_block vc.virt_row vc.virt_col = some b := by
  unfold find_block_by_pixel at h
  by_cases hy : y ≥ 0
  swap
  · rw [if_pos hy] at h
    simp at h
  by_cases hx : x ≥ 0
  swap
  · rw [if_neg (not_not.mpr hy), if_pos hx] at h
    simp at h
  rw [if_neg (not_not.mpr hy), if_neg (not_not.mpr hx)] at h
  generalize hrs : find_block_rows sheet y 0 ((sheet.num_virt_rows - 1).toNat + 1) 1 = R at h
  rcases R with e | _ | _
  · rcases e with _ | ⟨t, hit⟩
    · simp at h
    · dsimp only at h
      by_cases ht : t = sheet.num_virt_rows
      · rw [if_pos ht] at h
        simp at h
      · rw [if_neg ht] at h
        rcases find_block_rows_exit sheet y 0 _ _ _ _ (by omega) hrs with ⟨g1, g2, g3⟩ | ⟨-, g2⟩
        · subst g1
          generalize hcs : find_block_cols sheet x t (sheet.num_virt_cols.toNat + 1) 0 = C at h
          rcases C with res | _ | _
          · obtain ⟨e2, ob⟩ := res
            rcases e2 with _ | ⟨c, hit2⟩
            · simp at h
            · dsimp only at h
              by_cases hc : c = sheet.num_virt_cols
              · rw [if_pos hc] at h
                simp at h
              · rw [if_neg hc] at h
                rcases find_block_cols_exit sheet x t _ _ _ _ _ (by omega) hcs with
                  ⟨k1, k2, k3, b1, k4, k5⟩ | ⟨-, k2⟩
                · subst k1
                  simp only [if_true, Outcome.ret.injEq, Prod.mk.injEq] at h
                  obtain ⟨hob, rfl⟩ := h
                  rw [k4] at hob
                  cases hob
                  exact ⟨g2, g3, k2, k3, k5⟩
                · exact absurd k2 hc
          · simp at h
          · simp at h
        · exact absurd g2 ht
  · simp at h
  · simp at h

theorem find_block_by_pixel_traced_snd (sheet : GnucashSheet) (x y : Int)
    (vcl : VirtualCellLocation) :
    (find_block_by_pixel_traced sheet x y vcl).2 = find_block_by_pixel sheet x y vcl := by
  unfold find_block_by_pixel_traced find_block_by_pixel
  by_cases hy : y ≥ 0
  swap
  · rw [if_pos hy, if_pos hy]
  by_cases hx : x ≥ 0
  swap
  · rw [if_neg (not_not.mpr hy), if_pos hx, if_neg (not_not.mpr hy), if_pos hx]
  rw [if_neg (not_not.mpr hy), if_neg (not_not.mpr hx), if_neg (not_not.mpr hy),
    if_neg (not_not.mpr hx)]
  rw [← find_block_rows_traced_snd]
  generalize find_block_rows_traced sheet y 0 ((sheet.num_virt_rows - 1).toNat + 1) 1 = R
  obtain ⟨ls, o⟩ := R
  rcases o with e | _ | _
  · rcases e with _ | ⟨t, hit⟩
    · rfl
    · dsimp only
      by_cases ht : t = sheet.num_virt_rows
      · rw [if_pos ht, if_pos ht]
      · rw [if_neg ht, if_neg ht]
        rw [← find_block_cols_traced_snd]
        generalize find_block_cols_traced sheet x t (sheet.num_virt_cols.toNat + 1) 0 = C
        obtain ⟨ls2, o2⟩ := C
        rcases o2 with res | _ | _
        · obtain ⟨e2, ob⟩ := res
          rcases e2 with _ | ⟨c, hit2⟩
          · rfl
          · dsimp only
            by_cases hc : c = sheet.num_virt_cols
            · rw [if_pos hc, if_pos hc]
            · rw [if_neg hc, if_neg hc]
        · rfl
        · rfl
  · rfl
  · rfl

theorem find_block_by_pixel_traced_bounds (sheet : GnucashSheet)
    (hnvr : 2 ≤ sheet.num_virt_rows) (hnvc : 1 ≤ sheet.num_virt_cols)
    (x y : Int) (vcl : VirtualCellLocation) :
    ∀ l ∈ (find_block_by_pixel_traced sheet x y vcl).1, lookup_in_bounds sheet l := by
  intro l hl
  unfold find_block_by_pixel_traced at hl
  by_cases hy : y ≥ 0
  swap
  · rw [if_pos hy] at hl
    simp at hl
  by_cases hx : x ≥ 0
  swap
  · rw [if_neg (not_not.mpr hy), if_pos hx] at hl
    simp at hl
  rw [if_neg (not_not.mpr hy), if_neg (not_not.mpr hx)] at hl
  have hrb := find_block_rows_traced_bounds sheet y 0 (le_refl _) (by omega)
    ((sheet.num_virt_rows - 1).toNat + 1) 1 (by omega) (by omega)
  have hrs := find_block_rows_traced_snd sheet y 0 ((sheet.num_virt_rows - 1).toNat + 1) 1
  generalize find_block_rows_traced sheet y 0 ((sheet.num_virt_rows - 1).toNat + 1) 1 = R
    at hl hrb hrs
  obtain ⟨ls, o⟩ := R
  dsimp only at hrb hrs
  rcases o with e | _ | _
  · rcases e with _ | ⟨t, hit⟩
    · exact hrb l hl
    · dsimp only at hl
      by_cases ht : t = sheet.num_virt_rows
      · rw [if_pos ht] at hl
        exact hrb l hl
      · rw [if_neg ht] at hl
        rcases find_block_rows_exit sheet y 0 _ _ _ _ (by omega) hrs.symm with
          ⟨-, g2, g3⟩ | ⟨-, g2⟩
        · have hcb := find_block_cols_traced_bounds sheet x t (by omega) g3
            (sheet.num_virt_cols.toNat + 1) 0 (le_refl _) (by omega)
          generalize find_block_cols_traced sheet x t (sheet.num_virt_cols.toNat + 1) 0 = C
            at hl hcb
          obtain ⟨ls2, o2⟩ := C
          dsimp only at hcb
          have hmem : l ∈ ls ++ ls2 := by
            rcases o2 with res | _ | _
            · obtain ⟨e2, ob⟩ := res
              rcases e2 with _ | ⟨c, hit2⟩
              · exact hl
              · dsimp only at hl
                by_cases hc : c = sheet.num_virt_cols
                · rw [if_pos hc] at hl
                  exact hl
                · rw [if_neg hc] at hl
                  exact hl
            · exact hl
            · exact hl
          rcases List.mem_append.mp hmem with h1 | h1
          · exact hrb l h1
          · exact hcb l h1
        · exact absurd g2 ht
  · exact hrb l hl
  · exact hrb l hl

theorem find_cell_by_pixel_traced_snd (sheet : GnucashSheet) (x y : Int)
    (virt_loc : Option VirtualLocation) :
    (find_cell_by_pixel_traced sheet x y virt_loc).2 =
      find_cell_by_pixel sheet x y virt_loc := by
  unfold find_cell_by_pixel_traced find_cell_by_pixel
  cases virt_loc with
  | none => rfl
  | some loc =>
    dsimp only
    cases hb : sheet.get_block loc.vcell_loc.virt_row loc.vcell_loc.virt_col with
    | none => rfl
    | some b =>
      dsimp only
      cases hst : b.style with
      | none => rfl
      | some st =>
        dsimp only
        rw [← find_cell_rows_traced_snd]
        generalize find_cell_rows_traced st (y - b.origin_y) (st.nrows.toNat + 1) 0 = R
        obtain ⟨ls, o⟩ := R
        rcases o with row | _ | _
        · dsimp only
          by_cases hrow : row = st.nrows
          · rw [if_pos hrow, if_pos hrow]
          · rw [if_neg hrow, if_neg hrow]
            rw [← find_cell_cols_traced_snd]
            generalize find_cell_cols_traced st (x - b.origin_x) row (st.ncols.toNat + 1) 0 = C
            obtain ⟨ls2, o2⟩ := C
            rcases o2 with col | _ | _
            · dsimp only
              by_cases hcol : col = st.ncols
              · rw [if_pos hcol, if_pos hcol]
              · rw [if_neg hcol, if_neg hcol]
            · rfl
            · rfl
        · rfl
        · rfl

theorem find_cell_by_pixel_traced_bounds (sheet : GnucashSheet)
    (hpre : LocatorPrecondition sheet) (x y : Int) (loc : VirtualLocation)
    (hr0 : 0 ≤ loc.vcell_loc.virt_row) (hr1 : loc.vcell_loc.virt_row < sheet.num_virt_rows)
    (hc0 : 0 ≤ loc.vcell_loc.virt_col) (hc1 : loc.vcell_loc.virt_col < sheet.num_virt_cols) :
    ∀ l ∈ (find_cell_by_pixel_traced sheet x y (some loc)).1, lookup_in_bounds sheet l := by
  intro l hl
  have hhere : lookup_in_bounds sheet
      (Lookup.block loc.vcell_loc.virt_row loc.vcell_loc.virt_col) := ⟨hr0, hr1, hc0, hc1⟩
  obtain ⟨b, st, hb, hst, hnr, hnc⟩ := hpre.2.2 _ _ hr0 hr1 hc0 hc1
  unfold find_cell_by_pixel_traced at hl
  simp only [hb, hst] at hl
  have hrb := find_cell_rows_traced_bounds sheet st hnc (y - b.origin_y)
    (st.nrows.toNat + 1) 0 (le_refl _) (by omega)
  have hrs := find_cell_rows_traced_snd st (y - b.origin_y) (st.nrows.toNat + 1) 0
  generalize find_cell_rows_traced st (y - b.origin_y) (st.nrows.toNat + 1) 0 = R
    at hl hrb hrs
  obtain ⟨ls, o⟩ := R
  dsimp only at hrb hrs
  have hcons : ∀ ls2 : List Lookup, (∀ l ∈ ls2, lookup_in_bounds sheet l) →
      ∀ l ∈ Lookup.block loc.vcell_loc.virt_row loc.vcell_loc.virt_col :: (ls ++ ls2),
        lookup_in_bounds sheet l := by
    intro ls2 h2 l hl
    rcases List.mem_cons.mp hl with h | h
    · rw [h]; exact hhere
    · rcases List.mem_append.mp h with h | h
      · exact hrb l h
      · exact h2 l h
  have hcons0 := hcons [] (by simp)
  rw [List.append_nil] at hcons0
  rcases o with row | _ | _
  · dsimp only at hl
    by_cases hrow : row = st.nrows
    · rw [if_pos hrow] at hl
      exact hcons0 l hl
    · rw [if_neg hrow] at hl
      rcases find_cell_rows_exit st _ _ _ _ (by omega) hrs.symm with ⟨g1, g2⟩ | g
      · have hcb := find_cell_cols_traced_bounds sheet st (x - b.origin_x) row g1 g2
          (st.ncols.toNat + 1) 0 (le_refl _) (by omega)
        generalize find_cell_cols_traced st (x - b.origin_x) row (st.ncols.toNat + 1) 0 = C
          at hl hcb
        obtain ⟨ls2, o2⟩ := C
        dsimp only at hcb
        apply hcons ls2 hcb
        rcases o2 with col | _ | _
        · dsimp only at hl
          by_cases hcol : col = st.ncols
          · rw [if_pos hcol] at hl
            exact hl
          · rw [if_neg hcol] at hl
            exact hl
        · exact hl
        · exact hl
      · exact absurd g hrow
  · exact hcons0 l hl
  · exact hcons0 l hl

theorem find_loc_traced_snd (sheet : GnucashSheet) (x y : Int)
    (virt_loc : Option VirtualLocation) :
    (gnucash_sheet_find_loc_by_pixel_traced sheet x y virt_loc).2 =
      gnucash_sheet_find_loc_by_pixel sheet x y virt_loc := by
  unfold gnucash_sheet_find_loc_by_pixel_traced gnucash_sheet_find_loc_by_pixel
  cases virt_loc with
  | none => rfl
  | some loc =>
    dsimp only
    rw [← find_block_by_pixel_traced_snd]
    generalize find_block_by_pixel_traced sheet x y loc.vcell_loc = R
    obtain ⟨ls, o⟩ := R
    rcases o with res | _ | _
    · obtain ⟨ob, vc⟩ := res
      cases ob with
      | none => rfl
      | some b => exact find_cell_by_pixel_traced_snd _ _ _ _
    · rfl
    · rfl

theorem find_loc_traced_bounds (sheet : GnucashSheet) (hpre : LocatorPrecondition sheet)
    (x y : Int) (virt_loc : Option VirtualLocation) :
    ∀ l ∈ (gnucash_sheet_find_loc_by_pixel_traced sheet x y virt_loc).1,
      lookup_in_bounds sheet l := by
  intro l hl
  unfold gnucash_sheet_find_loc_by_pixel_traced at hl
  cases virt_loc with
  | none => simp at hl
  | some loc =>
    dsimp only at hl
    have hbb := find_block_by_pixel_traced_bounds sheet hpre.1 hpre.2.1 x y loc.vcell_loc
    have hbs := find_block_by_pixel_traced_snd sheet x y loc.vcell_loc
    generalize find_block_by_pixel_traced sheet x y loc.vcell_loc = R at hl hbb hbs
    obtain ⟨ls, o⟩ := R
    dsimp only at hbb hbs
    rcases o with res | _ | _
    · obtain ⟨ob, vc⟩ := res
      cases ob with
      | none => exact hbb l hl
      | some b =>
        dsimp only at hl
        obtain ⟨g1, g2, g3, g4, -⟩ :=
          find_block_by_pixel_found sheet hpre.1 hpre.2.1 x y _ _ _ hbs.symm
        rcases List.mem_append.mp hl with h | h
        · exact hbb l h
        · exact find_cell_by_pixel_traced_bounds sheet hpre x y _ (by dsimp only; omega) g2 g3 g4
            l h
    · exact hbb l hl
    · exact hbb l hl

theorem find_block_rows_traced_head (sheet : GnucashSheet) (y col : Int) (n : Nat) (s : Int) :
    ∃ rest, (find_block_rows_traced sheet y col (n + 1) s).1 = Lookup.block s col :: rest := by
  unfold find_block_rows_traced
  cases hb : sheet.get_block s col with
  | none => exact ⟨_, rfl⟩
  | some b =>
    dsimp only
    cases htest : row_test b y with
    | null_deref => exact ⟨_, rfl⟩
    | out_of_fuel => exact ⟨_, rfl⟩
    | ret v =>
      cases v with
      | true => exact ⟨_, rfl⟩
      | false =>
        dsimp only
        split_ifs with hlt
        · exact ⟨_, rfl⟩
        · exact ⟨_, rfl⟩

theorem find_block_by_pixel_traced_head (sheet : GnucashSheet) (x y : Int)
    (hx : 0 ≤ x) (hy : 0 ≤ y) (vcl : VirtualCellLocation) :
    ∃ rest, (find_block_by_pixel_traced sheet x y vcl).1 = Lookup.block 1 0 :: rest := by
  unfold find_block_by_pixel_traced
  rw [if_neg (not_not.mpr hy), if_neg (not_not.mpr hx)]
  obtain ⟨r0, hr0⟩ := find_block_rows_traced_head sheet y 0 (sheet.num_virt_rows - 1).toNat 1
  generalize find_block_rows_traced sheet y 0 ((sheet.num_virt_rows - 1).toNat + 1) 1 = R
    at hr0
  obtain ⟨ls, o⟩ := R
  dsimp only at hr0
  subst hr0
  rcases o with e | _ | _
  · rcases e with _ | ⟨t, hit⟩
    · exact ⟨_, rfl⟩
    · dsimp only
      by_cases ht : t = sheet.num_virt_rows
      · rw [if_pos ht]
        exact ⟨_, rfl⟩
      · rw [if_neg ht]
        generalize find_block_cols_traced sheet x t (sheet.num_virt_cols.toNat + 1) 0 = C
        obtain ⟨ls2, o2⟩ := C
        rcases o2 with res | _ | _
        · obtain ⟨e2, ob⟩ := res
          rcases e2 with _ | ⟨c, hit2⟩
          · exact ⟨_, rfl⟩
          · dsimp only
            by_cases hc : c = sheet.num_virt_cols
            · rw [if_pos hc]
              exact ⟨_, rfl⟩
            · rw [if_neg hc]
              exact ⟨_, rfl⟩
        · exact ⟨_, rfl⟩
        · exact ⟨_, rfl⟩
  · exact ⟨_, rfl⟩
  · exact ⟨_, rfl⟩

theorem find_loc_traced_head (sheet : GnucashSheet) (x y : Int)
    (hx : 0 ≤ x) (hy : 0 ≤ y) (loc : VirtualLocation) :
    ∃ rest, (gnucash_sheet_find_loc_by_pixel_traced sheet x y (some loc)).1 =
      Lookup.block 1 0 :: rest := by
  unfold gnucash_sheet_find_loc_by_pixel_traced
  dsimp only
  obtain ⟨r0, hr0⟩ := find_block_by_pixel_traced_head sheet x y hx hy loc.vcell_loc
  generalize find_block_by_pixel_traced sheet x y loc.vcell_loc = R at hr0
  obtain ⟨ls, o⟩ := R
  dsimp only at hr0
  subst hr0
  rcases o with res | _ | _
  · obtain ⟨ob, vc⟩ := res
    cases ob with
    | none => exact ⟨_, rfl⟩
    | some b => exact ⟨_, rfl⟩
  · exact ⟨_, rfl⟩
  · exact ⟨_, rfl⟩

theorem scenario_sheet_precondition (w : Int) : LocatorPrecondition (scenario_sheet w) := by
  refine ⟨show (2 : Int) ≤ 3 by decide, show (1 : Int) ≤ 1 by decide, ?_⟩
  intro r c hr0 hr1 hc0 hc1
  have hr1 : r < 3 := hr1
  have hc1 : c < 1 := hc1
  have hc : c = 0 := by omega
  refine ⟨{ style := some (style_2x1 w), origin_x := 0, origin_y := 40 * r,
            visible := true }, style_2x1 w, ?_, rfl,
    show (1 : Int) ≤ 2 by decide, show (1 : Int) ≤ 1 by decide⟩
  simp only [scenario_sheet]
  rw [if_pos ⟨hc, hr0, hr1⟩]

/-- C22: when the sheet has at least two virtual rows and one virtual column
and every block in range has a style with at least one physical row and one
physical column, every block lookup and every cell-dimension lookup made
during `gnucash_sheet_find_loc_by_pixel` is within bounds
(`0 ≤ virt_row < num_virt_rows`, `0 ≤ virt_col < num_virt_cols`,
`0 ≤ row < nrows`, `0 ≤ col < ncols`).  The record of lookups belongs to the
run of the function (it carries the same result), and for a pixel with
`x ≥ 0` and `y ≥ 0` it starts with the lookup of the block at virtual row 1,
column 0, made by the do-while loop before any bound is tested. -/
theorem find_loc_lookups_in_bounds (sheet : GnucashSheet) (hpre : LocatorPrecondition sheet)
    (x y : Int) (virt_loc : Option VirtualLocation) :
    (gnucash_sheet_find_loc_by_pixel_traced sheet x y virt_loc).2 =
      gnucash_sheet_find_loc_by_pixel sheet x y virt_loc ∧
    (∀ l ∈ (gnucash_sheet_find_loc_by_pixel_traced sheet x y virt_loc).1,
      lookup_in_bounds sheet l) ∧
    (∀ loc, virt_loc = some loc → 0 ≤ x → 0 ≤ y →
      ∃ rest, (gnucash_sheet_find_loc_by_pixel_traced sheet x y virt_loc).1 =
        Lookup.block 1 0 :: rest) := by
  refine ⟨find_loc_traced_snd sheet x y virt_loc,
    find_loc_traced_bounds sheet hpre x y virt_loc, ?_⟩
  intro loc hloc hx hy
  subst hloc
  exact find_loc_traced_head sheet x y hx hy loc

theorem find_loc_lookups_in_bounds_witness :
    LocatorPrecondition (scenario_sheet 100) ∧
    (gnucash_sheet_find_loc_by_pixel_traced (scenario_sheet 100) 5 65 (some loc0)).1.length = 6 ∧
    (gnucash_sheet_find_loc_by_pixel_traced (scenario_sheet 100) 5 65 (some loc0)).2 =
      gnucash_sheet_find_loc_by_pixel (scenario_sheet 100) 5 65 (some loc0) ∧
    (∀ l ∈ (gnucash_sheet_find_loc_by_pixel_traced (scenario_sheet 100) 5 65 (some loc0)).1,
      lookup_in_bounds (scenario_sheet 100) l) ∧
    (∀ loc, some loc0 = some loc → (0 : Int) ≤ 5 → (0 : Int) ≤ 65 →
      ∃ rest, (gnucash_sheet_find_loc_by_pixel_traced (scenario_sheet 100) 5 65
        (some loc0)).1 = Lookup.block 1 0 :: rest) :=
  ⟨scenario_sheet_precondition 100, by decide,
    find_loc_lookups_in_bounds (scenario_sheet 100) (scenario_sheet_precondition 100)
      5 65 (some loc0)⟩

end Gnucash
